import Mathlib

/-! # Column pruning over the logical plan (`pkg/planner/core/rule_column_pruning.go`)

A shallow embedding of the column-pruning handlers of the planner and the
properties of its specification.

Conventions of the embedding:

* Go slices that are deleted from in place are `GoSlice` values, which keep the
  cells of the backing array that an alias taken before the deletions still sees.
* A Go runtime panic (index or slice bound out of range, method call through a
  nil interface) is `Failure.panic`; an `error` value handed back by a handler is
  `Failure.error`.
* In-place mutation of a plan node is explicit state passing: a handler returns
  the node it hands to its caller, with the mutated receiver inside, and the
  session state (id allocators, optimizer trace).
* Helpers of other packages (`expression`, `model`, `coreusage`, ...) whose code is
  not part of the sources are parameters, collected in `ExprEnv` and `PlanEnv`,
  or definitions whose doc comment starts with `Modelled from the spec:`.
-/

namespace ColumnPruning

/-! ## Data model -/

/-- Modelled from the spec: the result type of a column or expression
(`types.FieldType`), reduced to its MySQL type code. -/
structure FieldType where
  tp : Nat
deriving DecidableEq, Repr

/-- Type code `mysql.TypeNull`. -/
def mysql.TypeNull : Nat := 6

/-- Type code `mysql.TypeLonglong`. -/
def mysql.TypeLonglong : Nat := 8

/-- Method `FieldType.GetType`. -/
def FieldType.GetType (ft : FieldType) : Nat := ft.tp

/-- Modelled from the spec: `expression.Column` has a globally unique id, a result
type and optionally a virtual expression (generated columns). Two columns are
equal iff their unique ids match. -/
structure Column (Expr : Type) where
  UniqueID : Int
  RetType : FieldType
  VirtualExpr : Option Expr
deriving DecidableEq, Repr

/-- Modelled from the spec: `expression.CorrelatedColumn` embeds a `Column`. -/
structure CorrelatedColumn (Expr : Type) where
  Column : Column Expr
deriving DecidableEq, Repr

/-- Modelled from the spec: `util.ByItems`, one entry of an ordered key list:
an expression and a direction. -/
structure ByItems (Expr : Type) where
  Expr : Expr
  Desc : Bool
deriving DecidableEq, Repr

/-- Modelled from the spec: a handle descriptor (`util.HandleCols`), reduced to
the two methods the pass calls, `IsInt()` and `GetCol(0)`. -/
structure HandleCols (Expr : Type) where
  isInt : Bool
  col0 : Column Expr
deriving DecidableEq, Repr

/-- Method `HandleCols.IsInt`. -/
def HandleCols.IsInt {Expr : Type} (h : HandleCols Expr) : Bool := h.isInt

/-- Method `HandleCols.GetCol`, at index 0. -/
def HandleCols.GetCol0 {Expr : Type} (h : HandleCols Expr) : Column Expr := h.col0

/-- Kinds of table (`table.Type`). -/
inductive TableType where
  | NormalTable
  | VirtualTable
  | ClusterTable
deriving DecidableEq, Repr

/-- Method `table.Type.IsClusterTable`. -/
def TableType.IsClusterTable : TableType → Bool
  | .ClusterTable => true
  | _ => false

/-- Modelled from the spec: the table metadata (`model.TableInfo`) fields read by
the pass. `TiFlashReplica` is a nullable pointer; its payload is an opaque number. -/
structure TableInfo where
  PKIsHandle : Bool
  TiFlashReplica : Option Nat
deriving DecidableEq, Repr

/-- Modelled from the spec: `table.Table`, reduced to `Type()` and `Meta()`. -/
structure Table where
  tp : TableType
  Meta : TableInfo
deriving DecidableEq, Repr

/-- Join types of `LogicalJoin`. -/
inductive JoinType where
  | InnerJoin
  | LeftOuterJoin
  | RightOuterJoin
  | SemiJoin
  | AntiSemiJoin
  | LeftOuterSemiJoin
  | AntiLeftOuterSemiJoin
deriving DecidableEq, Repr

/-- Fields of `BaseLogicalPlan` used by the pass: plan id, output schema
(`Schema().Columns`), output names, children, statistics handle and query block
offset. -/
structure BaseLogicalPlan (Expr Plan : Type) where
  id : Int
  schema : List (Column Expr)
  names : List String
  children : List Plan
  stats : Nat
  blockOffset : Int

/-- Table scan operator `DataSource`. -/
structure DataSource (Expr Info Plan : Type) where
  base : BaseLogicalPlan Expr Plan
  AllConds : List Expr
  Columns : List Info
  HandleCols : Option (HandleCols Expr)
  UnMutableHandleCols : Option (ColumnPruning.HandleCols Expr)
  ContainExprPrefixUk : Bool
  table : Table
  TableInfo : TableInfo
  ColsRequiringFullLen : List (Column Expr)

/-- Operator `LogicalProjection`. -/
structure LogicalProjection (Expr Plan : Type) where
  base : BaseLogicalPlan Expr Plan
  Exprs : List Expr

/-- Operator `LogicalJoin`. -/
structure LogicalJoin (Expr Plan : Type) where
  base : BaseLogicalPlan Expr Plan
  JoinType : JoinType
  EqualConditions : List Expr
  LeftConditions : List Expr
  RightConditions : List Expr
  OtherConditions : List Expr
  NAEQConditions : List Expr

/-- Operator `LogicalApply`: embeds `LogicalJoin` and adds the correlated columns. -/
structure LogicalApply (Expr Plan : Type) where
  join : LogicalJoin Expr Plan
  CorCols : List (CorrelatedColumn Expr)

/-- Operator `LogicalExpand`. -/
structure LogicalExpand (Expr Plan : Type) where
  base : BaseLogicalPlan Expr Plan
  DistinctGroupByCol : List (Column Expr)

/-- Operator `LogicalCTE`. -/
structure LogicalCTE (Expr Plan : Type) where
  base : BaseLogicalPlan Expr Plan

/-- Operator `LogicalCTETable`. -/
structure LogicalCTETable (Expr Plan : Type) where
  base : BaseLogicalPlan Expr Plan

/-- Operator `LogicalSequence`. -/
structure LogicalSequence (Expr Plan : Type) where
  base : BaseLogicalPlan Expr Plan

/-- Interface `base.LogicalPlan` as a tagged variant. `Other` stands for the
operators whose handlers live in other files (selection, aggregation, sort, ...),
tagged by an operator code. -/
inductive LogicalPlan (Expr Info : Type) where
  | DataSource (ds : DataSource Expr Info (LogicalPlan Expr Info))
  | Projection (proj : LogicalProjection Expr (LogicalPlan Expr Info))
  | Join (p : LogicalJoin Expr (LogicalPlan Expr Info))
  | Apply (la : LogicalApply Expr (LogicalPlan Expr Info))
  | Expand (p : LogicalExpand Expr (LogicalPlan Expr Info))
  | CTE (p : LogicalCTE Expr (LogicalPlan Expr Info))
  | CTETable (p : LogicalCTETable Expr (LogicalPlan Expr Info))
  | Sequence (p : LogicalSequence Expr (LogicalPlan Expr Info))
  | Other (tp : Nat) (base : BaseLogicalPlan Expr (LogicalPlan Expr Info))

/-- Accessor of the embedded `BaseLogicalPlan` of a node. -/
def LogicalPlan.base {Expr Info : Type} :
    LogicalPlan Expr Info → BaseLogicalPlan Expr (LogicalPlan Expr Info)
  | .DataSource ds => ds.base
  | .Projection proj => proj.base
  | .Join p => p.base
  | .Apply la => la.join.base
  | .Expand p => p.base
  | .CTE p => p.base
  | .CTETable p => p.base
  | .Sequence p => p.base
  | .Other _ b => b

/-- Method `Schema().Columns` of a plan: the schema stored in the node. The
sources hold no `Schema` method of their own for any operator; for a Sequence,
whose visible schema is that of its last child, this is the stored schema, which
`LogicalSequence.PruneColumns` does not refresh. -/
def LogicalPlan.Schema {Expr Info : Type} (p : LogicalPlan Expr Info) : List (Column Expr) :=
  p.base.schema

/-- Method `ID()` of a plan. -/
def LogicalPlan.ID {Expr Info : Type} (p : LogicalPlan Expr Info) : Int :=
  p.base.id

/-- Method `Children()` of a plan. -/
def LogicalPlan.Children {Expr Info : Type} (p : LogicalPlan Expr Info) :
    List (LogicalPlan Expr Info) :=
  p.base.children

/-! ## Session state, trace and failures -/

/-- Modelled from the spec: the session variables the pass reads or advances: the
plan id and column id allocators (monotonic counters), the MPP-enforcement flag
and the optimizer fix-control map (numeric key to boolean). -/
structure SessionVars where
  PlanID : Int
  PlanColumnID : Int
  MPPEnforced : Bool
  OptimizerFixControl : List (Nat × Bool)
deriving DecidableEq, Repr

/-- Modelled from the spec: the events the pass hands to the optimizer trace. Each
records the id of the plan it is about and the items passed to the trace helper. -/
inductive TraceStep (Expr : Type) where
  | ColumnPrune (planID : Int) (prunedColumns : List (Column Expr))
  | ByItemsPrune (planID : Int) (prunedByItems : List (ByItems Expr))
  | ApplyEliminate (planID : Int)
deriving DecidableEq, Repr

/-- State threaded through the handlers: session variables and the trace sink
`opt`, an append-only list of steps. -/
structure St (Expr : Type) where
  vars : SessionVars
  opt : List (TraceStep Expr)
deriving DecidableEq, Repr

/-- Ways a handler can fail: a Go runtime panic, or an `error` value. -/
inductive Failure where
  | panic
  | error (code : Nat)
deriving DecidableEq, Repr

/-- Helpers of the `expression` and `model` packages used by the pass, whose code
is not part of the sources. -/
structure ExprEnv (Expr Info : Type) where
  ExtractColumns : Expr → List (Column Expr)
  ExtractColumnsFromExpressions : List Expr → List (Column Expr)
  GcColumnExprIsTidbShard : Option Expr → Bool
  HashCode : Expr → List Nat
  IsRuntimeConstExpr : Expr → Bool
  GetType : Expr → FieldType
  Column2Exprs : List (Column Expr) → List Expr
  ToInfo : Column Expr → Info
  NewExtraHandleColInfo : Info
  NewOneType : FieldType
  Constant : Int → FieldType → Expr

/-- Fix-control key `fixcontrol.Fix45822`. -/
def fixcontrol.Fix45822 : Nat := 45822

/-- Modelled from the spec: `fixcontrol.GetBoolWithDefault`, the boolean stored
under a key, or the default when the key is absent. -/
def fixcontrol.GetBoolWithDefault (m : List (Nat × Bool)) (key : Nat) (dflt : Bool) : Bool :=
  match m.lookup key with
  | some b => b
  | none => dflt

/-- Modelled from the spec: `SessionVars.IsMPPEnforced`. -/
def SessionVars.IsMPPEnforced (v : SessionVars) : Bool := v.MPPEnforced

/-- Modelled from the spec: `SessionVars.AllocPlanColumnID`, a monotonic counter:
it advances the counter by one and returns the new value. -/
def SessionVars.AllocPlanColumnID (v : SessionVars) : Int × SessionVars :=
  (v.PlanColumnID + 1, { v with PlanColumnID := v.PlanColumnID + 1 })

/-- Modelled from the spec: `logicaltrace.AppendColumnPruneTraceStep`, which hands
the columns a node dropped from its own schema to the trace. -/
def AppendColumnPruneTraceStep {Expr : Type} (planID : Int)
    (prunedColumns : List (Column Expr)) (st : St Expr) : St Expr :=
  { st with opt := st.opt ++ [TraceStep.ColumnPrune planID prunedColumns] }

/-- Modelled from the spec: `logicaltrace.AppendByItemsPruneTraceStep`, which hands
the dropped by-items to the trace. -/
def AppendByItemsPruneTraceStep {Expr : Type} (planID : Int)
    (prunedByItems : List (ByItems Expr)) (st : St Expr) : St Expr :=
  { st with opt := st.opt ++ [TraceStep.ByItemsPrune planID prunedByItems] }

/-- Modelled from the spec: `logicaltrace.ApplyEliminateTraceStep`, which records
that an apply was eliminated, for the given plan. -/
def ApplyEliminateTraceStep {Expr : Type} (planID : Int) (st : St Expr) : St Expr :=
  { st with opt := st.opt ++ [TraceStep.ApplyEliminate planID] }

/-! ## Schema helpers -/

/-- Modelled from the spec: `Schema.ColumnIndex`, the first position whose column
has the unique id of `col`, or `-1`. -/
def Schema.ColumnIndex {Expr : Type} : List (Column Expr) → Column Expr → Int
  | [], _ => -1
  | c :: cs, col =>
    if c.UniqueID = col.UniqueID then 0
    else if Schema.ColumnIndex cs col = -1 then -1
    else Schema.ColumnIndex cs col + 1

/-- Modelled from the spec: `Schema.Contains`, by unique id. -/
def Schema.Contains {Expr : Type} (s : List (Column Expr)) (col : Column Expr) : Bool :=
  decide (Schema.ColumnIndex s col ≠ -1)

/-- Modelled from the spec: `expression.GetUsedList`, the position-aligned mask
of the schema columns whose unique id appears among `usedCols`. -/
def GetUsedList {Expr : Type} (usedCols : List (Column Expr)) (schema : List (Column Expr)) :
    List Bool :=
  schema.map (fun c => Schema.Contains usedCols c)

/-! ## Go slices deleted from in place -/

/-- A Go slice together with the cells of its backing array that lie between its
current length and the length it had when an alias of it was taken: `vis` are the
elements of the slice, `vis ++ spare` is what the alias sees. -/
structure GoSlice (α : Type) where
  vis : List α
  spare : List α
deriving DecidableEq, Repr

/-- Slice over a fresh alias: nothing deleted yet. -/
def GoSlice.ofList {α : Type} (l : List α) : GoSlice α := ⟨l, []⟩

/-- What an alias taken before the deletions sees. -/
def GoSlice.alias {α : Type} (s : GoSlice α) : List α := s.vis ++ s.spare

/-- Statement `s = append(s[:i], s[i+1:]...)`: panics unless `i + 1 ≤ len(s)`;
otherwise moves the cells after `i` one position down in the same backing array,
so the cell that held the last element keeps its value and leaves the slice. -/
def GoSlice.deleteAt {α : Type} (s : GoSlice α) (i : Nat) : Except Failure (GoSlice α) :=
  match s.vis.getLast? with
  | none => .error .panic
  | some last =>
    if i + 1 ≤ s.vis.length then .ok ⟨s.vis.eraseIdx i, last :: s.spare⟩
    else .error .panic

/-! ## DataSource (`rule_column_pruning.go`, lines 104-168 and 288-311) -/

section DataSourceDefs

variable {Expr Info : Type}

/-- Modelled from the spec: `DataSource.newExtraHandleSchemaCol`, a freshly
synthesised extra-handle column (the row id) with a fresh unique id. -/
def newExtraHandleSchemaCol (st : St Expr) : Column Expr × St Expr :=
  ({ UniqueID := st.vars.AllocPlanColumnID.1, RetType := ⟨mysql.TypeLonglong⟩,
     VirtualExpr := none },
   { st with vars := st.vars.AllocPlanColumnID.2 })

/-- Function `preferKeyColumnFromTable` (lines 288-311). As in the source, the
parameter called `originColumns` receives the schema columns and the parameter
called `originSchemaColumns` receives the column infos. -/
def preferKeyColumnFromTable (E : ExprEnv Expr Info)
    (dataSource : DataSource Expr Info (LogicalPlan Expr Info))
    (originColumns : List (Column Expr)) (originSchemaColumns : List Info) (st : St Expr) :
    Except Failure (Column Expr × Info × St Expr) :=
  if dataSource.table.tp.IsClusterTable && decide (originColumns.length > 0) then
    match originSchemaColumns[0]?, originColumns[0]? with
    | some resultColumnInfo, some resultColumn => .ok (resultColumn, resultColumnInfo, st)
    | _, _ => .error .panic
  else
    match dataSource.HandleCols with
    | some h => .ok (h.GetCol0, E.ToInfo h.GetCol0, st)
    | none =>
      if dataSource.table.Meta.PKIsHandle then
        match dataSource.UnMutableHandleCols with
        | some h => .ok (h.GetCol0, E.ToInfo h.GetCol0, st)
        | none => .error .panic
      else
        .ok ((newExtraHandleSchemaCol st).1, E.NewExtraHandleColInfo,
             (newExtraHandleSchemaCol st).2)

/-- First loop of `DataSource.PruneColumns` (lines 115-120): the schema columns
that are used by the parent or are `tidb_shard()` generated columns of a table
with an expression-prefix unique key. `used` is position-aligned with the schema. -/
def DataSource.colsRequiringFullLen (E : ExprEnv Expr Info) (containExprPrefixUk : Bool) :
    List (Column Expr) → List Bool → List (Column Expr)
  | col :: cols, u :: us =>
    if u || (containExprPrefixUk && E.GcColumnExprIsTidbShard col.VirtualExpr) then
      col :: DataSource.colsRequiringFullLen E containExprPrefixUk cols us
    else DataSource.colsRequiringFullLen E containExprPrefixUk cols us
  | _, _ => []

/-- Variables of the deletion loop of `DataSource.PruneColumns`: the pruned
columns collected so far, `ds.Schema().Columns` and `ds.Columns`. -/
structure PruneLoop (Expr Info : Type) where
  prunedColumns : List (Column Expr)
  schema : GoSlice (Column Expr)
  columns : GoSlice Info

/-- Body of the deletion loop of `DataSource.PruneColumns` at index `i`
(lines 123-133). -/
def DataSource.pruneStep (E : ExprEnv Expr Info) (containExprPrefixUk : Bool)
    (used exprUsed : List Bool) (i : Nat) (s : PruneLoop Expr Info) :
    Except Failure (PruneLoop Expr Info) :=
  match used[i]?, exprUsed[i]? with
  | some u, some e =>
    if !u && !e then
      match s.schema.vis[i]? with
      | none => .error .panic
      | some col =>
        if containExprPrefixUk && E.GcColumnExprIsTidbShard col.VirtualExpr then .ok s
        else
          match s.schema.deleteAt i, s.columns.deleteAt i with
          | .ok schema, .ok columns =>
            .ok { prunedColumns := s.prunedColumns ++ [col], schema := schema, columns := columns }
          | _, _ => .error .panic
    else .ok s
  | _, _ => .error .panic

/-- Deletion loop of `DataSource.PruneColumns` (lines 122-134),
`for i := n - 1; i >= 0; i--`, started with `n = len(used)`. -/
def DataSource.pruneLoop (E : ExprEnv Expr Info) (containExprPrefixUk : Bool)
    (used exprUsed : List Bool) : Nat → PruneLoop Expr Info → Except Failure (PruneLoop Expr Info)
  | 0, s => .ok s
  | i + 1, s =>
    match DataSource.pruneStep E containExprPrefixUk used exprUsed i s with
    | .ok s1 => DataSource.pruneLoop E containExprPrefixUk used exprUsed i s1
    | .error f => .error f

/-- Handle reset of `DataSource.PruneColumns` (lines 152-154). -/
def DataSource.resetHandleCols (ds : DataSource Expr Info (LogicalPlan Expr Info)) :
    DataSource Expr Info (LogicalPlan Expr Info) :=
  match ds.HandleCols with
  | some h =>
    if h.IsInt && decide (Schema.ColumnIndex ds.base.schema h.GetCol0 = -1) then
      { ds with HandleCols := none }
    else ds
  | none => ds

/-- Lines 106-154 of `DataSource.PruneColumns`: everything the handler does to its
receiver. Returns the receiver after the mutations, the flag `addOneHandle` and the
session state. -/
def DataSource.pruneInPlace (E : ExprEnv Expr Info)
    (ds : DataSource Expr Info (LogicalPlan Expr Info))
    (parentUsedCols : List (Column Expr)) (st : St Expr) :
    Except Failure (DataSource Expr Info (LogicalPlan Expr Info) × Bool × St Expr) :=
  let used := GetUsedList parentUsedCols ds.base.schema
  let exprCols := E.ExtractColumnsFromExpressions ds.AllConds
  let exprUsed := GetUsedList exprCols ds.base.schema
  let ds0 : DataSource Expr Info (LogicalPlan Expr Info) :=
    { ds with ColsRequiringFullLen :=
        DataSource.colsRequiringFullLen E ds.ContainExprPrefixUk ds.base.schema used }
  match DataSource.pruneLoop E ds.ContainExprPrefixUk used exprUsed used.length
      { prunedColumns := [], schema := GoSlice.ofList ds.base.schema,
        columns := GoSlice.ofList ds.Columns } with
  | .error f => .error f
  | .ok l =>
    let ds1 : DataSource Expr Info (LogicalPlan Expr Info) :=
      { ds0 with base := { ds0.base with schema := l.schema.vis }, Columns := l.columns.vis }
    let st1 := AppendColumnPruneTraceStep ds.base.id l.prunedColumns st
    if ds1.base.schema.length = 0 then
      match preferKeyColumnFromTable E ds1 l.schema.alias l.columns.alias st1 with
      | .error f => .error f
      | .ok (handleCol, handleColInfo, st2) =>
        let ds2 : DataSource Expr Info (LogicalPlan Expr Info) :=
          { ds1 with Columns := ds1.Columns ++ [handleColInfo],
                     base := { ds1.base with schema := ds1.base.schema ++ [handleCol] } }
        .ok (ds2.resetHandleCols, true, st2)
    else
      .ok (ds1.resetHandleCols, false, st1)

/-- Modelled from the spec: `logicalop.NewBaseLogicalPlan` as called by the `Init`
methods: a base with a freshly allocated plan id, the given query block offset and
nothing else set. -/
def NewBaseLogicalPlan (st : St Expr) (offset : Int) :
    BaseLogicalPlan Expr (LogicalPlan Expr Info) × St Expr :=
  ({ id := st.vars.PlanID + 1, schema := [], names := [], children := [], stats := 0,
     blockOffset := offset },
   { st with vars := { st.vars with PlanID := st.vars.PlanID + 1 } })

/-- Method `DataSource.PruneColumns` (lines 104-168). -/
def DataSource.PruneColumns (E : ExprEnv Expr Info)
    (ds : DataSource Expr Info (LogicalPlan Expr Info))
    (parentUsedCols : List (Column Expr)) (st : St Expr) :
    Except Failure (LogicalPlan Expr Info × St Expr) :=
  match DataSource.pruneInPlace E ds parentUsedCols st with
  | .error f => .error f
  | .ok (ds1, addOneHandle, st1) =>
    if !addOneHandle && decide (ds1.base.schema.length > parentUsedCols.length) &&
        st1.vars.IsMPPEnforced && ds1.TableInfo.TiFlashReplica.isSome then
      let b : BaseLogicalPlan Expr (LogicalPlan Expr Info) :=
        (@NewBaseLogicalPlan Expr Info st1 ds1.base.blockOffset).1
      .ok (LogicalPlan.Projection
            { base := { b with stats := ds1.base.stats, schema := parentUsedCols,
                               children := [LogicalPlan.DataSource ds1] },
              Exprs := E.Column2Exprs parentUsedCols },
           (@NewBaseLogicalPlan Expr Info st1 ds1.base.blockOffset).2)
    else
      .ok (LogicalPlan.DataSource ds1, st1)

end DataSourceDefs

/-! ## By-items (`pruneByItems`, lines 73-102) -/

section ByItemsDefs

variable {Expr Info : Type}

/-- Variables of the loop of `pruneByItems`: the set `seen` of hashes, the
retained items `byItems`, the extra demand `parentUsedCols` and the dropped items
`prunedByItems`. -/
structure ByItemsLoop (Expr : Type) where
  seen : List (List Nat)
  byItems : List (ByItems Expr)
  parentUsedCols : List (Column Expr)
  prunedByItems : List (ByItems Expr)

/-- Body of the loop of `pruneByItems` for one item (lines 79-98). -/
def pruneByItemsStep (E : ExprEnv Expr Info) (s : ByItemsLoop Expr) (byItem : ByItems Expr) :
    ByItemsLoop Expr :=
  let hash := E.HashCode byItem.Expr
  let hashMatch := decide (hash ∈ s.seen)
  let seen := hash :: s.seen
  let cols := E.ExtractColumns byItem.Expr
  if !hashMatch then
    if cols.length = 0 then
      if !E.IsRuntimeConstExpr byItem.Expr then
        { seen := seen, byItems := s.byItems ++ [byItem], parentUsedCols := s.parentUsedCols,
          prunedByItems := s.prunedByItems }
      else
        { seen := seen, byItems := s.byItems, parentUsedCols := s.parentUsedCols,
          prunedByItems := s.prunedByItems ++ [byItem] }
    else if (E.GetType byItem.Expr).GetType ≠ mysql.TypeNull then
      { seen := seen, byItems := s.byItems ++ [byItem],
        parentUsedCols := s.parentUsedCols ++ cols, prunedByItems := s.prunedByItems }
    else
      { seen := seen, byItems := s.byItems, parentUsedCols := s.parentUsedCols,
        prunedByItems := s.prunedByItems ++ [byItem] }
  else
    { seen := seen, byItems := s.byItems, parentUsedCols := s.parentUsedCols,
      prunedByItems := s.prunedByItems ++ [byItem] }

/-- Loop of `pruneByItems` over the items `old` (lines 75-99). -/
def pruneByItemsLoop (E : ExprEnv Expr Info) (old : List (ByItems Expr)) : ByItemsLoop Expr :=
  old.foldl (pruneByItemsStep E) { seen := [], byItems := [], parentUsedCols := [],
                                   prunedByItems := [] }

/-- Function `pruneByItems` (lines 73-102), for the plan with id `planID`: the
retained items, the extra demand and the state with the trace step appended. -/
def pruneByItems (E : ExprEnv Expr Info) (planID : Int) (old : List (ByItems Expr))
    (st : St Expr) : List (ByItems Expr) × List (Column Expr) × St Expr :=
  ((pruneByItemsLoop E old).byItems, (pruneByItemsLoop E old).parentUsedCols,
   AppendByItemsPruneTraceStep planID (pruneByItemsLoop E old).prunedByItems st)

end ByItemsDefs

/-! ## Handlers with children -/

section HandlerDefs

variable {Expr Info : Type}

/-- Helpers of the planner used by the join and apply handlers, whose code is not
part of the sources. -/
structure PlanEnv (Expr Info : Type) where
  buildLogicalJoinSchema : JoinType → LogicalJoin Expr (LogicalPlan Expr Info) →
    List (Column Expr)
  InlineProjection : LogicalJoin Expr (LogicalPlan Expr Info) → List (Column Expr) →
    St Expr → LogicalJoin Expr (LogicalPlan Expr Info) × St Expr
  ExtractCorColumnsBySchema4LogicalPlan : LogicalPlan Expr Info → List (Column Expr) →
    List (CorrelatedColumn Expr)

/-- Dynamic dispatch of `PruneColumns` on a child: the handler of whatever
operator the child is. -/
abbrev PruneFn (Expr Info : Type) :=
  LogicalPlan Expr Info → List (Column Expr) → St Expr →
    Except Failure (LogicalPlan Expr Info × St Expr)

/-- Variables of the deletion loop of `LogicalExpand.PruneColumns`: the pruned
columns collected so far, `p.Schema().Columns` and `p.OutputNames()`. -/
structure ExpandLoop (Expr : Type) where
  prunedColumns : List (Column Expr)
  schema : GoSlice (Column Expr)
  names : GoSlice String

/-- Body of the deletion loop of `LogicalExpand.PruneColumns` at index `i`
(lines 57-61). -/
def LogicalExpand.pruneStep (used : List Bool) (i : Nat) (s : ExpandLoop Expr) :
    Except Failure (ExpandLoop Expr) :=
  match used[i]? with
  | some u =>
    if !u then
      match s.schema.vis[i]? with
      | none => .error .panic
      | some col =>
        match s.schema.deleteAt i, s.names.deleteAt i with
        | .ok schema, .ok names =>
          .ok { prunedColumns := s.prunedColumns ++ [col], schema := schema, names := names }
        | _, _ => .error .panic
    else .ok s
  | none => .error .panic

/-- Deletion loop of `LogicalExpand.PruneColumns` (lines 56-62),
`for i := n - 1; i >= 0; i--`, started with `n = len(used)`. -/
def LogicalExpand.pruneLoop (used : List Bool) :
    Nat → ExpandLoop Expr → Except Failure (ExpandLoop Expr)
  | 0, s => .ok s
  | i + 1, s =>
    match LogicalExpand.pruneStep used i s with
    | .ok s1 => LogicalExpand.pruneLoop used i s1
    | .error f => .error f

/-- Method `LogicalExpand.PruneColumns` (lines 50-71); `prune` is the dispatch of
`PruneColumns` on the child. -/
def LogicalExpand.PruneColumns (prune : PruneFn Expr Info)
    (p : LogicalExpand Expr (LogicalPlan Expr Info))
    (parentUsedCols : List (Column Expr)) (st : St Expr) :
    Except Failure (LogicalPlan Expr Info × St Expr) :=
  let parentUsedCols := parentUsedCols ++ p.DistinctGroupByCol
  let used := GetUsedList parentUsedCols p.base.schema
  match LogicalExpand.pruneLoop used used.length
      { prunedColumns := [], schema := GoSlice.ofList p.base.schema,
        names := GoSlice.ofList p.base.names } with
  | .error f => .error f
  | .ok l =>
    let st1 := AppendColumnPruneTraceStep p.base.id l.prunedColumns st
    match p.base.children[0]? with
    | none => .error .panic
    | some child =>
      match prune child parentUsedCols st1 with
      | .error f => .error f
      | .ok (child1, st2) =>
        .ok (LogicalPlan.Expand
              { p with base := { p.base with schema := l.schema.vis, names := l.names.vis,
                                             children := p.base.children.set 0 child1 } },
             st2)

/-- The five loops at the head of `LogicalJoin.extractUsedCols` (lines 171-185):
the demand followed by the columns of the equal, left, right, other and
null-aware-equal conditions. -/
def LogicalJoin.allUsedCols (E : ExprEnv Expr Info)
    (p : LogicalJoin Expr (LogicalPlan Expr Info)) (parentUsedCols : List (Column Expr)) :
    List (Column Expr) :=
  let c1 := p.EqualConditions.foldl (fun acc cond => acc ++ E.ExtractColumns cond) parentUsedCols
  let c2 := p.LeftConditions.foldl (fun acc cond => acc ++ E.ExtractColumns cond) c1
  let c3 := p.RightConditions.foldl (fun acc cond => acc ++ E.ExtractColumns cond) c2
  let c4 := p.OtherConditions.foldl (fun acc cond => acc ++ E.ExtractColumns cond) c3
  p.NAEQConditions.foldl (fun acc cond => acc ++ E.ExtractColumns cond) c4

/-- Body of the last loop of `LogicalJoin.extractUsedCols` (lines 189-193). -/
def LogicalJoin.splitStep (lSchema rSchema : List (Column Expr))
    (acc : List (Column Expr) × List (Column Expr)) (col : Column Expr) :
    List (Column Expr) × List (Column Expr) :=
  if Schema.Contains lSchema col then (acc.1 ++ [col], acc.2)
  else if Schema.Contains rSchema col then (acc.1, acc.2 ++ [col])
  else acc

/-- Method `LogicalJoin.extractUsedCols` (lines 170-196). The lists start out
`nil`, so a list is `nil` exactly when it is empty. -/
def LogicalJoin.extractUsedCols (E : ExprEnv Expr Info)
    (p : LogicalJoin Expr (LogicalPlan Expr Info)) (parentUsedCols : List (Column Expr)) :
    Except Failure (List (Column Expr) × List (Column Expr)) :=
  match p.base.children[0]?, p.base.children[1]? with
  | some lChild, some rChild =>
    .ok ((LogicalJoin.allUsedCols E p parentUsedCols).foldl
          (LogicalJoin.splitStep lChild.Schema rChild.Schema) ([], []))
  | _, _ => .error .panic

/-- Method `LogicalJoin.mergeSchema` (lines 198-200). -/
def LogicalJoin.mergeSchema (P : PlanEnv Expr Info)
    (p : LogicalJoin Expr (LogicalPlan Expr Info)) : LogicalJoin Expr (LogicalPlan Expr Info) :=
  { p with base := { p.base with schema := P.buildLogicalJoinSchema p.JoinType p } }

/-- Function `addConstOneForEmptyProjection` (lines 266-286). `expression.NewOne()`
is the integer constant 1, of type `E.NewOneType`. -/
def addConstOneForEmptyProjection (E : ExprEnv Expr Info) (p : LogicalPlan Expr Info)
    (st : St Expr) : LogicalPlan Expr Info × St Expr :=
  match p with
  | .Projection proj =>
    if proj.base.schema.length ≠ 0 then (p, st)
    else
      (LogicalPlan.Projection
        { proj with
          base := { proj.base with
            schema := proj.base.schema ++
              [{ UniqueID := st.vars.AllocPlanColumnID.1, RetType := E.NewOneType,
                 VirtualExpr := none }] },
          Exprs := proj.Exprs ++ [E.Constant 1 E.NewOneType] },
       { st with vars := st.vars.AllocPlanColumnID.2 })
  | _ => (p, st)

/-- Method `LogicalJoin.PruneColumns` (lines 202-226). -/
def LogicalJoin.PruneColumns (E : ExprEnv Expr Info) (P : PlanEnv Expr Info)
    (prune : PruneFn Expr Info) (p : LogicalJoin Expr (LogicalPlan Expr Info))
    (parentUsedCols : List (Column Expr)) (st : St Expr) :
    Except Failure (LogicalPlan Expr Info × St Expr) :=
  match LogicalJoin.extractUsedCols E p parentUsedCols, p.base.children[0]?,
      p.base.children[1]? with
  | .ok (leftCols, rightCols), some child0, some child1 =>
    match prune child0 leftCols st with
    | .error f => .error f
    | .ok (l1, st1) =>
      let l2 := addConstOneForEmptyProjection E l1 st1
      match prune child1 rightCols l2.2 with
      | .error f => .error f
      | .ok (r1, st3) =>
        let r2 := addConstOneForEmptyProjection E r1 st3
        let p1 : LogicalJoin Expr (LogicalPlan Expr Info) :=
          { p with base := { p.base with
              children := (p.base.children.set 0 l2.1).set 1 r2.1 } }
        let p2 := LogicalJoin.mergeSchema P p1
        if p2.JoinType = JoinType.LeftOuterSemiJoin ∨
            p2.JoinType = JoinType.AntiLeftOuterSemiJoin then
          match p2.base.schema.getLast? with
          | none => .error .panic
          | some joinCol =>
            let r := P.InlineProjection p2 (parentUsedCols ++ [joinCol]) r2.2
            .ok (LogicalPlan.Join r.1, r.2)
        else
          let r := P.InlineProjection p2 parentUsedCols r2.2
          .ok (LogicalPlan.Join r.1, r.2)
  | _, _, _ => .error .panic

/-- Method `LogicalApply.PruneColumns` (lines 228-260). -/
def LogicalApply.PruneColumns (E : ExprEnv Expr Info) (P : PlanEnv Expr Info)
    (prune : PruneFn Expr Info) (la : LogicalApply Expr (LogicalPlan Expr Info))
    (parentUsedCols : List (Column Expr)) (st : St Expr) :
    Except Failure (LogicalPlan Expr Info × St Expr) :=
  match LogicalJoin.extractUsedCols E la.join parentUsedCols, la.join.base.children[0]?,
      la.join.base.children[1]? with
  | .ok (leftCols, rightCols), some child0, some child1 =>
    let allowEliminateApply :=
      fixcontrol.GetBoolWithDefault st.vars.OptimizerFixControl fixcontrol.Fix45822 true
    if allowEliminateApply && rightCols.isEmpty &&
        decide (la.join.JoinType = JoinType.LeftOuterJoin) then
      prune child0 parentUsedCols (ApplyEliminateTraceStep child1.ID st)
    else
      match prune child1 rightCols st with
      | .error f => .error f
      | .ok (r1, st1) =>
        let r2 := addConstOneForEmptyProjection E r1 st1
        let corCols := P.ExtractCorColumnsBySchema4LogicalPlan r2.1 child0.Schema
        let leftCols := leftCols ++ corCols.map (fun col => col.Column)
        match prune child0 leftCols r2.2 with
        | .error f => .error f
        | .ok (l1, st3) =>
          let l2 := addConstOneForEmptyProjection E l1 st3
          let j1 : LogicalJoin Expr (LogicalPlan Expr Info) :=
            { la.join with base := { la.join.base with
                children := (la.join.base.children.set 1 r2.1).set 0 l2.1 } }
          .ok (LogicalPlan.Apply { join := LogicalJoin.mergeSchema P j1, CorCols := corCols },
               l2.2)
  | _, _, _ => .error .panic

/-- Method `LogicalCTE.PruneColumns` (lines 313-317). -/
def LogicalCTE.PruneColumns (p : LogicalCTE Expr (LogicalPlan Expr Info))
    (_parentUsedCols : List (Column Expr)) (st : St Expr) :
    Except Failure (LogicalPlan Expr Info × St Expr) :=
  .ok (LogicalPlan.CTE p, st)

/-- Method `LogicalSequence.PruneColumns` (lines 319-327). With no child the index
`ChildLen() - 1` is out of range. -/
def LogicalSequence.PruneColumns (prune : PruneFn Expr Info)
    (p : LogicalSequence Expr (LogicalPlan Expr Info))
    (parentUsedCols : List (Column Expr)) (st : St Expr) :
    Except Failure (LogicalPlan Expr Info × St Expr) :=
  match p.base.children.getLast? with
  | none => .error .panic
  | some last =>
    match prune last parentUsedCols st with
    | .error f => .error f
    | .ok (last1, st1) =>
      .ok (LogicalPlan.Sequence
            { p with base := { p.base with
                children := p.base.children.set (p.base.children.length - 1) last1 } },
           st1)

/-- Dynamic dispatch `lp.PruneColumns(...)` on the interface `base.LogicalPlan`:
the handlers of this file at the `n` outermost levels of the plan; the operators
handled in other files (projection, CTE table and the rest), and everything below
level `n`, go to `others`. For a plan whose operators of this file nest at most `n`
deep, every node is pruned by its own handler. -/
def LogicalPlan.PruneColumns (E : ExprEnv Expr Info) (P : PlanEnv Expr Info)
    (others : PruneFn Expr Info) : Nat → PruneFn Expr Info
  | 0 => others
  | n + 1 => fun p parentUsedCols st =>
    match p with
    | .DataSource ds => DataSource.PruneColumns E ds parentUsedCols st
    | .Join j =>
      LogicalJoin.PruneColumns E P (LogicalPlan.PruneColumns E P others n) j parentUsedCols st
    | .Apply la =>
      LogicalApply.PruneColumns E P (LogicalPlan.PruneColumns E P others n) la parentUsedCols st
    | .Expand e =>
      LogicalExpand.PruneColumns (LogicalPlan.PruneColumns E P others n) e parentUsedCols st
    | .CTE c => LogicalCTE.PruneColumns c parentUsedCols st
    | .Sequence q =>
      LogicalSequence.PruneColumns (LogicalPlan.PruneColumns E P others n) q parentUsedCols st
    | .Projection _ => others p parentUsedCols st
    | .CTETable _ => others p parentUsedCols st
    | .Other _ _ => others p parentUsedCols st

/-- Method `columnPruner.optimize` (lines 35-42): prunes the root with a copy of its
own schema as demand and reports `planChanged = false`. -/
def columnPruner.optimize (E : ExprEnv Expr Info) (P : PlanEnv Expr Info)
    (others : PruneFn Expr Info) (n : Nat) (lp : LogicalPlan Expr Info) (st : St Expr) :
    Except Failure (LogicalPlan Expr Info × Bool × St Expr) :=
  match LogicalPlan.PruneColumns E P others n lp lp.Schema st with
  | .error f => .error f
  | .ok (lp1, st1) => .ok (lp1, false, st1)

end HandlerDefs

/-! ## Specification-side definitions

The definitions of this section follow the words of the specification; the
theorems compare the handlers with them. -/

section SpecDefs

variable {Expr Info : Type}

/-- The elements of a list at the positions where the mask is true, in order. -/
def filterByMask {α : Type} : List α → List Bool → List α
  | a :: as, b :: bs => if b then a :: filterByMask as bs else filterByMask as bs
  | _, _ => []

/-- Retention test of the specification for one schema column of a DataSource:
demanded by the parent, used by a table filter, or a `tidb_shard()` generated
column of a table with an expression-prefix unique key. -/
def DataSource.keepCol (E : ExprEnv Expr Info)
    (ds : DataSource Expr Info (LogicalPlan Expr Info)) (demand : List (Column Expr))
    (col : Column Expr) : Bool :=
  Schema.Contains demand col ||
    Schema.Contains (E.ExtractColumnsFromExpressions ds.AllConds) col ||
    (ds.ContainExprPrefixUk && E.GcColumnExprIsTidbShard col.VirtualExpr)

/-- Retention mask of the specification: `keep(i) = used[i] || exprUsed[i] ||
(ContainExprPrefixUk && schema[i] is a tidb_shard() generated column)`, with `used`
the mask of the demand and `exprUsed` the mask of the columns of `AllConds`. -/
def DataSource.keepMask (E : ExprEnv Expr Info)
    (ds : DataSource Expr Info (LogicalPlan Expr Info)) (demand : List (Column Expr)) :
    List Bool :=
  List.zipWith3
    (fun u e col =>
      u || e || (ds.ContainExprPrefixUk && E.GcColumnExprIsTidbShard col.VirtualExpr))
    (GetUsedList demand ds.base.schema)
    (GetUsedList (E.ExtractColumnsFromExpressions ds.AllConds) ds.base.schema)
    ds.base.schema

/-- A condition under which `DataSource.PruneColumns` cannot panic: every schema
position has a column info, and a table whose primary key is the handle has its
immutable handle columns set when the handle columns are cleared. -/
def DataSource.WellFormed (ds : DataSource Expr Info (LogicalPlan Expr Info)) : Prop :=
  ds.base.schema.length ≤ ds.Columns.length ∧
    (ds.table.Meta.PKIsHandle = true → ds.HandleCols.isNone = true →
      ds.UnMutableHandleCols.isSome = true)

instance DataSource.decidableWellFormed (ds : DataSource Expr Info (LogicalPlan Expr Info)) :
    Decidable ds.WellFormed := by
  unfold DataSource.WellFormed
  infer_instance

/-- The plan handed back by `DataSource.PruneColumns` holds the receiver `ds1`: it
is the DataSource itself or a projection whose only child is the DataSource. -/
def DataSource.ReturnedIn (ds1 : DataSource Expr Info (LogicalPlan Expr Info))
    (plan : LogicalPlan Expr Info) : Prop :=
  plan = LogicalPlan.DataSource ds1 ∨
    ∃ proj, plan = LogicalPlan.Projection proj ∧
      proj.base.children = [LogicalPlan.DataSource ds1]

/-- Drop test of a by-item as the code applies it: its hash is the hash of an
earlier item; or it has no columns and is a runtime constant; or it has columns
and its type is SQL NULL. -/
def byItemDropped (E : ExprEnv Expr Info) (earlier : List (ByItems Expr))
    (item : ByItems Expr) : Bool :=
  decide (E.HashCode item.Expr ∈ earlier.map (fun it => E.HashCode it.Expr)) ||
    (decide ((E.ExtractColumns item.Expr).length = 0) && E.IsRuntimeConstExpr item.Expr) ||
    (decide ((E.ExtractColumns item.Expr).length ≠ 0) &&
      decide ((E.GetType item.Expr).GetType = mysql.TypeNull))

/-- Drop test of a by-item in the words of the specification: duplicate hash; or
no columns and a runtime constant; or type SQL NULL. -/
def byItemDroppedSpec (E : ExprEnv Expr Info) (earlier : List (ByItems Expr))
    (item : ByItems Expr) : Bool :=
  decide (E.HashCode item.Expr ∈ earlier.map (fun it => E.HashCode it.Expr)) ||
    (decide ((E.ExtractColumns item.Expr).length = 0) && E.IsRuntimeConstExpr item.Expr) ||
    decide ((E.GetType item.Expr).GetType = mysql.TypeNull)

/-- The items of a list that a drop test retains, in order; `earlier` are the items
that precede the list. -/
def retainedBy (drop : List (ByItems Expr) → ByItems Expr → Bool) :
    List (ByItems Expr) → List (ByItems Expr) → List (ByItems Expr)
  | _, [] => []
  | earlier, item :: rest =>
    if drop earlier item then retainedBy drop (earlier ++ [item]) rest
    else item :: retainedBy drop (earlier ++ [item]) rest

/-- The items of a list that a drop test drops, in order; `earlier` are the items
that precede the list. -/
def droppedBy (drop : List (ByItems Expr) → ByItems Expr → Bool) :
    List (ByItems Expr) → List (ByItems Expr) → List (ByItems Expr)
  | _, [] => []
  | earlier, item :: rest =>
    if drop earlier item then item :: droppedBy drop (earlier ++ [item]) rest
    else droppedBy drop (earlier ++ [item]) rest

/-- The columns the join partitions, in the words of the specification: the
demand followed by the columns of the equal, left, right, other and
null-aware-equal conditions. -/
def LogicalJoin.allColsSpec (E : ExprEnv Expr Info)
    (p : LogicalJoin Expr (LogicalPlan Expr Info)) (demand : List (Column Expr)) :
    List (Column Expr) :=
  demand ++ (p.EqualConditions.map E.ExtractColumns).flatten ++
    (p.LeftConditions.map E.ExtractColumns).flatten ++
    (p.RightConditions.map E.ExtractColumns).flatten ++
    (p.OtherConditions.map E.ExtractColumns).flatten ++
    (p.NAEQConditions.map E.ExtractColumns).flatten

/-- Condition of the specification for eliminating an apply: fix-control flag
45822 is true or absent, the join type is left outer, and no demanded or
predicate column is in the right child's schema without being in the left
child's schema. -/
def LogicalApply.EliminateCond (E : ExprEnv Expr Info)
    (la : LogicalApply Expr (LogicalPlan Expr Info)) (demand : List (Column Expr))
    (st : St Expr) (l r : LogicalPlan Expr Info) : Prop :=
  st.vars.OptimizerFixControl.lookup fixcontrol.Fix45822 ≠ some false ∧
    la.join.JoinType = JoinType.LeftOuterJoin ∧
    ∀ c ∈ LogicalJoin.allColsSpec E la.join demand,
      ¬ (Schema.Contains r.Schema c = true ∧ Schema.Contains l.Schema c = false)

/-- The test of `LogicalApply.PruneColumns` for eliminating the apply (line 233),
on the partition computed by `extractUsedCols`. -/
def LogicalApply.eliminates (E : ExprEnv Expr Info)
    (la : LogicalApply Expr (LogicalPlan Expr Info)) (demand : List (Column Expr))
    (st : St Expr) (l r : LogicalPlan Expr Info) : Bool :=
  fixcontrol.GetBoolWithDefault st.vars.OptimizerFixControl fixcontrol.Fix45822 true &&
    ((LogicalJoin.allColsSpec E la.join demand).filter
      (fun c => !Schema.Contains l.Schema c && Schema.Contains r.Schema c)).isEmpty &&
    decide (la.join.JoinType = JoinType.LeftOuterJoin)

instance LogicalApply.decidableEliminateCond (E : ExprEnv Expr Info)
    (la : LogicalApply Expr (LogicalPlan Expr Info)) (demand : List (Column Expr))
    (st : St Expr) (l r : LogicalPlan Expr Info) :
    Decidable (LogicalApply.EliminateCond E la demand st l r) := by
  unfold LogicalApply.EliminateCond
  infer_instance

/-- A plan that is a projection with an empty schema. -/
def LogicalPlan.IsEmptyProjection (p : LogicalPlan Expr Info) : Bool :=
  match p with
  | .Projection proj => decide (proj.base.schema.length = 0)
  | _ => false

/-- A dispatch of `PruneColumns` treats the trace as append-only: what it returns
extends the trace it was given. -/
def AppendsTrace (prune : PruneFn Expr Info) : Prop :=
  ∀ p demand st p1 st1, prune p demand st = .ok (p1, st1) → ∃ evs, st1.opt = st.opt ++ evs

/-- Inline projection of the join treats the trace as append-only. -/
def InlineAppendsTrace (P : PlanEnv Expr Info) : Prop :=
  ∀ j cols st, ∃ evs, (P.InlineProjection j cols st).2.opt = st.opt ++ evs

/-- Inline projection of the join leaves the children of the join as they are. -/
def InlineKeepsChildren (P : PlanEnv Expr Info) : Prop :=
  ∀ j cols (st : St Expr), (P.InlineProjection j cols st).1.base.children = j.base.children

end SpecDefs

/-! ## Rows of the deletion loops (proof devices) -/

section RowDefs

variable {Expr Info : Type}

/-- One position of a DataSource under pruning: schema column, `used`, `exprUsed`. -/
abbrev MaskRow (Expr : Type) := Column Expr × Bool × Bool

/-- Retention of a position, as the loop body of `DataSource.PruneColumns` decides it. -/
def maskKeep (E : ExprEnv Expr Info) (uk : Bool) (t : MaskRow Expr) : Bool :=
  t.2.1 || t.2.2 || (uk && E.GcColumnExprIsTidbShard t.1.VirtualExpr)

/-- One position of a DataSource with its aligned entry of `Columns`. -/
abbrev InfoRow (Expr Info : Type) := Column Expr × Bool × Bool × Info

/-- Retention of a position with its aligned entry. -/
def rowKeep (E : ExprEnv Expr Info) (uk : Bool) (t : InfoRow Expr Info) : Bool :=
  t.2.1 || t.2.2.1 || (uk && E.GcColumnExprIsTidbShard t.1.VirtualExpr)

/-- The rows of a schema and the aligned prefix of `Columns`, with masks given by
tests on the column. -/
def infoRows (f g : Column Expr → Bool) : List (Column Expr) → List Info →
    List (InfoRow Expr Info)
  | c :: cs, i :: is => (c, f c, g c, i) :: infoRows f g cs is
  | _, _ => []

end RowDefs

/-! ## The receiver of DataSource pruning after the loop (proof device) -/

section AfterLoopDefs

variable {Expr Info : Type}

/-- The receiver of `DataSource.PruneColumns` once `ColsRequiringFullLen` is filled
and the deletion loop has run, with the given schema and columns. -/
def DataSource.afterLoop (E : ExprEnv Expr Info)
    (ds : DataSource Expr Info (LogicalPlan Expr Info)) (demand : List (Column Expr))
    (schema : List (Column Expr)) (columns : List Info) :
    DataSource Expr Info (LogicalPlan Expr Info) :=
  { ds with
    ColsRequiringFullLen :=
      DataSource.colsRequiringFullLen E ds.ContainExprPrefixUk ds.base.schema
        (GetUsedList demand ds.base.schema),
    base := { ds.base with schema := schema },
    Columns := columns }

end AfterLoopDefs

/-! ## A sample expression language

Used to evaluate the handlers at concrete inputs. -/

/-- Sample expressions: column references, the NULL literal, integer literals,
sums, comparisons, calls of a function without column arguments (with its
foldability and declared result type) and `tidb_shard(...)`. -/
inductive SampleExpr where
  | col (id : Int)
  | null
  | num (n : Int)
  | plus (a b : SampleExpr)
  | gt (a b : SampleExpr)
  | call (fn : Nat) (foldable : Bool) (tp : Nat)
  | shard (a : SampleExpr)
deriving DecidableEq, Repr

/-- Sample column with the given unique id. -/
def sampleCol (id : Int) : Column SampleExpr :=
  { UniqueID := id, RetType := ⟨mysql.TypeLonglong⟩, VirtualExpr := none }

/-- Columns of a sample expression, left to right. -/
def SampleExpr.columns : SampleExpr → List (Column SampleExpr)
  | .col id => [sampleCol id]
  | .plus a b => a.columns ++ b.columns
  | .gt a b => a.columns ++ b.columns
  | .shard a => a.columns
  | _ => []

/-- Hash of a sample expression: a prefix code of its syntax tree. -/
def SampleExpr.hash : SampleExpr → List Nat
  | .col id => [0, id.toNat, (-id).toNat]
  | .null => [1]
  | .num n => [2, n.toNat, (-n).toNat]
  | .plus a b => 3 :: (a.hash ++ b.hash)
  | .gt a b => 4 :: (a.hash ++ b.hash)
  | .call fn foldable tp => [5, fn, if foldable then 1 else 0, tp]
  | .shard a => 6 :: a.hash

/-- Runtime constants among the sample expressions: literals, foldable calls and
their sums and comparisons. -/
def SampleExpr.runtimeConst : SampleExpr → Bool
  | .col _ => false
  | .null => true
  | .num _ => true
  | .plus a b => a.runtimeConst && b.runtimeConst
  | .gt a b => a.runtimeConst && b.runtimeConst
  | .call _ foldable _ => foldable
  | .shard a => a.runtimeConst

/-- Result type of a sample expression. -/
def SampleExpr.type : SampleExpr → FieldType
  | .null => ⟨mysql.TypeNull⟩
  | .call _ _ tp => ⟨tp⟩
  | _ => ⟨mysql.TypeLonglong⟩

/-- Expression helpers over the sample expressions; a column info is the unique
id of its column, and the extra handle has info `-1`. -/
def sampleEnv : ExprEnv SampleExpr Int where
  ExtractColumns := SampleExpr.columns
  ExtractColumnsFromExpressions := fun es => (es.map SampleExpr.columns).flatten
  GcColumnExprIsTidbShard := fun e =>
    match e with
    | some (.shard _) => true
    | _ => false
  HashCode := SampleExpr.hash
  IsRuntimeConstExpr := SampleExpr.runtimeConst
  GetType := SampleExpr.type
  Column2Exprs := fun cols => cols.map (fun c => SampleExpr.col c.UniqueID)
  ToInfo := fun c => c.UniqueID
  NewExtraHandleColInfo := -1
  NewOneType := ⟨1⟩
  Constant := fun v _ => SampleExpr.num v

/-- Sample session state: allocators at 100, MPP not enforced, no fix-control
entry, empty trace. -/
def sampleSt : St SampleExpr :=
  { vars := { PlanID := 100, PlanColumnID := 100, MPPEnforced := false,
              OptimizerFixControl := [] },
    opt := [] }

/-- Sample session state with MPP enforced. -/
def sampleStMPP : St SampleExpr :=
  { sampleSt with vars := { sampleSt.vars with MPPEnforced := true } }

/-- Sample scan with plan id `id` of a normal table without handle columns, with
schema columns of the given unique ids, aligned column infos and table filters
`conds`; `replica` tells whether the table has a TiFlash replica. -/
def sampleScan (id : Int) (cols : List Int) (conds : List SampleExpr) (replica : Bool) :
    DataSource SampleExpr Int (LogicalPlan SampleExpr Int) :=
  { base := { id := id, schema := cols.map sampleCol, names := [], children := [],
              stats := 0, blockOffset := 0 },
    AllConds := conds,
    Columns := cols,
    HandleCols := none,
    UnMutableHandleCols := none,
    ContainExprPrefixUk := false,
    table := { tp := TableType.NormalTable, Meta := { PKIsHandle := false, TiFlashReplica := none } },
    TableInfo := { PKIsHandle := false, TiFlashReplica := if replica then some 1 else none },
    ColsRequiringFullLen := [] }

/-- Sample planner helpers: the join schema is the left schema for semi joins and
the left schema followed by the right schema otherwise, inline projection leaves
the join as it is, and no correlated column is found. -/
def samplePlanEnv : PlanEnv SampleExpr Int where
  buildLogicalJoinSchema := fun jt j =>
    match j.base.children with
    | [l, r] =>
      match jt with
      | .SemiJoin => l.Schema
      | .AntiSemiJoin => l.Schema
      | _ => l.Schema ++ r.Schema
    | _ => []
  InlineProjection := fun j _ st => (j, st)
  ExtractCorColumnsBySchema4LogicalPlan := fun _ _ => []

/-- Sample dispatch of `PruneColumns`: a DataSource by its handler, every other
operator returned as it is. -/
def samplePrune : PruneFn SampleExpr Int := fun p demand st =>
  match p with
  | .DataSource ds => DataSource.PruneColumns sampleEnv ds demand st
  | _ => .ok (p, st)

/-- Sample apply with plan id 9 over two children, without conditions. -/
def sampleApply (jt : JoinType) (l r : LogicalPlan SampleExpr Int) :
    LogicalApply SampleExpr (LogicalPlan SampleExpr Int) :=
  { join := { base := { id := 9, schema := l.Schema ++ r.Schema, names := [],
                        children := [l, r], stats := 0, blockOffset := 0 },
              JoinType := jt, EqualConditions := [], LeftConditions := [],
              RightConditions := [], OtherConditions := [], NAEQConditions := [] },
    CorCols := [] }

/-- Sample expand with plan id 5 over one child: its schema columns have the given
unique ids and the names are aligned with them. -/
def sampleExpand (cols : List Int) (names : List String) (dgb : List Int)
    (child : LogicalPlan SampleExpr Int) :
    LogicalExpand SampleExpr (LogicalPlan SampleExpr Int) :=
  { base := { id := 5, schema := cols.map sampleCol, names := names, children := [child],
              stats := 0, blockOffset := 0 },
    DistinctGroupByCol := dgb.map sampleCol }

/-- Sample handlers of the operators of other files: the plan is returned as it is. -/
def sampleOthers : PruneFn SampleExpr Int := fun p _ st => .ok (p, st)

/-- Sample sequence with plan id 7 over the given children; its schema is the
schema of the last child. -/
def sampleSequence (children : List (LogicalPlan SampleExpr Int)) :
    LogicalSequence SampleExpr (LogicalPlan SampleExpr Int) :=
  { base := { id := 7,
              schema := match children.getLast? with
                | some c => c.Schema
                | none => [],
              names := [], children := children, stats := 0, blockOffset := 0 } }

/-- Sample planner helpers with correlated columns: as `samplePlanEnv`, but the
correlated columns of a scan are the columns of its filters that the given schema
contains. -/
def sampleCorPlanEnv : PlanEnv SampleExpr Int :=
  { samplePlanEnv with
    ExtractCorColumnsBySchema4LogicalPlan := fun p schema =>
      match p with
      | .DataSource ds =>
        ((sampleEnv.ExtractColumnsFromExpressions ds.AllConds).filter
          (fun c => Schema.Contains schema c)).map (fun c => ⟨c⟩)
      | _ => [] }

/-- Sample scan of a cluster table: as `sampleScan`, on a cluster table. -/
def sampleClusterScan (id : Int) (cols : List Int) :
    DataSource SampleExpr Int (LogicalPlan SampleExpr Int) :=
  { sampleScan id cols [] false with
    table := { tp := TableType.ClusterTable,
               Meta := { PKIsHandle := false, TiFlashReplica := none } } }

/-! # Theorems -/

section Lemmas

variable {Expr Info : Type}

theorem getElem?_append_cons_length {α : Type} (A B : List α) (a : α) (n : Nat)
    (h : A.length = n) : (A ++ a :: B)[n]? = some a := by
  subst h
  induction A with
  | nil => simp
  | cons x A ih => simpa using ih

theorem GoSlice.deleteAt_append {α : Type} (A X sp : List α) (a : α) (n : Nat)
    (h : A.length = n) :
    GoSlice.deleteAt ⟨A ++ a :: X, sp⟩ n = .ok ⟨A ++ X, X.getLastD a :: sp⟩ := by
  subst h
  unfold GoSlice.deleteAt
  have hl : (A ++ a :: X).getLast? = some (X.getLastD a) := by
    simp [List.getLast?_append, List.getLast?_cons, List.getLastD_eq_getLast?]
  simp only [hl]
  have : A.length + 1 ≤ (A ++ a :: X).length := by simp
  simp only [this, if_true]
  congr 2
  simp [List.eraseIdx_append_of_length_le]

/-- Totality and the `Columns` side of the deletion loop when every position has
its column info. -/
theorem DataSource.pruneLoop_rows (E : ExprEnv Expr Info) (uk : Bool)
    (L : List (InfoRow Expr Info)) :
    ∀ (U2 E2 : List Bool) (X : List (Column Expr)) (Y : List Info) (pr : List (Column Expr))
      (sp1 : List (Column Expr)) (sp2 : List Info),
    ∃ r,
      DataSource.pruneLoop E uk (L.map (·.2.1) ++ U2) (L.map (·.2.2.1) ++ E2) L.length
        ⟨pr, ⟨L.map (·.1) ++ X, sp1⟩, ⟨L.map (·.2.2.2) ++ Y, sp2⟩⟩ = .ok r ∧
      r.columns.vis = (L.filter (rowKeep E uk)).map (·.2.2.2) ++ Y ∧
      r.columns.vis.length + r.columns.spare.length = L.length + Y.length + sp2.length := by
  induction L using List.reverseRecOn with
  | nil =>
    intro U2 E2 X Y pr sp1 sp2
    exact ⟨⟨pr, ⟨X, sp1⟩, ⟨Y, sp2⟩⟩, by simp [DataSource.pruneLoop], by simp, by simp⟩
  | append_singleton L t ih =>
    intro U2 E2 X Y pr sp1 sp2
    obtain ⟨c, u, e, info⟩ := t
    have hu : (List.map (·.2.1) (L ++ [(c, u, e, info)]) ++ U2)[L.length]? = some u := by
      simpa using getElem?_append_cons_length (L.map (·.2.1)) U2 u L.length (by simp)
    have he : (List.map (·.2.2.1) (L ++ [(c, u, e, info)]) ++ E2)[L.length]? = some e := by
      simpa using getElem?_append_cons_length (L.map (·.2.2.1)) E2 e L.length (by simp)
    have hc : (List.map (·.1) (L ++ [(c, u, e, info)]) ++ X)[L.length]? = some c := by
      simpa using getElem?_append_cons_length (L.map (·.1)) X c L.length (by simp)
    have hd1 := GoSlice.deleteAt_append (L.map (·.1)) X sp1 c L.length (by simp)
    have hd2 := GoSlice.deleteAt_append (L.map (·.2.2.2)) Y sp2 info L.length (by simp)
    have e1 : List.map (·.1) (L ++ [(c, u, e, info)]) ++ X = L.map (·.1) ++ c :: X := by simp
    have e2 : List.map (·.2.2.2) (L ++ [(c, u, e, info)]) ++ Y = L.map (·.2.2.2) ++ info :: Y := by
      simp
    have e3 : List.map (·.2.1) (L ++ [(c, u, e, info)]) ++ U2 = L.map (·.2.1) ++ u :: U2 := by simp
    have e4 : List.map (·.2.2.1) (L ++ [(c, u, e, info)]) ++ E2 = L.map (·.2.2.1) ++ e :: E2 := by
      simp
    simp only [List.length_append, List.length_singleton, DataSource.pruneLoop,
      DataSource.pruneStep, hu, he, hc]
    rw [e1, e2, e3, e4]
    by_cases h1 : (!u && !e) = true
    · by_cases h2 : (uk && E.GcColumnExprIsTidbShard c.VirtualExpr) = true
      · have hk : rowKeep E uk (c, u, e, info) = true := by simp [rowKeep, h2]
        obtain ⟨r, hr, hv, hlen⟩ := ih (u :: U2) (e :: E2) (c :: X) (info :: Y) pr sp1 sp2
        refine ⟨r, ?_, ?_, ?_⟩
        · simp only [h1, h2, if_true]
          exact hr
        · simpa [List.filter_append, hk] using hv
        · simp only [List.length_cons] at hlen
          omega
      · have hk : rowKeep E uk (c, u, e, info) = false := by
          simp only [rowKeep]
          cases u <;> cases e <;> simp_all
        obtain ⟨r, hr, hv, hlen⟩ := ih (u :: U2) (e :: E2) X Y (pr ++ [c]) (X.getLastD c :: sp1)
          (Y.getLastD info :: sp2)
        refine ⟨r, ?_, ?_, ?_⟩
        · simp only [h1, h2, if_true, if_false, hd1, hd2]
          exact hr
        · simpa [List.filter_append, hk] using hv
        · simp only [List.length_cons] at hlen
          omega
    · have hk : rowKeep E uk (c, u, e, info) = true := by
        simp only [rowKeep]
        cases u <;> cases e <;> simp_all
      obtain ⟨r, hr, hv, hlen⟩ := ih (u :: U2) (e :: E2) (c :: X) (info :: Y) pr sp1 sp2
      refine ⟨r, ?_, ?_, ?_⟩
      · simp only [h1, if_false]
        exact hr
      · simpa [List.filter_append, hk] using hv
      · simp only [List.length_cons] at hlen
        omega

/-- The schema side of the deletion loop, whenever the loop returns. -/
theorem DataSource.pruneLoop_schema (E : ExprEnv Expr Info) (uk : Bool)
    (L : List (MaskRow Expr)) :
    ∀ (U2 E2 : List Bool) (X : List (Column Expr)) (pr : List (Column Expr))
      (sp1 : List (Column Expr)) (cs : GoSlice Info) (r : PruneLoop Expr Info),
      DataSource.pruneLoop E uk (L.map (·.2.1) ++ U2) (L.map (·.2.2) ++ E2) L.length
        ⟨pr, ⟨L.map (·.1) ++ X, sp1⟩, cs⟩ = .ok r →
      r.prunedColumns = pr ++ ((L.filter (fun t => !maskKeep E uk t)).map (·.1)).reverse ∧
      r.schema.vis = (L.filter (maskKeep E uk)).map (·.1) ++ X ∧
      r.schema.vis.length + r.schema.spare.length = L.length + X.length + sp1.length := by
  induction L using List.reverseRecOn with
  | nil =>
    intro U2 E2 X pr sp1 cs r h
    simp only [DataSource.pruneLoop, List.length_nil, List.map_nil, List.nil_append,
      Except.ok.injEq] at h
    subst h
    simp
  | append_singleton L t ih =>
    intro U2 E2 X pr sp1 cs r h
    obtain ⟨c, u, e⟩ := t
    have hu : (List.map (·.2.1) (L ++ [(c, u, e)]) ++ U2)[L.length]? = some u := by
      simpa using getElem?_append_cons_length (L.map (·.2.1)) U2 u L.length (by simp)
    have he : (List.map (·.2.2) (L ++ [(c, u, e)]) ++ E2)[L.length]? = some e := by
      simpa using getElem?_append_cons_length (L.map (·.2.2)) E2 e L.length (by simp)
    have hc : (List.map (·.1) (L ++ [(c, u, e)]) ++ X)[L.length]? = some c := by
      simpa using getElem?_append_cons_length (L.map (·.1)) X c L.length (by simp)
    have hd1 := GoSlice.deleteAt_append (L.map (·.1)) X sp1 c L.length (by simp)
    have e1 : List.map (·.1) (L ++ [(c, u, e)]) ++ X = L.map (·.1) ++ c :: X := by simp
    have e3 : List.map (·.2.1) (L ++ [(c, u, e)]) ++ U2 = L.map (·.2.1) ++ u :: U2 := by simp
    have e4 : List.map (·.2.2) (L ++ [(c, u, e)]) ++ E2 = L.map (·.2.2) ++ e :: E2 := by simp
    simp only [List.length_append, List.length_singleton, DataSource.pruneLoop,
      DataSource.pruneStep, hu, he, hc] at h
    rw [e1, e3, e4] at h
    by_cases h1 : (!u && !e) = true
    · by_cases h2 : (uk && E.GcColumnExprIsTidbShard c.VirtualExpr) = true
      · have hk : maskKeep E uk (c, u, e) = true := by simp [maskKeep, h2]
        simp only [h1, h2, if_true] at h
        have := ih (u :: U2) (e :: E2) (c :: X) pr sp1 cs r h
        simpa [List.filter_append, hk, Nat.add_assoc, Nat.add_comm, Nat.add_left_comm] using this
      · have hk : maskKeep E uk (c, u, e) = false := by
          simp only [maskKeep]
          cases u <;> cases e <;> simp_all
        simp only [h1, h2, if_true, if_false, hd1] at h
        cases hcs : cs.deleteAt L.length with
        | error f => simp [hcs] at h
        | ok cs1 =>
          simp only [hcs] at h
          have := ih (u :: U2) (e :: E2) X (pr ++ [c]) (X.getLastD c :: sp1) cs1 r h
          simpa [List.filter_append, hk, Nat.add_assoc, Nat.add_comm, Nat.add_left_comm] using this
    · have hk : maskKeep E uk (c, u, e) = true := by
        simp only [maskKeep]
        cases u <;> cases e <;> simp_all
      simp only [h1, if_false] at h
      have := ih (u :: U2) (e :: E2) (c :: X) pr sp1 cs r h
      simpa [List.filter_append, hk, Nat.add_assoc, Nat.add_comm, Nat.add_left_comm] using this

theorem infoRows_length (f g : Column Expr → Bool) :
    ∀ (S : List (Column Expr)) (C : List Info), S.length ≤ C.length →
      (infoRows f g S C).length = S.length
  | [], _, _ => by cases ‹List Info› <;> simp [infoRows]
  | _ :: _, [], h => by simp at h
  | c :: cs, i :: is, h => by
    simp only [infoRows, List.length_cons, Nat.add_le_add_iff_right] at h ⊢
    rw [infoRows_length f g cs is h]

theorem infoRows_map_col (f g : Column Expr → Bool) :
    ∀ (S : List (Column Expr)) (C : List Info), S.length ≤ C.length →
      (infoRows f g S C).map (·.1) = S
  | [], C, _ => by cases C <;> simp [infoRows]
  | _ :: _, [], h => by simp at h
  | c :: cs, i :: is, h => by
    simp only [List.length_cons, Nat.add_le_add_iff_right] at h
    simp [infoRows, infoRows_map_col f g cs is h]

theorem infoRows_map_used (f g : Column Expr → Bool) :
    ∀ (S : List (Column Expr)) (C : List Info), S.length ≤ C.length →
      (infoRows f g S C).map (·.2.1) = S.map f
  | [], C, _ => by cases C <;> simp [infoRows]
  | _ :: _, [], h => by simp at h
  | c :: cs, i :: is, h => by
    simp only [List.length_cons, Nat.add_le_add_iff_right] at h
    simp [infoRows, infoRows_map_used f g cs is h]

theorem infoRows_map_exprUsed (f g : Column Expr → Bool) :
    ∀ (S : List (Column Expr)) (C : List Info), S.length ≤ C.length →
      (infoRows f g S C).map (·.2.2.1) = S.map g
  | [], C, _ => by cases C <;> simp [infoRows]
  | _ :: _, [], h => by simp at h
  | c :: cs, i :: is, h => by
    simp only [List.length_cons, Nat.add_le_add_iff_right] at h
    simp [infoRows, infoRows_map_exprUsed f g cs is h]

theorem infoRows_map_info (f g : Column Expr → Bool) :
    ∀ (S : List (Column Expr)) (C : List Info), S.length ≤ C.length →
      (infoRows f g S C).map (·.2.2.2) ++ C.drop S.length = C
  | [], C, _ => by cases C <;> simp [infoRows]
  | _ :: _, [], h => by simp at h
  | c :: cs, i :: is, h => by
    simp only [List.length_cons, Nat.add_le_add_iff_right] at h
    simp [infoRows, infoRows_map_info f g cs is h]

theorem infoRows_filter_info (E : ExprEnv Expr Info) (uk : Bool) (f g : Column Expr → Bool) :
    ∀ (S : List (Column Expr)) (C : List Info),
      ((infoRows f g S C).filter (rowKeep E uk)).map (·.2.2.2) =
        filterByMask C
          (S.map (fun c => f c || g c || (uk && E.GcColumnExprIsTidbShard c.VirtualExpr)))
  | [], C => by cases C <;> simp [infoRows, filterByMask]
  | _ :: _, [] => by simp [infoRows, filterByMask]
  | c :: cs, i :: is => by
    have ih := infoRows_filter_info E uk f g cs is
    by_cases hk : (f c || g c || (uk && E.GcColumnExprIsTidbShard c.VirtualExpr)) = true
    · simp [infoRows, filterByMask, List.filter_cons, rowKeep, hk, ih]
    · simp [infoRows, filterByMask, List.filter_cons, rowKeep, hk, ih]

theorem filterByMask_map {α : Type} (p : α → Bool) :
    ∀ S : List α, filterByMask S (S.map p) = S.filter p
  | [] => by simp [filterByMask]
  | a :: as => by
    by_cases h : p a = true <;> simp [filterByMask, List.filter_cons, h, filterByMask_map p as]

theorem DataSource.keepMask_eq (E : ExprEnv Expr Info)
    (ds : DataSource Expr Info (LogicalPlan Expr Info)) (demand : List (Column Expr)) :
    DataSource.keepMask E ds demand = ds.base.schema.map (DataSource.keepCol E ds demand) := by
  unfold DataSource.keepMask GetUsedList
  generalize ds.base.schema = S
  induction S with
  | nil => simp [List.zipWith3]
  | cons c cs ih => simp [List.zipWith3, DataSource.keepCol, ih]

theorem preferKeyColumnFromTable_congr (E : ExprEnv Expr Info)
    (d1 d2 : DataSource Expr Info (LogicalPlan Expr Info))
    (ht : d1.table = d2.table) (hh : d1.HandleCols = d2.HandleCols)
    (hu : d1.UnMutableHandleCols = d2.UnMutableHandleCols)
    (o1 : List (Column Expr)) (o2 : List Info) (st : St Expr) :
    preferKeyColumnFromTable E d1 o1 o2 st = preferKeyColumnFromTable E d2 o1 o2 st := by
  unfold preferKeyColumnFromTable
  rw [ht, hh, hu]

theorem DataSource.pruneLoop_of_schema (E : ExprEnv Expr Info)
    (ds : DataSource Expr Info (LogicalPlan Expr Info)) (demand : List (Column Expr))
    (l : PruneLoop Expr Info)
    (h : DataSource.pruneLoop E ds.ContainExprPrefixUk (GetUsedList demand ds.base.schema)
        (GetUsedList (E.ExtractColumnsFromExpressions ds.AllConds) ds.base.schema)
        (GetUsedList demand ds.base.schema).length
        { prunedColumns := [], schema := GoSlice.ofList ds.base.schema,
          columns := GoSlice.ofList ds.Columns } = .ok l) :
    l.prunedColumns = (ds.base.schema.filter (fun c => !DataSource.keepCol E ds demand c)).reverse ∧
    l.schema.vis = ds.base.schema.filter (DataSource.keepCol E ds demand) ∧
    l.schema.alias.length = ds.base.schema.length := by
  let f : Column Expr → Bool := fun c => Schema.Contains demand c
  let g : Column Expr → Bool :=
    fun c => Schema.Contains (E.ExtractColumnsFromExpressions ds.AllConds) c
  let L : List (MaskRow Expr) := ds.base.schema.map (fun c => (c, f c, g c))
  have h1 : L.map (·.1) = ds.base.schema := by simp [L, Function.comp_def]
  have h2 : L.map (·.2.1) = GetUsedList demand ds.base.schema := by
    simp [L, GetUsedList, f, Function.comp_def]
  have h3 : L.map (·.2.2) =
      GetUsedList (E.ExtractColumnsFromExpressions ds.AllConds) ds.base.schema := by
    simp [L, GetUsedList, g, Function.comp_def]
  have h4 : (GetUsedList demand ds.base.schema).length = L.length := by
    simp [L, GetUsedList]
  have key := DataSource.pruneLoop_schema E ds.ContainExprPrefixUk L [] [] [] [] []
    (GoSlice.ofList ds.Columns) l
  rw [h4, ← h2, ← h3] at h
  simp only [List.append_nil, h1] at key
  have hk := key (by simpa [GoSlice.ofList, h1] using h)
  obtain ⟨k1, k2, k3⟩ := hk
  refine ⟨?_, ?_, ?_⟩
  · rw [k1]
    simp [L, List.filter_map, Function.comp_def, maskKeep, DataSource.keepCol, f, g]
  · rw [k2]
    simp [L, List.filter_map, Function.comp_def, maskKeep, f, g]
    rfl
  · simp only [GoSlice.alias, List.length_append, k3]
    simp [L]

/-- Unfolding of the receiver mutation of `DataSource.PruneColumns`. -/
theorem DataSource.pruneInPlace_eq (E : ExprEnv Expr Info)
    (ds : DataSource Expr Info (LogicalPlan Expr Info)) (demand : List (Column Expr))
    (st : St Expr) :
    DataSource.pruneInPlace E ds demand st =
      match DataSource.pruneLoop E ds.ContainExprPrefixUk (GetUsedList demand ds.base.schema)
        (GetUsedList (E.ExtractColumnsFromExpressions ds.AllConds) ds.base.schema)
        (GetUsedList demand ds.base.schema).length
        { prunedColumns := [], schema := GoSlice.ofList ds.base.schema,
          columns := GoSlice.ofList ds.Columns } with
      | .error f => .error f
      | .ok l =>
        if l.schema.vis.length = 0 then
          match preferKeyColumnFromTable E ds l.schema.alias l.columns.alias
              (AppendColumnPruneTraceStep ds.base.id l.prunedColumns st) with
          | .error f => .error f
          | .ok (hc, hi, st2) =>
            .ok ((DataSource.afterLoop E ds demand (l.schema.vis ++ [hc])
                    (l.columns.vis ++ [hi])).resetHandleCols, true, st2)
        else
          .ok ((DataSource.afterLoop E ds demand l.schema.vis l.columns.vis).resetHandleCols,
               false, AppendColumnPruneTraceStep ds.base.id l.prunedColumns st) := by
  rfl

/-- What `DataSource.PruneColumns` does to its receiver, read off the result. -/
theorem DataSource.pruneInPlace_ok (E : ExprEnv Expr Info)
    (ds : DataSource Expr Info (LogicalPlan Expr Info)) (demand : List (Column Expr))
    (st : St Expr) (ds1 : DataSource Expr Info (LogicalPlan Expr Info)) (added : Bool)
    (st1 : St Expr)
    (h : DataSource.pruneInPlace E ds demand st = .ok (ds1, added, st1)) :
    ∃ l, DataSource.pruneLoop E ds.ContainExprPrefixUk (GetUsedList demand ds.base.schema)
        (GetUsedList (E.ExtractColumnsFromExpressions ds.AllConds) ds.base.schema)
        (GetUsedList demand ds.base.schema).length
        { prunedColumns := [], schema := GoSlice.ofList ds.base.schema,
          columns := GoSlice.ofList ds.Columns } = .ok l ∧
      ((l.schema.vis = [] ∧ added = true ∧
          ∃ hc hi, preferKeyColumnFromTable E ds l.schema.alias l.columns.alias
              (AppendColumnPruneTraceStep ds.base.id l.prunedColumns st) = .ok (hc, hi, st1) ∧
            ds1 = (DataSource.afterLoop E ds demand [hc]
                    (l.columns.vis ++ [hi])).resetHandleCols) ∨
       (l.schema.vis ≠ [] ∧ added = false ∧
          st1 = AppendColumnPruneTraceStep ds.base.id l.prunedColumns st ∧
          ds1 = (DataSource.afterLoop E ds demand l.schema.vis l.columns.vis).resetHandleCols)) := by
  rw [DataSource.pruneInPlace_eq] at h
  cases hl : DataSource.pruneLoop E ds.ContainExprPrefixUk (GetUsedList demand ds.base.schema)
        (GetUsedList (E.ExtractColumnsFromExpressions ds.AllConds) ds.base.schema)
        (GetUsedList demand ds.base.schema).length
        { prunedColumns := [], schema := GoSlice.ofList ds.base.schema,
          columns := GoSlice.ofList ds.Columns } with
  | error f => simp [hl] at h
  | ok l =>
    refine ⟨l, rfl, ?_⟩
    simp only [hl] at h
    by_cases he : l.schema.vis = []
    · left
      simp only [he, List.length_nil, if_true] at h
      cases hp : preferKeyColumnFromTable E ds l.schema.alias l.columns.alias
          (AppendColumnPruneTraceStep ds.base.id l.prunedColumns st) with
      | error f => simp [hp] at h
      | ok r =>
        obtain ⟨hc, hi, st2⟩ := r
        simp only [hp, Except.ok.injEq, Prod.mk.injEq] at h
        obtain ⟨h1, h2, h3⟩ := h
        subst h3
        refine ⟨he, h2.symm, hc, hi, rfl, ?_⟩
        rw [← h1]
        simp
    · right
      have hne : ¬ l.schema.vis.length = 0 := by
        intro h0
        exact he (List.length_eq_zero.mp h0)
      simp only [hne, if_false, Except.ok.injEq, Prod.mk.injEq] at h
      obtain ⟨h1, h2, h3⟩ := h
      exact ⟨he, h2.symm, h3.symm, h1.symm⟩

/-- The deletion loop returns when every schema position has a column info, and
deletes from `Columns` at the positions it deletes from the schema. -/
theorem DataSource.pruneLoop_of_columns (E : ExprEnv Expr Info)
    (ds : DataSource Expr Info (LogicalPlan Expr Info)) (demand : List (Column Expr))
    (hlen : ds.base.schema.length ≤ ds.Columns.length) :
    ∃ l, DataSource.pruneLoop E ds.ContainExprPrefixUk (GetUsedList demand ds.base.schema)
        (GetUsedList (E.ExtractColumnsFromExpressions ds.AllConds) ds.base.schema)
        (GetUsedList demand ds.base.schema).length
        { prunedColumns := [], schema := GoSlice.ofList ds.base.schema,
          columns := GoSlice.ofList ds.Columns } = .ok l ∧
      l.columns.vis = filterByMask ds.Columns (DataSource.keepMask E ds demand) ++
        ds.Columns.drop ds.base.schema.length ∧
      l.columns.alias.length = ds.Columns.length := by
  let f : Column Expr → Bool := fun c => Schema.Contains demand c
  let g : Column Expr → Bool :=
    fun c => Schema.Contains (E.ExtractColumnsFromExpressions ds.AllConds) c
  let L : List (InfoRow Expr Info) := infoRows f g ds.base.schema ds.Columns
  have h1 : L.map (·.1) = ds.base.schema := infoRows_map_col f g _ _ hlen
  have h2 : L.map (·.2.1) = GetUsedList demand ds.base.schema :=
    infoRows_map_used f g _ _ hlen
  have h3 : L.map (·.2.2.1) =
      GetUsedList (E.ExtractColumnsFromExpressions ds.AllConds) ds.base.schema :=
    infoRows_map_exprUsed f g _ _ hlen
  have h4 : L.length = ds.base.schema.length := infoRows_length f g _ _ hlen
  have h5 : L.map (·.2.2.2) ++ ds.Columns.drop ds.base.schema.length = ds.Columns :=
    infoRows_map_info f g _ _ hlen
  have h6 : (GetUsedList demand ds.base.schema).length = L.length := by
    rw [h4]
    simp [GetUsedList]
  obtain ⟨r, hr, hv, hl⟩ := DataSource.pruneLoop_rows E ds.ContainExprPrefixUk L [] [] []
    (ds.Columns.drop ds.base.schema.length) [] [] []
  simp only [List.append_nil, h1, h2, h3, h5] at hr
  refine ⟨r, ?_, ?_, ?_⟩
  · rw [h6]
    exact hr
  · rw [hv, infoRows_filter_info, DataSource.keepMask_eq]
    rfl
  · simp only [GoSlice.alias, List.length_append, hl, h4, List.length_drop, List.length_nil]
    omega

theorem DataSource.pruneInPlace_total (E : ExprEnv Expr Info)
    (ds : DataSource Expr Info (LogicalPlan Expr Info)) (demand : List (Column Expr))
    (st : St Expr) (hwf : ds.WellFormed) :
    ∃ r, DataSource.pruneInPlace E ds demand st = .ok r := by
  obtain ⟨hlen, hpk⟩ := hwf
  obtain ⟨l, hl, _, hcl⟩ := DataSource.pruneLoop_of_columns E ds demand hlen
  obtain ⟨_, hsv, hsl⟩ := DataSource.pruneLoop_of_schema E ds demand l hl
  rw [DataSource.pruneInPlace_eq]
  simp only [hl]
  by_cases h0 : l.schema.vis.length = 0
  · simp only [h0, if_true]
    have hprefer : ∃ r, preferKeyColumnFromTable E ds l.schema.alias l.columns.alias
        (AppendColumnPruneTraceStep ds.base.id l.prunedColumns st) = .ok r := by
      unfold preferKeyColumnFromTable
      by_cases hc : (ds.table.tp.IsClusterTable && decide (l.schema.alias.length > 0)) = true
      · simp only [hc, if_true]
        have hpos : 0 < l.schema.alias.length := by
          simp only [Bool.and_eq_true, decide_eq_true_eq] at hc
          exact hc.2
        have hpos2 : 0 < l.columns.alias.length := by omega
        obtain ⟨a, ha⟩ : ∃ a, l.schema.alias[0]? = some a :=
          ⟨l.schema.alias[0], (List.getElem?_eq_getElem hpos)⟩
        obtain ⟨b, hb⟩ : ∃ b, l.columns.alias[0]? = some b :=
          ⟨l.columns.alias[0], (List.getElem?_eq_getElem hpos2)⟩
        simp [ha, hb]
      · simp only [hc, if_false]
        cases hh : ds.HandleCols with
        | some h => simp
        | none =>
          by_cases hp : ds.table.Meta.PKIsHandle = true
          · cases hu : ds.UnMutableHandleCols with
            | none =>
              have := hpk hp (by simp [hh])
              simp [hu] at this
            | some h => simp [hp]
          · simp [hp]
    obtain ⟨⟨hc, hi, st2⟩, hr⟩ := hprefer
    simp [hr]
  · simp [h0]

theorem DataSource.resetHandleCols_base (d : DataSource Expr Info (LogicalPlan Expr Info)) :
    d.resetHandleCols.base = d.base ∧ d.resetHandleCols.Columns = d.Columns ∧
    d.resetHandleCols.TableInfo = d.TableInfo ∧
    d.resetHandleCols.ColsRequiringFullLen = d.ColsRequiringFullLen := by
  unfold DataSource.resetHandleCols
  cases d.HandleCols with
  | none => simp
  | some h => by_cases hc : (h.IsInt && decide (Schema.ColumnIndex d.base.schema h.GetCol0 = -1)) = true <;> simp [hc]

theorem DataSource.resetHandleCols_handle (d : DataSource Expr Info (LogicalPlan Expr Info)) :
    (∀ h, d.HandleCols = some h → h.IsInt = true →
        Schema.ColumnIndex d.base.schema h.GetCol0 = -1 → d.resetHandleCols.HandleCols = none) ∧
    ((∀ h, d.HandleCols = some h →
        ¬ (h.IsInt = true ∧ Schema.ColumnIndex d.base.schema h.GetCol0 = -1)) →
      d.resetHandleCols.HandleCols = d.HandleCols) := by
  unfold DataSource.resetHandleCols
  cases hh : d.HandleCols with
  | none => simp [hh]
  | some h =>
    constructor
    · intro h' e1 e2 e3
      cases e1
      simp [e2, e3]
    · intro hn
      have := hn h rfl
      by_cases hc : (h.IsInt && decide (Schema.ColumnIndex d.base.schema h.GetCol0 = -1)) = true
      · simp only [Bool.and_eq_true, decide_eq_true_eq] at hc
        exact absurd hc this
      · simp [hc, hh]

theorem preferKeyColumnFromTable_state (E : ExprEnv Expr Info)
    (d : DataSource Expr Info (LogicalPlan Expr Info)) (o1 : List (Column Expr))
    (o2 : List Info) (st st2 : St Expr) (hc : Column Expr) (hi : Info)
    (h : preferKeyColumnFromTable E d o1 o2 st = .ok (hc, hi, st2)) :
    st2.opt = st.opt ∧ st2.vars.MPPEnforced = st.vars.MPPEnforced ∧
    st2.vars.OptimizerFixControl = st.vars.OptimizerFixControl ∧
    st2.vars.PlanID = st.vars.PlanID := by
  unfold preferKeyColumnFromTable at h
  split at h
  · split at h
    · simp only [Except.ok.injEq, Prod.mk.injEq] at h
      obtain ⟨_, _, rfl⟩ := h
      simp
    · simp at h
  · split at h
    · simp only [Except.ok.injEq, Prod.mk.injEq] at h
      obtain ⟨_, _, rfl⟩ := h
      simp
    · split at h
      · split at h
        · simp only [Except.ok.injEq, Prod.mk.injEq] at h
          obtain ⟨_, _, rfl⟩ := h
          simp
        · simp at h
      · simp only [Except.ok.injEq, Prod.mk.injEq] at h
        obtain ⟨_, _, rfl⟩ := h
        simp [newExtraHandleSchemaCol, SessionVars.AllocPlanColumnID]

/-- Frame of the receiver mutation: what it leaves alone, and the one trace step
it emits. -/
theorem DataSource.pruneInPlace_frame (E : ExprEnv Expr Info)
    (ds : DataSource Expr Info (LogicalPlan Expr Info)) (demand : List (Column Expr))
    (st : St Expr) (ds1 : DataSource Expr Info (LogicalPlan Expr Info)) (added : Bool)
    (st1 : St Expr)
    (h : DataSource.pruneInPlace E ds demand st = .ok (ds1, added, st1)) :
    ds1.TableInfo = ds.TableInfo ∧ ds1.base.id = ds.base.id ∧
    st1.vars.MPPEnforced = st.vars.MPPEnforced ∧
    st1.opt = st.opt ++ [TraceStep.ColumnPrune ds.base.id
      (ds.base.schema.filter (fun c => !DataSource.keepCol E ds demand c)).reverse] := by
  obtain ⟨l, hl, hcase⟩ := DataSource.pruneInPlace_ok E ds demand st ds1 added st1 h
  obtain ⟨hp, _, _⟩ := DataSource.pruneLoop_of_schema E ds demand l hl
  rcases hcase with ⟨_, _, hc, hi, hpk, hds⟩ | ⟨_, _, hst, hds⟩
  · obtain ⟨s1, s2, _, _⟩ := preferKeyColumnFromTable_state E ds _ _ _ _ hc hi hpk
    subst hds
    refine ⟨?_, ?_, ?_, ?_⟩
    · rw [(DataSource.resetHandleCols_base _).2.2.1]; rfl
    · rw [(DataSource.resetHandleCols_base _).1]; rfl
    · rw [s2]; rfl
    · rw [s1, ← hp]; rfl
  · subst hds hst
    refine ⟨?_, ?_, rfl, ?_⟩
    · rw [(DataSource.resetHandleCols_base _).2.2.1]; rfl
    · rw [(DataSource.resetHandleCols_base _).1]; rfl
    · rw [← hp]; rfl

/-- What `DataSource.PruneColumns` hands back, read off the result. -/
theorem DataSource.PruneColumns_ok (E : ExprEnv Expr Info)
    (ds : DataSource Expr Info (LogicalPlan Expr Info)) (demand : List (Column Expr))
    (st : St Expr) (plan : LogicalPlan Expr Info) (st' : St Expr)
    (h : DataSource.PruneColumns E ds demand st = .ok (plan, st')) :
    ∃ ds1 added st1, DataSource.pruneInPlace E ds demand st = .ok (ds1, added, st1) ∧
      st'.opt = st1.opt ∧
      (((added = false ∧ demand.length < ds1.base.schema.length ∧
          st.vars.IsMPPEnforced = true ∧ ds.TableInfo.TiFlashReplica ≠ none) ∧
        ∃ proj, plan = LogicalPlan.Projection proj ∧ proj.base.schema = demand ∧
          proj.Exprs = E.Column2Exprs demand ∧
          proj.base.children = [LogicalPlan.DataSource ds1] ∧
          proj.base.stats = ds1.base.stats) ∨
       (¬ (added = false ∧ demand.length < ds1.base.schema.length ∧
          st.vars.IsMPPEnforced = true ∧ ds.TableInfo.TiFlashReplica ≠ none) ∧
        plan = LogicalPlan.DataSource ds1 ∧ st' = st1)) := by
  unfold DataSource.PruneColumns at h
  cases hp : DataSource.pruneInPlace E ds demand st with
  | error f => simp [hp] at h
  | ok r =>
    obtain ⟨ds1, added, st1⟩ := r
    obtain ⟨hT, _, hM, _⟩ := DataSource.pruneInPlace_frame E ds demand st ds1 added st1 hp
    simp only [hp] at h
    refine ⟨ds1, added, st1, rfl, ?_⟩
    by_cases hc : (!added && decide (ds1.base.schema.length > demand.length) &&
        st1.vars.IsMPPEnforced && ds1.TableInfo.TiFlashReplica.isSome) = true
    · simp only [hc, if_true, Except.ok.injEq, Prod.mk.injEq] at h
      obtain ⟨rfl, rfl⟩ := h
      refine ⟨by simp [NewBaseLogicalPlan], Or.inl ⟨?_, _, rfl, rfl, rfl, rfl, rfl⟩⟩
      simp only [Bool.and_eq_true, Bool.not_eq_true', decide_eq_true_eq,
        SessionVars.IsMPPEnforced, hT, hM, Option.isSome_iff_ne_none] at hc
      simp only [SessionVars.IsMPPEnforced]
      exact ⟨hc.1.1.1, hc.1.1.2, hc.1.2, hc.2⟩
    · simp only [hc, if_false, Except.ok.injEq, Prod.mk.injEq] at h
      obtain ⟨rfl, rfl⟩ := h
      refine ⟨rfl, Or.inr ⟨?_, rfl, rfl⟩⟩
      intro hcond
      apply hc
      simp only [Bool.and_eq_true, Bool.not_eq_true', decide_eq_true_eq,
        SessionVars.IsMPPEnforced, hT, hM, Option.isSome_iff_ne_none]
      simp only [SessionVars.IsMPPEnforced] at hcond
      exact ⟨⟨⟨hcond.1, hcond.2.1⟩, hcond.2.2.1⟩, hcond.2.2.2⟩

theorem DataSource.PruneColumns_total (E : ExprEnv Expr Info)
    (ds : DataSource Expr Info (LogicalPlan Expr Info)) (demand : List (Column Expr))
    (st : St Expr) (hwf : ds.WellFormed) :
    ∃ r, DataSource.PruneColumns E ds demand st = .ok r := by
  obtain ⟨⟨ds1, added, st1⟩, hr⟩ := DataSource.pruneInPlace_total E ds demand st hwf
  unfold DataSource.PruneColumns
  simp only [hr]
  split <;> exact ⟨_, rfl⟩

theorem Schema.ColumnIndex_ge (s : List (Column Expr)) (col : Column Expr) :
    -1 ≤ Schema.ColumnIndex s col := by
  induction s with
  | nil => simp [Schema.ColumnIndex]
  | cons c cs ih =>
    unfold Schema.ColumnIndex
    split
    · omega
    · split
      · omega
      · omega

theorem Schema.Contains_iff (s : List (Column Expr)) (col : Column Expr) :
    Schema.Contains s col = true ↔ ∃ c ∈ s, c.UniqueID = col.UniqueID := by
  induction s with
  | nil => simp [Schema.Contains, Schema.ColumnIndex]
  | cons c cs ih =>
    have hge := Schema.ColumnIndex_ge cs col
    simp only [Schema.Contains, decide_eq_true_eq] at ih ⊢
    unfold Schema.ColumnIndex
    by_cases h1 : c.UniqueID = col.UniqueID
    · simp [h1]
    · by_cases h2 : Schema.ColumnIndex cs col = -1
      · have : ¬ ∃ c ∈ cs, c.UniqueID = col.UniqueID := fun hx => (ih.mpr hx) h2
        simp only [h1, h2, if_true, if_false, ne_eq, not_true_eq_false, List.mem_cons,
          exists_eq_or_imp, false_or, false_iff]
        exact this
      · have hx := ih.mp h2
        simp only [h1, h2, if_false, List.mem_cons, exists_eq_or_imp, false_or]
        constructor
        · intro _
          exact hx
        · intro _
          omega

theorem Schema.Contains_of_mem (s : List (Column Expr)) (col : Column Expr) (h : col ∈ s) :
    Schema.Contains s col = true :=
  (Schema.Contains_iff s col).mpr ⟨col, h, rfl⟩

theorem Schema.Contains_congr (s : List (Column Expr)) (c d : Column Expr)
    (hid : c.UniqueID = d.UniqueID) : Schema.Contains s c = Schema.Contains s d := by
  have h1 := Schema.Contains_iff s c
  have h2 := Schema.Contains_iff s d
  rw [hid] at h1
  have h3 : Schema.Contains s c = true ↔ Schema.Contains s d = true := h1.trans h2.symm
  cases hc : Schema.Contains s c <;> cases hd : Schema.Contains s d <;> simp_all

theorem DataSource.ReturnedIn_of_ok (E : ExprEnv Expr Info)
    (ds : DataSource Expr Info (LogicalPlan Expr Info)) (demand : List (Column Expr))
    (st : St Expr) (plan : LogicalPlan Expr Info) (st' : St Expr)
    (h : DataSource.PruneColumns E ds demand st = .ok (plan, st')) :
    ∃ ds1 added st1, DataSource.pruneInPlace E ds demand st = .ok (ds1, added, st1) ∧
      DataSource.ReturnedIn ds1 plan := by
  obtain ⟨ds1, added, st1, hp, _, hcase⟩ := DataSource.PruneColumns_ok E ds demand st plan st' h
  refine ⟨ds1, added, st1, hp, ?_⟩
  rcases hcase with ⟨_, proj, hproj, _, _, hch, _⟩ | ⟨_, hplan, _⟩
  · exact Or.inr ⟨proj, hproj, hch⟩
  · exact Or.inl hplan

/-- C1 (handle rule). `DataSource.PruneColumns` returns on every well-formed
DataSource, and whenever it returns, the DataSource's own schema has length at
least 1. If the drop loop removes every column (no schema column passes the
retention test), the DataSource itself is returned, its schema is exactly the one
column chosen by `preferKeyColumnFromTable` on the aliases of the pre-prune schema
and columns, and the info chosen with it is appended to what the loop left of
`Columns`; otherwise the schema is the retained columns and nothing is appended. -/
theorem c1_handle_rule (E : ExprEnv Expr Info)
    (ds : DataSource Expr Info (LogicalPlan Expr Info)) (demand : List (Column Expr))
    (st : St Expr) :
    (ds.WellFormed → ∃ r, DataSource.PruneColumns E ds demand st = .ok r) ∧
    ∀ plan st', DataSource.PruneColumns E ds demand st = .ok (plan, st') →
      ∃ ds1 l, DataSource.ReturnedIn ds1 plan ∧ 1 ≤ ds1.base.schema.length ∧
        DataSource.pruneLoop E ds.ContainExprPrefixUk (GetUsedList demand ds.base.schema)
          (GetUsedList (E.ExtractColumnsFromExpressions ds.AllConds) ds.base.schema)
          (GetUsedList demand ds.base.schema).length
          { prunedColumns := [], schema := GoSlice.ofList ds.base.schema,
            columns := GoSlice.ofList ds.Columns } = .ok l ∧
        (ds.base.schema.filter (DataSource.keepCol E ds demand) = [] →
          plan = LogicalPlan.DataSource ds1 ∧
          ∃ handleCol handleColInfo,
            preferKeyColumnFromTable E ds l.schema.alias l.columns.alias
              (AppendColumnPruneTraceStep ds.base.id l.prunedColumns st) =
                .ok (handleCol, handleColInfo, st') ∧
            ds1.base.schema = [handleCol] ∧
            ds1.Columns = l.columns.vis ++ [handleColInfo]) ∧
        (ds.base.schema.filter (DataSource.keepCol E ds demand) ≠ [] →
          ds1.base.schema = ds.base.schema.filter (DataSource.keepCol E ds demand) ∧
          ds1.Columns = l.columns.vis) := by
  refine ⟨DataSource.PruneColumns_total E ds demand st, ?_⟩
  intro plan st' h
  obtain ⟨ds1, added, st1, hp, _, hcase⟩ := DataSource.PruneColumns_ok E ds demand st plan st' h
  obtain ⟨_, _, _, hp', hret⟩ := DataSource.ReturnedIn_of_ok E ds demand st plan st' h
  rw [hp] at hp'
  simp only [Except.ok.injEq, Prod.mk.injEq] at hp'
  obtain ⟨rfl, rfl, rfl⟩ := hp'
  obtain ⟨l, hl, hloop⟩ := DataSource.pruneInPlace_ok E ds demand st ds1 added st1 hp
  obtain ⟨_, hvis, _⟩ := DataSource.pruneLoop_of_schema E ds demand l hl
  refine ⟨ds1, l, hret, ?_, hl, ?_, ?_⟩
  · rcases hloop with ⟨_, _, hc, hi, _, hds⟩ | ⟨hne, _, _, hds⟩
    · subst hds
      rw [(DataSource.resetHandleCols_base _).1]
      simp [DataSource.afterLoop]
    · subst hds
      rw [(DataSource.resetHandleCols_base _).1]
      simp only [DataSource.afterLoop]
      exact Nat.pos_of_ne_zero (fun h0 => hne (List.length_eq_zero.mp h0))
  · intro hempty
    rcases hloop with ⟨_, hadd, hc, hi, hpk, hds⟩ | ⟨hne, _, _, _⟩
    · have hplan : plan = LogicalPlan.DataSource ds1 ∧ st' = st1 := by
        rcases hcase with ⟨⟨hfalse, _⟩, _⟩ | ⟨_, h1, h2⟩
        · rw [hadd] at hfalse
          exact absurd hfalse (by simp)
        · exact ⟨h1, h2⟩
      obtain ⟨hplan, rfl⟩ := hplan
      refine ⟨hplan, hc, hi, hpk, ?_, ?_⟩
      · subst hds
        rw [(DataSource.resetHandleCols_base _).1]
        rfl
      · subst hds
        rw [(DataSource.resetHandleCols_base _).2.1]
        rfl
    · exact absurd (hvis ▸ hempty) hne
  · intro hnonempty
    rcases hloop with ⟨he, _, _, _, _, _⟩ | ⟨_, _, _, hds⟩
    · exact absurd (hvis ▸ he) hnonempty
    · subst hds
      rw [(DataSource.resetHandleCols_base _).1, (DataSource.resetHandleCols_base _).2.1]
      exact ⟨hvis, rfl⟩

/-- C2 (demand coverage for DataSource). `DataSource.PruneColumns` returns on
every well-formed DataSource, and whenever it returns, every column of the demand
that occurs (by unique id) in the pre-prune schema also occurs in the schema of
the returned plan, be it the DataSource or the projection wrapped around it. -/
theorem c2_demand_coverage (E : ExprEnv Expr Info)
    (ds : DataSource Expr Info (LogicalPlan Expr Info)) (demand : List (Column Expr))
    (st : St Expr) :
    (ds.WellFormed → ∃ r, DataSource.PruneColumns E ds demand st = .ok r) ∧
    ∀ plan st', DataSource.PruneColumns E ds demand st = .ok (plan, st') →
      ∀ c ∈ demand, Schema.Contains ds.base.schema c = true →
        Schema.Contains plan.Schema c = true := by
  refine ⟨DataSource.PruneColumns_total E ds demand st, ?_⟩
  intro plan st' h c hc hin
  obtain ⟨ds1, added, st1, hp, _, hcase⟩ := DataSource.PruneColumns_ok E ds demand st plan st' h
  rcases hcase with ⟨_, proj, hproj, hschema, _⟩ | ⟨_, hplan, _⟩
  · subst hproj
    simp only [LogicalPlan.Schema, LogicalPlan.base, hschema]
    exact Schema.Contains_of_mem demand c hc
  · subst hplan
    simp only [LogicalPlan.Schema, LogicalPlan.base]
    obtain ⟨s, hs, hid⟩ := (Schema.Contains_iff _ _).mp hin
    have hkeep : DataSource.keepCol E ds demand s = true := by
      have : Schema.Contains demand s = true := by
        rw [Schema.Contains_congr demand s c hid]
        exact Schema.Contains_of_mem demand c hc
      simp [DataSource.keepCol, this]
    have hmem : s ∈ ds.base.schema.filter (DataSource.keepCol E ds demand) :=
      List.mem_filter.mpr ⟨hs, hkeep⟩
    obtain ⟨l, hl, hloop⟩ := DataSource.pruneInPlace_ok E ds demand st ds1 added st1 hp
    obtain ⟨_, hvis, _⟩ := DataSource.pruneLoop_of_schema E ds demand l hl
    rcases hloop with ⟨he, _, _, _, _, _⟩ | ⟨_, _, _, hds⟩
    · rw [hvis] at he
      rw [he] at hmem
      simp at hmem
    · subst hds
      rw [(DataSource.resetHandleCols_base _).1]
      simp only [DataSource.afterLoop, hvis]
      exact (Schema.Contains_iff _ _).mpr ⟨s, hmem, hid⟩

theorem filterByMask_map_not {α : Type} (p : α → Bool) (S : List α) :
    filterByMask S ((S.map p).map (fun b => !b)) = S.filter (fun a => !p a) := by
  rw [List.map_map]
  exact filterByMask_map (fun a => !p a) S

/-- C3 (DataSource retention rule). For a DataSource with `|schema| = |columns|`
and a demand under which `keep(i)` holds for at least one position,
`DataSource.PruneColumns` returns, and afterwards the DataSource's schema is the
pre-prune schema filtered by the mask `keep`, in the original order (equally: the
order-preserving filter by the retention test), `Columns` is the pre-prune
`Columns` filtered by the same mask, and the one trace step emitted reports
exactly the columns with `keep(i)` false, in the order the backward loop drops
them. -/
theorem c3_retention_rule (E : ExprEnv Expr Info)
    (ds : DataSource Expr Info (LogicalPlan Expr Info)) (demand : List (Column Expr))
    (st : St Expr) (hlen : ds.base.schema.length = ds.Columns.length)
    (hkeep : true ∈ DataSource.keepMask E ds demand) :
    ∃ plan st' ds1, DataSource.PruneColumns E ds demand st = .ok (plan, st') ∧
      DataSource.ReturnedIn ds1 plan ∧
      ds1.base.schema = filterByMask ds.base.schema (DataSource.keepMask E ds demand) ∧
      ds1.base.schema = ds.base.schema.filter (DataSource.keepCol E ds demand) ∧
      ds1.Columns = filterByMask ds.Columns (DataSource.keepMask E ds demand) ∧
      st'.opt = st.opt ++ [TraceStep.ColumnPrune ds.base.id
        (filterByMask ds.base.schema
          ((DataSource.keepMask E ds demand).map (fun b => !b))).reverse] := by
  obtain ⟨l, hl, hcols, _⟩ := DataSource.pruneLoop_of_columns E ds demand (Nat.le_of_eq hlen)
  obtain ⟨hpr, hvis, _⟩ := DataSource.pruneLoop_of_schema E ds demand l hl
  have hne : l.schema.vis ≠ [] := by
    rw [hvis]
    rw [DataSource.keepMask_eq, List.mem_map] at hkeep
    obtain ⟨c, hc, hk⟩ := hkeep
    intro h0
    have : c ∈ ds.base.schema.filter (DataSource.keepCol E ds demand) :=
      List.mem_filter.mpr ⟨hc, hk⟩
    rw [h0] at this
    simp at this
  have hne0 : ¬ l.schema.vis.length = 0 := fun h0 => hne (List.length_eq_zero.mp h0)
  have hin : DataSource.pruneInPlace E ds demand st =
      .ok ((DataSource.afterLoop E ds demand l.schema.vis l.columns.vis).resetHandleCols,
           false, AppendColumnPruneTraceStep ds.base.id l.prunedColumns st) := by
    rw [DataSource.pruneInPlace_eq]
    simp only [hl, hne0, if_false]
  obtain ⟨⟨plan, st'⟩, hr⟩ : ∃ r, DataSource.PruneColumns E ds demand st = .ok r := by
    unfold DataSource.PruneColumns
    simp only [hin]
    split <;> exact ⟨_, rfl⟩
  obtain ⟨ds1, added, st1, hp, hopt, _⟩ := DataSource.PruneColumns_ok E ds demand st plan st' hr
  obtain ⟨_, _, _, hp', hret⟩ := DataSource.ReturnedIn_of_ok E ds demand st plan st' hr
  rw [hp] at hp'
  simp only [Except.ok.injEq, Prod.mk.injEq] at hp'
  obtain ⟨rfl, rfl, rfl⟩ := hp'
  rw [hin] at hp
  simp only [Except.ok.injEq, Prod.mk.injEq] at hp
  obtain ⟨hds, _, hst⟩ := hp
  refine ⟨plan, st', ds1, hr, hret, ?_, ?_, ?_, ?_⟩
  · rw [← hds, (DataSource.resetHandleCols_base _).1, DataSource.keepMask_eq, filterByMask_map]
    exact hvis
  · rw [← hds, (DataSource.resetHandleCols_base _).1]
    exact hvis
  · rw [← hds, (DataSource.resetHandleCols_base _).2.1]
    simp only [DataSource.afterLoop, hcols, hlen, List.drop_length, List.append_nil]
  · rw [hopt, ← hst, DataSource.keepMask_eq, filterByMask_map_not, ← hpr]
    rfl

/-- C7 (MPP projection wrap). `DataSource.PruneColumns` returns on every
well-formed DataSource, and whenever it returns, the returned plan is a projection
if and only if no handle column was added, the post-prune schema is strictly
longer than the demand, the session has MPP enforced and the table has a TiFlash
replica. When it is a projection, its schema is exactly the demand, its
expressions are the demand columns as expressions, and its only child is the
pruned DataSource; when it is not, it is the DataSource itself. -/
theorem c7_mpp_projection_wrap (E : ExprEnv Expr Info)
    (ds : DataSource Expr Info (LogicalPlan Expr Info)) (demand : List (Column Expr))
    (st : St Expr) :
    (ds.WellFormed → ∃ r, DataSource.PruneColumns E ds demand st = .ok r) ∧
    ∀ plan st', DataSource.PruneColumns E ds demand st = .ok (plan, st') →
      ∃ ds1 addOneHandle st1,
        DataSource.pruneInPlace E ds demand st = .ok (ds1, addOneHandle, st1) ∧
        ((∃ proj, plan = LogicalPlan.Projection proj) ↔
          (addOneHandle = false ∧ demand.length < ds1.base.schema.length ∧
            st.vars.IsMPPEnforced = true ∧ ds.TableInfo.TiFlashReplica ≠ none)) ∧
        (∀ proj, plan = LogicalPlan.Projection proj →
          proj.base.schema = demand ∧ proj.Exprs = E.Column2Exprs demand ∧
          proj.base.children = [LogicalPlan.DataSource ds1]) ∧
        ((¬ ∃ proj, plan = LogicalPlan.Projection proj) →
          plan = LogicalPlan.DataSource ds1) := by
  refine ⟨DataSource.PruneColumns_total E ds demand st, ?_⟩
  intro plan st' h
  obtain ⟨ds1, added, st1, hp, _, hcase⟩ := DataSource.PruneColumns_ok E ds demand st plan st' h
  refine ⟨ds1, added, st1, hp, ?_, ?_, ?_⟩
  · rcases hcase with ⟨hcond, proj, hproj, _⟩ | ⟨hncond, hplan, _⟩
    · exact ⟨fun _ => hcond, fun _ => ⟨proj, hproj⟩⟩
    · constructor
      · rintro ⟨proj, hproj⟩
        rw [hplan] at hproj
        cases hproj
      · intro hc
        exact absurd hc hncond
  · intro proj hproj
    rcases hcase with ⟨_, proj', hproj', h1, h2, h3, _⟩ | ⟨_, hplan, _⟩
    · rw [hproj] at hproj'
      cases hproj'
      exact ⟨h1, h2, h3⟩
    · rw [hplan] at hproj
      cases hproj
  · intro hno
    rcases hcase with ⟨_, proj, hproj, _⟩ | ⟨_, hplan, _⟩
    · exact absurd ⟨proj, hproj⟩ hno
    · exact hplan

/-- C10 (handle reset). `DataSource.PruneColumns` returns on every well-formed
DataSource, and whenever it returns, `HandleCols` of the DataSource is null if the
pre-prune `HandleCols` was non-null, integer-typed and its column 0 is not in the
post-prune schema (after dropping and after a handle column was appended); in
every other case `HandleCols` is exactly what it was before the call. -/
theorem c10_handle_reset (E : ExprEnv Expr Info)
    (ds : DataSource Expr Info (LogicalPlan Expr Info)) (demand : List (Column Expr))
    (st : St Expr) :
    (ds.WellFormed → ∃ r, DataSource.PruneColumns E ds demand st = .ok r) ∧
    ∀ plan st', DataSource.PruneColumns E ds demand st = .ok (plan, st') →
      ∃ ds1, DataSource.ReturnedIn ds1 plan ∧
        (∀ h, ds.HandleCols = some h → h.IsInt = true →
          Schema.ColumnIndex ds1.base.schema h.GetCol0 = -1 → ds1.HandleCols = none) ∧
        ((∀ h, ds.HandleCols = some h →
            ¬ (h.IsInt = true ∧ Schema.ColumnIndex ds1.base.schema h.GetCol0 = -1)) →
          ds1.HandleCols = ds.HandleCols) := by
  refine ⟨DataSource.PruneColumns_total E ds demand st, ?_⟩
  intro plan st' h
  obtain ⟨ds1, added, st1, hp, hret⟩ := DataSource.ReturnedIn_of_ok E ds demand st plan st' h
  obtain ⟨l, _, hloop⟩ := DataSource.pruneInPlace_ok E ds demand st ds1 added st1 hp
  refine ⟨ds1, hret, ?_⟩
  rcases hloop with ⟨_, _, hc, hi, _, hds⟩ | ⟨_, _, _, hds⟩
  · have hb := (DataSource.resetHandleCols_base
      (DataSource.afterLoop E ds demand [hc] (l.columns.vis ++ [hi]))).1
    have hh := DataSource.resetHandleCols_handle
      (DataSource.afterLoop E ds demand [hc] (l.columns.vis ++ [hi]))
    rw [← hds] at hb hh
    rw [hb]
    exact hh
  · have hb := (DataSource.resetHandleCols_base
      (DataSource.afterLoop E ds demand l.schema.vis l.columns.vis)).1
    have hh := DataSource.resetHandleCols_handle
      (DataSource.afterLoop E ds demand l.schema.vis l.columns.vis)
    rw [← hds] at hb hh
    rw [hb]
    exact hh

/-- One pass of the loop body of `pruneByItems`, when `seen` holds the hashes of
the earlier items. -/
theorem pruneByItemsStep_eq (E : ExprEnv Expr Info) (s : ByItemsLoop Expr)
    (earlier : List (ByItems Expr)) (item : ByItems Expr)
    (hseen : s.seen = (earlier.map (fun it => E.HashCode it.Expr)).reverse) :
    pruneByItemsStep E s item =
      if byItemDropped E earlier item then
        { seen := E.HashCode item.Expr :: s.seen, byItems := s.byItems,
          parentUsedCols := s.parentUsedCols, prunedByItems := s.prunedByItems ++ [item] }
      else
        { seen := E.HashCode item.Expr :: s.seen, byItems := s.byItems ++ [item],
          parentUsedCols := s.parentUsedCols ++ E.ExtractColumns item.Expr,
          prunedByItems := s.prunedByItems } := by
  unfold pruneByItemsStep byItemDropped
  simp only [hseen, List.mem_reverse]
  by_cases h1 : E.HashCode item.Expr ∈ earlier.map (fun it => E.HashCode it.Expr)
  · simp [h1]
  · by_cases h2 : (E.ExtractColumns item.Expr).length = 0
    · have h2' : E.ExtractColumns item.Expr = [] := List.length_eq_zero.mp h2
      by_cases h3 : E.IsRuntimeConstExpr item.Expr = true
      · simp [h1, h2', h3]
      · simp [h1, h2', h3]
    · by_cases h4 : (E.GetType item.Expr).GetType = mysql.TypeNull
      · simp [h1, h2, h4]
      · simp [h1, h2, h4]

/-- The loop of `pruneByItems` as an order-preserving split of the items. -/
theorem pruneByItems_foldl (E : ExprEnv Expr Info) (old : List (ByItems Expr)) :
    ∀ (earlier : List (ByItems Expr)) (s : ByItemsLoop Expr),
      s.seen = (earlier.map (fun it => E.HashCode it.Expr)).reverse →
      (old.foldl (pruneByItemsStep E) s).byItems =
        s.byItems ++ retainedBy (byItemDropped E) earlier old ∧
      (old.foldl (pruneByItemsStep E) s).prunedByItems =
        s.prunedByItems ++ droppedBy (byItemDropped E) earlier old ∧
      (old.foldl (pruneByItemsStep E) s).parentUsedCols =
        s.parentUsedCols ++
          ((retainedBy (byItemDropped E) earlier old).map
            (fun it => E.ExtractColumns it.Expr)).flatten := by
  induction old with
  | nil =>
    intro earlier s _
    simp [retainedBy, droppedBy]
  | cons item rest ih =>
    intro earlier s hseen
    simp only [List.foldl_cons]
    rw [pruneByItemsStep_eq E s earlier item hseen]
    by_cases hd : byItemDropped E earlier item = true
    · simp only [hd, if_true]
      have := ih (earlier ++ [item])
        { seen := E.HashCode item.Expr :: s.seen, byItems := s.byItems,
          parentUsedCols := s.parentUsedCols, prunedByItems := s.prunedByItems ++ [item] }
        (by simp [hseen])
      simpa [retainedBy, droppedBy, hd] using this
    · simp only [hd, if_false]
      have := ih (earlier ++ [item])
        { seen := E.HashCode item.Expr :: s.seen, byItems := s.byItems ++ [item],
          parentUsedCols := s.parentUsedCols ++ E.ExtractColumns item.Expr,
          prunedByItems := s.prunedByItems }
        (by simp [hseen])
      simpa [retainedBy, droppedBy, hd] using this

theorem retainedBy_length_add (drop : List (ByItems Expr) → ByItems Expr → Bool)
    (old : List (ByItems Expr)) :
    ∀ earlier, (retainedBy drop earlier old).length + (droppedBy drop earlier old).length =
      old.length := by
  induction old with
  | nil => intro earlier; simp [retainedBy, droppedBy]
  | cons item rest ih =>
    intro earlier
    have := ih (earlier ++ [item])
    by_cases hd : drop earlier item = true
    · simp only [retainedBy, droppedBy, hd, if_true, List.length_cons]
      omega
    · have hd' : drop earlier item = false := by simpa using hd
      simp only [retainedBy, droppedBy, hd', Bool.false_eq_true, if_false, List.length_cons]
      omega

theorem retainedBy_append (drop : List (ByItems Expr) → ByItems Expr → Bool)
    (pre : List (ByItems Expr)) :
    ∀ (earlier post : List (ByItems Expr)),
      retainedBy drop earlier (pre ++ post) =
        retainedBy drop earlier pre ++ retainedBy drop (earlier ++ pre) post := by
  induction pre with
  | nil => intro earlier post; simp [retainedBy]
  | cons item rest ih =>
    intro earlier post
    have := ih (earlier ++ [item]) post
    by_cases hd : drop earlier item = true
    · simp [retainedBy, hd, this]
    · simp [retainedBy, hd, this]

theorem droppedBy_append (drop : List (ByItems Expr) → ByItems Expr → Bool)
    (pre : List (ByItems Expr)) :
    ∀ (earlier post : List (ByItems Expr)),
      droppedBy drop earlier (pre ++ post) =
        droppedBy drop earlier pre ++ droppedBy drop (earlier ++ pre) post := by
  induction pre with
  | nil => intro earlier post; simp [droppedBy]
  | cons item rest ih =>
    intro earlier post
    have := ih (earlier ++ [item]) post
    by_cases hd : drop earlier item = true
    · simp [droppedBy, hd, this]
    · simp [droppedBy, hd, this]

/-- C8, as stated, fails: a by-item without columns that is not a runtime
constant and whose type is SQL NULL passes the drop test of the specification,
yet `pruneByItems` retains it and reports nothing as dropped. -/
theorem c8_null_typed_item_retained :
    (sampleEnv.GetType (SampleExpr.call 7 false mysql.TypeNull)).GetType = mysql.TypeNull ∧
    byItemDroppedSpec sampleEnv [] ⟨SampleExpr.call 7 false mysql.TypeNull, false⟩ = true ∧
    (pruneByItems sampleEnv 1 [⟨SampleExpr.call 7 false mysql.TypeNull, false⟩] sampleSt).1 =
      [⟨SampleExpr.call 7 false mysql.TypeNull, false⟩] ∧
    (pruneByItems sampleEnv 1 [⟨SampleExpr.call 7 false mysql.TypeNull, false⟩] sampleSt).2.2.opt =
      [TraceStep.ByItemsPrune 1 []] := by
  decide

/-- C8 (by-items drop rule, amended). `pruneByItems` drops an item if and only if
its hash is the hash of an earlier item, or it has no columns and is a runtime
constant, or it has at least one column and its type is SQL NULL. The other items
are retained in the original order, the trace step reports exactly the dropped
items, `|retained| + |dropped| = |input|`, the item after any initial segment `pre`
of the input is dropped exactly when the test holds of it and `pre`, and for
`Sort[a, a, NULL, 1+1]` the result is `[a]` with 3 dropped items. -/
theorem c8_by_items_drop_rule (E : ExprEnv Expr Info) (planID : Int)
    (old : List (ByItems Expr)) (st : St Expr) :
    (pruneByItems E planID old st).1 = retainedBy (byItemDropped E) [] old ∧
    (pruneByItems E planID old st).2.2 =
      AppendByItemsPruneTraceStep planID (droppedBy (byItemDropped E) [] old) st ∧
    (retainedBy (byItemDropped E) [] old).length +
      (droppedBy (byItemDropped E) [] old).length = old.length ∧
    (∀ pre item post, old = pre ++ item :: post →
      retainedBy (byItemDropped E) [] old =
        retainedBy (byItemDropped E) [] pre ++
          (if byItemDropped E pre item then [] else [item]) ++
          retainedBy (byItemDropped E) (pre ++ [item]) post ∧
      droppedBy (byItemDropped E) [] old =
        droppedBy (byItemDropped E) [] pre ++
          (if byItemDropped E pre item then [item] else []) ++
          droppedBy (byItemDropped E) (pre ++ [item]) post) ∧
    (pruneByItems sampleEnv 1
        [⟨SampleExpr.col 1, false⟩, ⟨SampleExpr.col 1, false⟩, ⟨SampleExpr.null, false⟩,
         ⟨SampleExpr.plus (SampleExpr.num 1) (SampleExpr.num 1), false⟩] sampleSt).1 =
      [⟨SampleExpr.col 1, false⟩] ∧
    (pruneByItems sampleEnv 1
        [⟨SampleExpr.col 1, false⟩, ⟨SampleExpr.col 1, false⟩, ⟨SampleExpr.null, false⟩,
         ⟨SampleExpr.plus (SampleExpr.num 1) (SampleExpr.num 1), false⟩] sampleSt).2.2.opt =
      [TraceStep.ByItemsPrune 1
        [⟨SampleExpr.col 1, false⟩, ⟨SampleExpr.null, false⟩,
         ⟨SampleExpr.plus (SampleExpr.num 1) (SampleExpr.num 1), false⟩]] := by
  have h := pruneByItems_foldl E old []
    { seen := [], byItems := [], parentUsedCols := [], prunedByItems := [] } (by simp)
  simp only [List.nil_append] at h
  refine ⟨?_, ?_, retainedBy_length_add _ old [], ?_, by decide, by decide⟩
  rotate_left 2
  · intro pre item post hold
    subst hold
    rw [retainedBy_append, droppedBy_append]
    by_cases hd : byItemDropped E pre item = true
    · simp [retainedBy, droppedBy, hd]
    · simp [retainedBy, droppedBy, hd]
  · simp only [pruneByItems, pruneByItemsLoop]
    exact h.1
  · simp only [pruneByItems, pruneByItemsLoop]
    rw [h.2.1]

/-- The deletion loop of `LogicalExpand.PruneColumns` when every schema position
has its output name: it returns, and deletes the unused positions from both. -/
theorem LogicalExpand.expandLoop_rows (L : List (InfoRow Expr String)) :
    ∀ (U2 : List Bool) (X : List (Column Expr)) (Y : List String) (pr : List (Column Expr))
      (sp1 : List (Column Expr)) (sp2 : List String),
    ∃ r,
      LogicalExpand.pruneLoop (L.map (·.2.1) ++ U2) L.length
        ⟨pr, ⟨L.map (·.1) ++ X, sp1⟩, ⟨L.map (·.2.2.2) ++ Y, sp2⟩⟩ = .ok r ∧
      r.prunedColumns = pr ++ ((L.filter (fun t => !t.2.1)).map (·.1)).reverse ∧
      r.schema.vis = (L.filter (·.2.1)).map (·.1) ++ X ∧
      r.names.vis = (L.filter (·.2.1)).map (·.2.2.2) ++ Y := by
  induction L using List.reverseRecOn with
  | nil =>
    intro U2 X Y pr sp1 sp2
    exact ⟨⟨pr, ⟨X, sp1⟩, ⟨Y, sp2⟩⟩, by simp [LogicalExpand.pruneLoop], by simp, by simp,
      by simp⟩
  | append_singleton L t ih =>
    intro U2 X Y pr sp1 sp2
    obtain ⟨c, u, e, name⟩ := t
    have hu : (List.map (·.2.1) (L ++ [(c, u, e, name)]) ++ U2)[L.length]? = some u := by
      simpa using getElem?_append_cons_length (L.map (·.2.1)) U2 u L.length (by simp)
    have hc : (List.map (·.1) (L ++ [(c, u, e, name)]) ++ X)[L.length]? = some c := by
      simpa using getElem?_append_cons_length (L.map (·.1)) X c L.length (by simp)
    have hd1 := GoSlice.deleteAt_append (L.map (·.1)) X sp1 c L.length (by simp)
    have hd2 := GoSlice.deleteAt_append (L.map (·.2.2.2)) Y sp2 name L.length (by simp)
    have e1 : List.map (·.1) (L ++ [(c, u, e, name)]) ++ X = L.map (·.1) ++ c :: X := by simp
    have e2 : List.map (·.2.2.2) (L ++ [(c, u, e, name)]) ++ Y = L.map (·.2.2.2) ++ name :: Y := by
      simp
    have e3 : List.map (·.2.1) (L ++ [(c, u, e, name)]) ++ U2 = L.map (·.2.1) ++ u :: U2 := by
      simp
    simp only [List.length_append, List.length_singleton, LogicalExpand.pruneLoop,
      LogicalExpand.pruneStep, hu, hc]
    rw [e1, e2, e3]
    cases u with
    | true =>
      obtain ⟨r, hr, h1, h2, h3⟩ := ih (true :: U2) (c :: X) (name :: Y) pr sp1 sp2
      refine ⟨r, ?_, ?_, ?_, ?_⟩
      · simpa using hr
      · simpa [List.filter_append] using h1
      · simpa [List.filter_append] using h2
      · simpa [List.filter_append] using h3
    | false =>
      obtain ⟨r, hr, h1, h2, h3⟩ := ih (false :: U2) X Y (pr ++ [c]) (X.getLastD c :: sp1)
        (Y.getLastD name :: sp2)
      refine ⟨r, ?_, ?_, ?_, ?_⟩
      · simpa [hd1, hd2] using hr
      · simpa [List.filter_append] using h1
      · simpa [List.filter_append] using h2
      · simpa [List.filter_append] using h3

theorem infoRows_filter_used (f g : Column Expr → Bool) :
    ∀ (S : List (Column Expr)) (C : List Info),
      ((infoRows f g S C).filter (·.2.1)).map (·.2.2.2) = filterByMask C (S.map f)
  | [], C => by cases C <;> simp [infoRows, filterByMask]
  | _ :: _, [] => by simp [infoRows, filterByMask]
  | c :: cs, i :: is => by
    have ih := infoRows_filter_used f g cs is
    by_cases hk : f c = true
    · simp [infoRows, filterByMask, List.filter_cons, hk, ih]
    · simp [infoRows, filterByMask, List.filter_cons, hk, ih]

theorem infoRows_filter_col (f g : Column Expr → Bool) :
    ∀ (S : List (Column Expr)) (C : List Info), S.length ≤ C.length →
      ((infoRows f g S C).filter (·.2.1)).map (·.1) = S.filter f ∧
      ((infoRows f g S C).filter (fun t => !t.2.1)).map (·.1) = S.filter (fun c => !f c)
  | [], C, _ => by cases C <;> simp [infoRows]
  | _ :: _, [], h => by simp at h
  | c :: cs, i :: is, h => by
    simp only [List.length_cons, Nat.add_le_add_iff_right] at h
    have ih := infoRows_filter_col f g cs is h
    by_cases hk : f c = true
    · simp [infoRows, List.filter_cons, hk, ih.1, ih.2]
    · simp [infoRows, List.filter_cons, hk, ih.1, ih.2]

theorem filterByMask_length_eq {α β : Type} (m : List Bool) :
    ∀ (A : List α) (B : List β), A.length = B.length →
      (filterByMask A m).length = (filterByMask B m).length := by
  induction m with
  | nil => intro A B _; cases A <;> cases B <;> simp [filterByMask]
  | cons b bs ih =>
    intro A B h
    cases A with
    | nil =>
      cases B with
      | nil => simp [filterByMask]
      | cons _ _ => simp at h
    | cons a as =>
      cases B with
      | nil => simp at h
      | cons b' bs' =>
        simp only [List.length_cons, Nat.add_right_cancel_iff] at h
        cases b <;> simp [filterByMask, ih as bs' h]

/-- C9 (Expand pruning). For a `LogicalExpand` with `|schema| = |output_names|` and
one child, `LogicalExpand.PruneColumns` prunes the child with
`demand ++ DistinctGroupByCol`, hands back the child's error unmodified, and
otherwise returns the Expand with its schema filtered, in order, to the columns
occurring in `demand ++ DistinctGroupByCol`, its output names filtered at the same
positions (so the two lengths stay equal) and its child replaced by the pruned
child. Every distinct-group-by column present in the pre-prune schema is
retained. -/
theorem c9_expand_pruning (prune : PruneFn Expr Info)
    (p : LogicalExpand Expr (LogicalPlan Expr Info)) (demand : List (Column Expr))
    (st : St Expr) (child : LogicalPlan Expr Info)
    (hlen : p.base.schema.length = p.base.names.length)
    (hchild : p.base.children = [child]) :
    LogicalExpand.PruneColumns prune p demand st =
      (match prune child (demand ++ p.DistinctGroupByCol)
          (AppendColumnPruneTraceStep p.base.id
            (p.base.schema.filter
              (fun c => !Schema.Contains (demand ++ p.DistinctGroupByCol) c)).reverse st) with
       | .error f => .error f
       | .ok (child1, st2) =>
         .ok (LogicalPlan.Expand
               { p with base := { p.base with
                   schema := p.base.schema.filter
                     (Schema.Contains (demand ++ p.DistinctGroupByCol)),
                   names := filterByMask p.base.names
                     (GetUsedList (demand ++ p.DistinctGroupByCol) p.base.schema),
                   children := [child1] } },
              st2)) ∧
    (p.base.schema.filter (Schema.Contains (demand ++ p.DistinctGroupByCol))).length =
      (filterByMask p.base.names
        (GetUsedList (demand ++ p.DistinctGroupByCol) p.base.schema)).length ∧
    ∀ g ∈ p.DistinctGroupByCol, Schema.Contains p.base.schema g = true →
      Schema.Contains
        (p.base.schema.filter (Schema.Contains (demand ++ p.DistinctGroupByCol))) g = true := by
  let f : Column Expr → Bool := Schema.Contains (demand ++ p.DistinctGroupByCol)
  let L : List (InfoRow Expr String) := infoRows f (fun _ => false) p.base.schema p.base.names
  have hle : p.base.schema.length ≤ p.base.names.length := Nat.le_of_eq hlen
  have h1 : L.map (·.1) = p.base.schema := infoRows_map_col _ _ _ _ hle
  have h2 : L.map (·.2.1) = GetUsedList (demand ++ p.DistinctGroupByCol) p.base.schema :=
    infoRows_map_used _ _ _ _ hle
  have h4 : L.length = p.base.schema.length := infoRows_length _ _ _ _ hle
  have h5 : L.map (·.2.2.2) = p.base.names := by
    have := infoRows_map_info f (fun _ => false) p.base.schema p.base.names hle
    rw [hlen, List.drop_length, List.append_nil] at this
    exact this
  have h6 : (GetUsedList (demand ++ p.DistinctGroupByCol) p.base.schema).length = L.length := by
    rw [h4]
    simp [GetUsedList]
  obtain ⟨r, hr, hp, hs, hn⟩ := LogicalExpand.expandLoop_rows L [] [] [] [] [] []
  simp only [List.append_nil, h1, h2, h5, List.nil_append] at hr hp hs hn
  rw [(infoRows_filter_col f (fun _ => false) _ _ hle).2] at hp
  rw [(infoRows_filter_col f (fun _ => false) _ _ hle).1] at hs
  rw [infoRows_filter_used] at hn
  refine ⟨?_, ?_, ?_⟩
  · unfold LogicalExpand.PruneColumns
    simp only [h6, GoSlice.ofList, hr, hchild, List.getElem?_cons_zero, hp, hs, hn]
    cases prune child (demand ++ p.DistinctGroupByCol)
        (AppendColumnPruneTraceStep p.base.id
          (p.base.schema.filter (fun c => !f c)).reverse st) with
    | error e => rfl
    | ok res => rfl
  · have := filterByMask_length_eq
      (GetUsedList (demand ++ p.DistinctGroupByCol) p.base.schema) p.base.schema p.base.names hlen
    rw [← this]
    simp only [GetUsedList, filterByMask_map]
  · intro g hg hin
    obtain ⟨s, hs', hid⟩ := (Schema.Contains_iff _ _).mp hin
    refine (Schema.Contains_iff _ _).mpr ⟨s, List.mem_filter.mpr ⟨hs', ?_⟩, hid⟩
    rw [Schema.Contains_congr _ s g hid]
    exact Schema.Contains_of_mem _ g (List.mem_append_right _ hg)

theorem foldl_append_extract {α β : Type} (f : α → List β) (xs : List α) :
    ∀ init : List β, xs.foldl (fun acc x => acc ++ f x) init = init ++ (xs.map f).flatten := by
  induction xs with
  | nil => intro init; simp
  | cons x xs ih => intro init; simp [ih, List.append_assoc]

theorem LogicalJoin.allUsedCols_eq (E : ExprEnv Expr Info)
    (p : LogicalJoin Expr (LogicalPlan Expr Info)) (demand : List (Column Expr)) :
    LogicalJoin.allUsedCols E p demand = LogicalJoin.allColsSpec E p demand := by
  simp only [LogicalJoin.allUsedCols, LogicalJoin.allColsSpec, foldl_append_extract]

theorem LogicalJoin.splitStep_foldl (lS rS : List (Column Expr)) (all : List (Column Expr)) :
    ∀ acc : List (Column Expr) × List (Column Expr),
      all.foldl (LogicalJoin.splitStep lS rS) acc =
        (acc.1 ++ all.filter (fun c => Schema.Contains lS c),
         acc.2 ++ all.filter (fun c => !Schema.Contains lS c && Schema.Contains rS c)) := by
  induction all with
  | nil => intro acc; simp
  | cons c cs ih =>
    intro acc
    simp only [List.foldl_cons, ih, LogicalJoin.splitStep]
    by_cases h1 : Schema.Contains lS c = true
    · simp [h1, List.filter_cons]
    · by_cases h2 : Schema.Contains rS c = true
      · simp [h1, h2, List.filter_cons]
      · simp [h1, h2, List.filter_cons]

theorem LogicalJoin.extractUsedCols_eq (E : ExprEnv Expr Info)
    (p : LogicalJoin Expr (LogicalPlan Expr Info)) (demand : List (Column Expr))
    (l r : LogicalPlan Expr Info) (rest : List (LogicalPlan Expr Info))
    (hch : p.base.children = l :: r :: rest) :
    LogicalJoin.extractUsedCols E p demand =
      .ok ((LogicalJoin.allColsSpec E p demand).filter (fun c => Schema.Contains l.Schema c),
           (LogicalJoin.allColsSpec E p demand).filter
             (fun c => !Schema.Contains l.Schema c && Schema.Contains r.Schema c)) := by
  unfold LogicalJoin.extractUsedCols
  simp only [hch, List.getElem?_cons_zero, List.getElem?_cons_succ,
    LogicalJoin.splitStep_foldl, LogicalJoin.allUsedCols_eq, List.nil_append]

/-- C6 (join demand partition). For a `LogicalJoin` with two children,
`extractUsedCols` returns, with `all` the demand followed by the columns of the
equal, left, right, other and null-aware-equal conditions: `leftCols`, the
sub-list of `all` of the columns contained in the left child's schema, and
`rightCols`, the sub-list of `all` of the columns not contained in the left child's
schema but contained in the right child's. Order and duplicates are kept, a column
in neither schema is in neither list, and no column (by unique id) is in both. -/
theorem c6_join_demand_partition (E : ExprEnv Expr Info)
    (p : LogicalJoin Expr (LogicalPlan Expr Info)) (demand : List (Column Expr))
    (l r : LogicalPlan Expr Info) (hch : p.base.children = [l, r]) :
    ∃ leftCols rightCols,
      LogicalJoin.extractUsedCols E p demand = .ok (leftCols, rightCols) ∧
      leftCols = (LogicalJoin.allColsSpec E p demand).filter
        (fun c => Schema.Contains l.Schema c) ∧
      rightCols = (LogicalJoin.allColsSpec E p demand).filter
        (fun c => !Schema.Contains l.Schema c && Schema.Contains r.Schema c) ∧
      (∀ c ∈ LogicalJoin.allColsSpec E p demand, Schema.Contains l.Schema c = false →
        Schema.Contains r.Schema c = false → c ∉ leftCols ∧ c ∉ rightCols) ∧
      (∀ a ∈ leftCols, ∀ b ∈ rightCols, a.UniqueID ≠ b.UniqueID) := by
  refine ⟨_, _, LogicalJoin.extractUsedCols_eq E p demand l r [] hch, rfl, rfl, ?_, ?_⟩
  · intro c _ h1 h2
    simp [List.mem_filter, h1, h2]
  · intro a ha b hb hid
    simp only [List.mem_filter, Bool.and_eq_true, Bool.not_eq_true'] at ha hb
    have := Schema.Contains_congr l.Schema a b hid
    rw [ha.2, hb.2.1] at this
    exact absurd this (by simp)

theorem LogicalApply.eliminates_iff (E : ExprEnv Expr Info)
    (la : LogicalApply Expr (LogicalPlan Expr Info)) (demand : List (Column Expr))
    (st : St Expr) (l r : LogicalPlan Expr Info) :
    LogicalApply.eliminates E la demand st l r = true ↔
      LogicalApply.EliminateCond E la demand st l r := by
  unfold LogicalApply.eliminates LogicalApply.EliminateCond fixcontrol.GetBoolWithDefault
  simp only [Bool.and_eq_true, decide_eq_true_eq, List.isEmpty_iff, List.filter_eq_nil_iff,
    Bool.not_eq_true', not_and, Bool.not_eq_false]
  constructor
  · rintro ⟨⟨h1, h2⟩, h3⟩
    refine ⟨?_, h3, ?_⟩
    · intro hf
      rw [hf] at h1
      simp at h1
    · intro c hc hr
      cases hl : Schema.Contains l.Schema c with
      | true => simp
      | false => exact absurd hr (by simpa [hl] using h2 c hc)
  · rintro ⟨h1, h3, h2⟩
    refine ⟨⟨?_, ?_⟩, h3⟩
    · cases hlk : List.lookup fixcontrol.Fix45822 st.vars.OptimizerFixControl with
      | none => rfl
      | some b =>
        cases b with
        | true => rfl
        | false => exact absurd hlk h1
    · intro c hc hl
      cases hr : Schema.Contains r.Schema c with
      | false => simp
      | true =>
        have := h2 c hc hr
        rw [hl] at this
        simp at this

/-- The eliminating path of `LogicalApply.PruneColumns`. -/
theorem LogicalApply.PruneColumns_eliminate (E : ExprEnv Expr Info) (P : PlanEnv Expr Info)
    (prune : PruneFn Expr Info) (la : LogicalApply Expr (LogicalPlan Expr Info))
    (demand : List (Column Expr)) (st : St Expr) (l r : LogicalPlan Expr Info)
    (hch : la.join.base.children = [l, r])
    (he : LogicalApply.eliminates E la demand st l r = true) :
    LogicalApply.PruneColumns E P prune la demand st =
      prune l demand (ApplyEliminateTraceStep r.ID st) := by
  unfold LogicalApply.PruneColumns
  rw [LogicalJoin.extractUsedCols_eq E la.join demand l r [] hch]
  simp only [hch, List.getElem?_cons_zero, List.getElem?_cons_succ]
  unfold LogicalApply.eliminates at he
  simp only [he, if_true]

/-- The path of `LogicalApply.PruneColumns` that keeps the apply. -/
theorem LogicalApply.PruneColumns_keep (E : ExprEnv Expr Info) (P : PlanEnv Expr Info)
    (prune : PruneFn Expr Info) (la : LogicalApply Expr (LogicalPlan Expr Info))
    (demand : List (Column Expr)) (st : St Expr) (l r : LogicalPlan Expr Info)
    (hch : la.join.base.children = [l, r])
    (he : LogicalApply.eliminates E la demand st l r = false) :
    LogicalApply.PruneColumns E P prune la demand st =
      match prune r ((LogicalJoin.allColsSpec E la.join demand).filter
          (fun c => !Schema.Contains l.Schema c && Schema.Contains r.Schema c)) st with
      | .error f => .error f
      | .ok (r1, st1) =>
        match prune l
            ((LogicalJoin.allColsSpec E la.join demand).filter
                (fun c => Schema.Contains l.Schema c) ++
              (P.ExtractCorColumnsBySchema4LogicalPlan
                (addConstOneForEmptyProjection E r1 st1).1 l.Schema).map (fun col => col.Column))
            (addConstOneForEmptyProjection E r1 st1).2 with
        | .error f => .error f
        | .ok (l1, st3) =>
          .ok (LogicalPlan.Apply
                { join := LogicalJoin.mergeSchema P
                    { la.join with base := { la.join.base with
                        children := [(addConstOneForEmptyProjection E l1 st3).1,
                                     (addConstOneForEmptyProjection E r1 st1).1] } },
                  CorCols := P.ExtractCorColumnsBySchema4LogicalPlan
                    (addConstOneForEmptyProjection E r1 st1).1 l.Schema },
               (addConstOneForEmptyProjection E l1 st3).2) := by
  unfold LogicalApply.PruneColumns
  rw [LogicalJoin.extractUsedCols_eq E la.join demand l r [] hch]
  simp only [hch, List.getElem?_cons_zero, List.getElem?_cons_succ]
  unfold LogicalApply.eliminates at he
  simp only [he, Bool.false_eq_true, if_false]
  rfl

theorem LogicalApply.PruneColumns_keep_ok (E : ExprEnv Expr Info) (P : PlanEnv Expr Info)
    (prune : PruneFn Expr Info) (la : LogicalApply Expr (LogicalPlan Expr Info))
    (demand : List (Column Expr)) (st : St Expr) (l r : LogicalPlan Expr Info)
    (hch : la.join.base.children = [l, r])
    (he : LogicalApply.eliminates E la demand st l r = false)
    (plan : LogicalPlan Expr Info) (st' : St Expr)
    (h : LogicalApply.PruneColumns E P prune la demand st = .ok (plan, st')) :
    ∃ r1 st1 l1 st3,
      prune r ((LogicalJoin.allColsSpec E la.join demand).filter
          (fun c => !Schema.Contains l.Schema c && Schema.Contains r.Schema c)) st =
        .ok (r1, st1) ∧
      prune l
          ((LogicalJoin.allColsSpec E la.join demand).filter
              (fun c => Schema.Contains l.Schema c) ++
            (P.ExtractCorColumnsBySchema4LogicalPlan
              (addConstOneForEmptyProjection E r1 st1).1 l.Schema).map (fun col => col.Column))
          (addConstOneForEmptyProjection E r1 st1).2 = .ok (l1, st3) ∧
      plan = LogicalPlan.Apply
        { join := LogicalJoin.mergeSchema P
            { la.join with base := { la.join.base with
                children := [(addConstOneForEmptyProjection E l1 st3).1,
                             (addConstOneForEmptyProjection E r1 st1).1] } },
          CorCols := P.ExtractCorColumnsBySchema4LogicalPlan
            (addConstOneForEmptyProjection E r1 st1).1 l.Schema } ∧
      st' = (addConstOneForEmptyProjection E l1 st3).2 := by
  rw [LogicalApply.PruneColumns_keep E P prune la demand st l r hch he] at h
  cases hr : prune r ((LogicalJoin.allColsSpec E la.join demand).filter
      (fun c => !Schema.Contains l.Schema c && Schema.Contains r.Schema c)) st with
  | error f => simp [hr] at h
  | ok resr =>
    obtain ⟨r1, st1⟩ := resr
    simp only [hr] at h
    cases hl : prune l
        ((LogicalJoin.allColsSpec E la.join demand).filter
            (fun c => Schema.Contains l.Schema c) ++
          (P.ExtractCorColumnsBySchema4LogicalPlan
            (addConstOneForEmptyProjection E r1 st1).1 l.Schema).map (fun col => col.Column))
        (addConstOneForEmptyProjection E r1 st1).2 with
    | error f => simp [hl] at h
    | ok resl =>
      obtain ⟨l1, st3⟩ := resl
      simp only [hl, Except.ok.injEq, Prod.mk.injEq] at h
      exact ⟨r1, st1, l1, st3, rfl, hl, h.1.symm, h.2.symm⟩

/-- C4 (apply elimination condition). For a `LogicalApply` with two children,
`LogicalApply.PruneColumns` is, whatever the handlers of the children do, the
pruning of the left child with the original demand in the state extended by one
`ApplyEliminate` step for the right child, if and only if fix-control flag 45822
is true or absent, the join type is left outer, and no column of the demand or of
the conditions is in the right child's schema without being in the left child's.
In every other case the right child is pruned first, with the right part of the
partition and in the unextended state (its failure is the handler's failure), and
a plan returned without error is the Apply itself: the node `la` with its two
children replaced by the patched results of their prunings, `CorCols` recomputed
from the pruned right child and the schema rebuilt from the new children, every
other field (plan id, join type, conditions) as it was. -/
theorem c4_apply_elimination (E : ExprEnv Expr Info) (P : PlanEnv Expr Info)
    (la : LogicalApply Expr (LogicalPlan Expr Info)) (demand : List (Column Expr))
    (st : St Expr) (l r : LogicalPlan Expr Info) (hch : la.join.base.children = [l, r]) :
    ((∀ prune : PruneFn Expr Info, LogicalApply.PruneColumns E P prune la demand st =
        prune l demand (ApplyEliminateTraceStep r.ID st)) ↔
      LogicalApply.EliminateCond E la demand st l r) ∧
    (¬ LogicalApply.EliminateCond E la demand st l r →
      ∀ prune : PruneFn Expr Info,
        (∀ f, prune r ((LogicalJoin.allColsSpec E la.join demand).filter
            (fun c => !Schema.Contains l.Schema c && Schema.Contains r.Schema c)) st =
              .error f →
          LogicalApply.PruneColumns E P prune la demand st = .error f) ∧
        (∀ plan st', LogicalApply.PruneColumns E P prune la demand st = .ok (plan, st') →
          ∃ r1 st1 l1 st3,
            prune r ((LogicalJoin.allColsSpec E la.join demand).filter
                (fun c => !Schema.Contains l.Schema c && Schema.Contains r.Schema c)) st =
              .ok (r1, st1) ∧
            prune l
                ((LogicalJoin.allColsSpec E la.join demand).filter
                    (fun c => Schema.Contains l.Schema c) ++
                  (P.ExtractCorColumnsBySchema4LogicalPlan
                    (addConstOneForEmptyProjection E r1 st1).1 l.Schema).map
                      (fun col => col.Column))
                (addConstOneForEmptyProjection E r1 st1).2 = .ok (l1, st3) ∧
            plan = LogicalPlan.Apply
              { la with
                join := { la.join with base := { la.join.base with
                  children := [(addConstOneForEmptyProjection E l1 st3).1,
                               (addConstOneForEmptyProjection E r1 st1).1],
                  schema := P.buildLogicalJoinSchema la.join.JoinType
                    { la.join with base := { la.join.base with
                        children := [(addConstOneForEmptyProjection E l1 st3).1,
                                     (addConstOneForEmptyProjection E r1 st1).1] } } } },
                CorCols := P.ExtractCorColumnsBySchema4LogicalPlan
                  (addConstOneForEmptyProjection E r1 st1).1 l.Schema } ∧
            st' = (addConstOneForEmptyProjection E l1 st3).2)) := by
  have hkeep : ¬ LogicalApply.EliminateCond E la demand st l r →
      LogicalApply.eliminates E la demand st l r = false := by
    intro hn
    cases he : LogicalApply.eliminates E la demand st l r with
    | false => rfl
    | true => exact absurd ((LogicalApply.eliminates_iff E la demand st l r).mp he) hn
  refine ⟨⟨?_, ?_⟩, ?_⟩
  · intro hall
    by_contra hn
    have he := hkeep hn
    let prune : PruneFn Expr Info := fun _ _ s =>
      if s.opt.length = st.opt.length then .error (.error 0) else .error (.error 1)
    have h1 := hall prune
    rw [LogicalApply.PruneColumns_keep E P prune la demand st l r hch he] at h1
    simp [prune, ApplyEliminateTraceStep] at h1
  · intro hc prune
    exact LogicalApply.PruneColumns_eliminate E P prune la demand st l r hch
      ((LogicalApply.eliminates_iff E la demand st l r).mpr hc)
  · intro hn prune
    have he := hkeep hn
    constructor
    · intro f hf
      rw [LogicalApply.PruneColumns_keep E P prune la demand st l r hch he]
      simp only [hf]
    · intro plan st' h
      obtain ⟨r1, st1, l1, st3, hr, hl, hplan, hst⟩ :=
        LogicalApply.PruneColumns_keep_ok E P prune la demand st l r hch he plan st' h
      exact ⟨r1, st1, l1, st3, hr, hl, hplan, hst⟩

/-- C5 (apply elimination soundness). For an apply with two children whose
schemas are disjoint (no column, by unique id, is contained in both, as column
ids are globally unique and the children are separate subtrees): if
`LogicalApply.PruneColumns` replaces the apply by its pruned left child, then the
right child's schema contains no column of the demand. -/
theorem c5_apply_elimination_soundness (E : ExprEnv Expr Info) (P : PlanEnv Expr Info)
    (la : LogicalApply Expr (LogicalPlan Expr Info)) (demand : List (Column Expr))
    (st : St Expr) (l r : LogicalPlan Expr Info) (hch : la.join.base.children = [l, r])
    (hdisj : ∀ c, ¬ (Schema.Contains l.Schema c = true ∧ Schema.Contains r.Schema c = true))
    (helim : ∀ prune : PruneFn Expr Info, LogicalApply.PruneColumns E P prune la demand st =
      prune l demand (ApplyEliminateTraceStep r.ID st)) :
    ∀ c ∈ demand, Schema.Contains r.Schema c = false := by
  have he : LogicalApply.eliminates E la demand st l r = true := by
    cases he : LogicalApply.eliminates E la demand st l r with
    | true => rfl
    | false =>
      exfalso
      let prune : PruneFn Expr Info := fun _ _ s =>
        if s.opt.length = st.opt.length then .error (.error 0) else .error (.error 1)
      have h1 := helim prune
      rw [LogicalApply.PruneColumns_keep E P prune la demand st l r hch he] at h1
      simp [prune, ApplyEliminateTraceStep] at h1
  obtain ⟨_, _, hcols⟩ := (LogicalApply.eliminates_iff E la demand st l r).mp he
  intro c hc
  have hmem : c ∈ LogicalJoin.allColsSpec E la.join demand := by
    simp only [LogicalJoin.allColsSpec, List.mem_append]
    exact Or.inl (Or.inl (Or.inl (Or.inl (Or.inl hc))))
  cases hr : Schema.Contains r.Schema c with
  | false => rfl
  | true =>
    cases hl : Schema.Contains l.Schema c with
    | true => exact absurd ⟨hl, hr⟩ (hdisj c)
    | false => exact absurd ⟨hr, hl⟩ (hcols c hmem)

/-! ## Handle preference, alignment, shrinkage and idempotence on a DataSource;
sequence frame, by-items idempotence, empty-projection patch and pruning order -/

/-- When the loop drops every position, each deletion removes the last element,
so the backing arrays are left as they were: the aliases taken before the loop
still see the original elements. -/
theorem DataSource.pruneLoop_all_dropped (E : ExprEnv Expr Info) (uk : Bool)
    (L : List (InfoRow Expr Info)) :
    (∀ t ∈ L, rowKeep E uk t = false) →
    ∀ (U2 E2 : List Bool) (pr : List (Column Expr)) (sp1 : List (Column Expr))
      (sp2 : List Info),
    ∃ r,
      DataSource.pruneLoop E uk (L.map (·.2.1) ++ U2) (L.map (·.2.2.1) ++ E2) L.length
        ⟨pr, ⟨L.map (·.1), sp1⟩, ⟨L.map (·.2.2.2), sp2⟩⟩ = .ok r ∧
      r.schema = ⟨[], L.map (·.1) ++ sp1⟩ ∧ r.columns = ⟨[], L.map (·.2.2.2) ++ sp2⟩ := by
  induction L using List.reverseRecOn with
  | nil =>
    intro _ U2 E2 pr sp1 sp2
    exact ⟨⟨pr, ⟨[], sp1⟩, ⟨[], sp2⟩⟩, by simp [DataSource.pruneLoop], by simp, by simp⟩
  | append_singleton L t ih =>
    intro hall U2 E2 pr sp1 sp2
    obtain ⟨c, u, e, info⟩ := t
    have hk : rowKeep E uk (c, u, e, info) = false := hall _ (by simp)
    have hallL : ∀ t ∈ L, rowKeep E uk t = false := fun t ht => hall t (by simp [ht])
    have hu : (List.map (·.2.1) (L ++ [(c, u, e, info)]) ++ U2)[L.length]? = some u := by
      simpa using getElem?_append_cons_length (L.map (·.2.1)) U2 u L.length (by simp)
    have he : (List.map (·.2.2.1) (L ++ [(c, u, e, info)]) ++ E2)[L.length]? = some e := by
      simpa using getElem?_append_cons_length (L.map (·.2.2.1)) E2 e L.length (by simp)
    have hc : (List.map (·.1) (L ++ [(c, u, e, info)]))[L.length]? = some c := by
      simp
    have hd1 := GoSlice.deleteAt_append (L.map (·.1)) [] sp1 c L.length (by simp)
    have hd2 := GoSlice.deleteAt_append (L.map (·.2.2.2)) [] sp2 info L.length (by simp)
    have e1 : List.map (·.1) (L ++ [(c, u, e, info)]) = L.map (·.1) ++ [c] := by simp
    have e2 : List.map (·.2.2.2) (L ++ [(c, u, e, info)]) = L.map (·.2.2.2) ++ [info] := by simp
    have e3 : List.map (·.2.1) (L ++ [(c, u, e, info)]) ++ U2 = L.map (·.2.1) ++ u :: U2 := by simp
    have e4 : List.map (·.2.2.1) (L ++ [(c, u, e, info)]) ++ E2 = L.map (·.2.2.1) ++ e :: E2 := by
      simp
    simp only [rowKeep, Bool.or_eq_false_iff] at hk
    obtain ⟨⟨hu0, he0⟩, hs0⟩ := hk
    subst hu0 he0
    simp only [List.length_append, List.length_singleton, DataSource.pruneLoop,
      DataSource.pruneStep, hu, he, hc]
    rw [e1, e2, e3, e4]
    simp only [List.append_nil] at hd1 hd2
    obtain ⟨r, hr, h1, h2⟩ := ih hallL (false :: U2) (false :: E2) (pr ++ [c]) (c :: sp1)
      (info :: sp2)
    refine ⟨r, ?_, ?_, ?_⟩
    · simp only [Bool.not_false, Bool.and_self, if_true, hs0, Bool.false_eq_true, if_false,
        hd1, hd2, List.getLastD_nil]
      exact hr
    · rw [h1]; simp
    · rw [h2]; simp

theorem infoRows_mem (f g : Column Expr → Bool) :
    ∀ (S : List (Column Expr)) (C : List Info) (t : InfoRow Expr Info),
      t ∈ infoRows f g S C → t.1 ∈ S ∧ t.2.1 = f t.1 ∧ t.2.2.1 = g t.1
  | [], C, t, h => by cases C <;> simp [infoRows] at h
  | _ :: _, [], t, h => by simp [infoRows] at h
  | c :: cs, i :: is, t, h => by
    simp only [infoRows, List.mem_cons] at h
    rcases h with h | h
    · subst h
      simp
    · have := infoRows_mem f g cs is t h
      exact ⟨List.mem_cons_of_mem _ this.1, this.2⟩

/-- The deletion loop on a DataSource with `|schema| = |columns|` none of whose
columns is retained: it returns, empties both slices, and the aliases taken
before the loop still see the pre-prune schema and columns. -/
theorem DataSource.pruneLoop_of_emptied (E : ExprEnv Expr Info)
    (ds : DataSource Expr Info (LogicalPlan Expr Info)) (demand : List (Column Expr))
    (hlen : ds.base.schema.length = ds.Columns.length)
    (hempty : ds.base.schema.filter (DataSource.keepCol E ds demand) = []) :
    ∃ l, DataSource.pruneLoop E ds.ContainExprPrefixUk (GetUsedList demand ds.base.schema)
        (GetUsedList (E.ExtractColumnsFromExpressions ds.AllConds) ds.base.schema)
        (GetUsedList demand ds.base.schema).length
        { prunedColumns := [], schema := GoSlice.ofList ds.base.schema,
          columns := GoSlice.ofList ds.Columns } = .ok l ∧
      l.schema.vis = [] ∧ l.columns.vis = [] ∧
      l.schema.alias = ds.base.schema ∧ l.columns.alias = ds.Columns ∧
      l.prunedColumns = ds.base.schema.reverse := by
  let f : Column Expr → Bool := fun c => Schema.Contains demand c
  let g : Column Expr → Bool :=
    fun c => Schema.Contains (E.ExtractColumnsFromExpressions ds.AllConds) c
  let L : List (InfoRow Expr Info) := infoRows f g ds.base.schema ds.Columns
  have hle : ds.base.schema.length ≤ ds.Columns.length := Nat.le_of_eq hlen
  have h1 : L.map (·.1) = ds.base.schema := infoRows_map_col f g _ _ hle
  have h2 : L.map (·.2.1) = GetUsedList demand ds.base.schema :=
    infoRows_map_used f g _ _ hle
  have h3 : L.map (·.2.2.1) =
      GetUsedList (E.ExtractColumnsFromExpressions ds.AllConds) ds.base.schema :=
    infoRows_map_exprUsed f g _ _ hle
  have h4 : L.length = ds.base.schema.length := infoRows_length f g _ _ hle
  have h5 : L.map (·.2.2.2) = ds.Columns := by
    have := infoRows_map_info f g ds.base.schema ds.Columns hle
    rw [hlen, List.drop_length, List.append_nil] at this
    exact this
  have h6 : (GetUsedList demand ds.base.schema).length = L.length := by
    rw [h4]
    simp [GetUsedList]
  have hall : ∀ t ∈ L, rowKeep E ds.ContainExprPrefixUk t = false := by
    intro t ht
    obtain ⟨hm, hf, hg⟩ := infoRows_mem f g _ _ t ht
    have hnot : DataSource.keepCol E ds demand t.1 = false := by
      cases hk : DataSource.keepCol E ds demand t.1 with
      | false => rfl
      | true =>
        have : t.1 ∈ ds.base.schema.filter (DataSource.keepCol E ds demand) :=
          List.mem_filter.mpr ⟨hm, hk⟩
        rw [hempty] at this
        simp at this
    simpa [rowKeep, DataSource.keepCol, hf, hg, f, g] using hnot
  obtain ⟨r, hr, hs, hc⟩ :=
    DataSource.pruneLoop_all_dropped E ds.ContainExprPrefixUk L hall [] [] [] [] []
  simp only [List.append_nil, h1, h2, h3, h5] at hr hs hc
  have hr' : DataSource.pruneLoop E ds.ContainExprPrefixUk (GetUsedList demand ds.base.schema)
        (GetUsedList (E.ExtractColumnsFromExpressions ds.AllConds) ds.base.schema)
        (GetUsedList demand ds.base.schema).length
        { prunedColumns := [], schema := GoSlice.ofList ds.base.schema,
          columns := GoSlice.ofList ds.Columns } = .ok r := by
    rw [h6]
    exact hr
  obtain ⟨hp, _, _⟩ := DataSource.pruneLoop_of_schema E ds demand r hr'
  refine ⟨r, hr', by rw [hs], by rw [hc], by rw [hs]; rfl, by rw [hc]; rfl, ?_⟩
  rw [hp]
  congr 1
  rw [List.filter_eq_self]
  intro c hc'
  cases hk : DataSource.keepCol E ds demand c with
  | false => rfl
  | true =>
    have : c ∈ ds.base.schema.filter (DataSource.keepCol E ds demand) :=
      List.mem_filter.mpr ⟨hc', hk⟩
    rw [hempty] at this
    simp at this

/-- The priority of `preferKeyColumnFromTable`, read off its result. -/
theorem preferKeyColumnFromTable_priority (E : ExprEnv Expr Info)
    (d : DataSource Expr Info (LogicalPlan Expr Info)) (o1 : List (Column Expr))
    (o2 : List Info) (st st2 : St Expr) (hc : Column Expr) (hi : Info)
    (h : preferKeyColumnFromTable E d o1 o2 st = .ok (hc, hi, st2)) :
    (d.table.tp.IsClusterTable = true → 0 < o1.length →
      o1[0]? = some hc ∧ o2[0]? = some hi ∧ st2 = st) ∧
    (¬ (d.table.tp.IsClusterTable = true ∧ 0 < o1.length) →
      (∀ hd, d.HandleCols = some hd → hc = hd.GetCol0 ∧ hi = E.ToInfo hd.GetCol0 ∧ st2 = st) ∧
      (d.HandleCols = none → d.table.Meta.PKIsHandle = true →
        ∀ u, d.UnMutableHandleCols = some u →
          hc = u.GetCol0 ∧ hi = E.ToInfo u.GetCol0 ∧ st2 = st) ∧
      (d.HandleCols = none → d.table.Meta.PKIsHandle = false →
        hc = { UniqueID := st.vars.PlanColumnID + 1, RetType := ⟨mysql.TypeLonglong⟩,
               VirtualExpr := none } ∧
        hi = E.NewExtraHandleColInfo ∧
        st2 = { st with vars := { st.vars with PlanColumnID := st.vars.PlanColumnID + 1 } })) := by
  unfold preferKeyColumnFromTable at h
  by_cases hcl : (d.table.tp.IsClusterTable && decide (o1.length > 0)) = true
  · simp only [hcl, if_true] at h
    have hcl' : d.table.tp.IsClusterTable = true ∧ 0 < o1.length := by
      simpa using hcl
    constructor
    · intro _ _
      cases ha : o2[0]? with
      | none => simp [ha] at h
      | some a =>
        cases hb : o1[0]? with
        | none => simp [ha, hb] at h
        | some b =>
          simp only [ha, hb, Except.ok.injEq, Prod.mk.injEq] at h
          obtain ⟨rfl, rfl, rfl⟩ := h
          exact ⟨rfl, rfl, rfl⟩
    · intro hn
      exact absurd hcl' hn
  · simp only [hcl, if_false] at h
    have hcl' : ¬ (d.table.tp.IsClusterTable = true ∧ 0 < o1.length) := by
      simpa using hcl
    constructor
    · intro h1 h2
      exact absurd ⟨h1, h2⟩ hcl'
    · intro _
      cases hh : d.HandleCols with
      | some hd =>
        simp only [hh, Except.ok.injEq, Prod.mk.injEq] at h
        obtain ⟨rfl, rfl, rfl⟩ := h
        refine ⟨?_, ?_, ?_⟩
        · intro hd' e
          cases e
          exact ⟨rfl, rfl, rfl⟩
        · intro e
          cases e
        · intro e
          cases e
      | none =>
        simp only [hh] at h
        by_cases hpk : d.table.Meta.PKIsHandle = true
        · simp only [hpk, if_true] at h
          cases hu : d.UnMutableHandleCols with
          | none => simp [hu] at h
          | some u =>
            simp only [hu, Except.ok.injEq, Prod.mk.injEq] at h
            obtain ⟨rfl, rfl, rfl⟩ := h
            refine ⟨?_, ?_, ?_⟩
            · intro hd' e
              cases e
            · intro _ _ u' e
              cases e
              exact ⟨rfl, rfl, rfl⟩
            · intro _ e
              rw [hpk] at e
              cases e
        · simp only [hpk, if_false, Except.ok.injEq, Prod.mk.injEq] at h
          obtain ⟨rfl, rfl, rfl⟩ := h
          refine ⟨?_, ?_, ?_⟩
          · intro hd' e
            cases e
          · intro _ e
            exact absurd e hpk
          · intro _ _
            exact ⟨rfl, rfl, rfl⟩

/-- C11 (handle-column preference). For a DataSource with `|schema| = |columns|`
none of whose columns is retained, `DataSource.PruneColumns` returns whenever the
DataSource is well-formed, and when it returns, the result is the DataSource with
exactly one schema column and one column info, those chosen by
`preferKeyColumnFromTable` from the pre-prune schema and the pre-prune columns (the
aliases still see the values held before the deletions): on a cluster table with a
non-empty pre-prune schema, pre-prune schema column 0 and pre-prune `Columns[0]`;
else `HandleCols.GetCol(0)` when `HandleCols` is non-null; else
`UnMutableHandleCols.GetCol(0)` when the table has `PKIsHandle`; else a synthesised
extra-handle column whose unique id is freshly allocated. -/
theorem c11_handle_preference (E : ExprEnv Expr Info)
    (ds : DataSource Expr Info (LogicalPlan Expr Info)) (demand : List (Column Expr))
    (st : St Expr) (hlen : ds.base.schema.length = ds.Columns.length)
    (hempty : ds.base.schema.filter (DataSource.keepCol E ds demand) = []) :
    (ds.WellFormed → ∃ r, DataSource.PruneColumns E ds demand st = .ok r) ∧
    ∀ plan st', DataSource.PruneColumns E ds demand st = .ok (plan, st') →
      ∃ ds1 handleCol handleColInfo,
        plan = LogicalPlan.DataSource ds1 ∧ ds1.base.schema = [handleCol] ∧
        ds1.Columns = [handleColInfo] ∧
        preferKeyColumnFromTable E ds ds.base.schema ds.Columns
          (AppendColumnPruneTraceStep ds.base.id ds.base.schema.reverse st) =
            .ok (handleCol, handleColInfo, st') ∧
        (ds.table.tp.IsClusterTable = true → 0 < ds.base.schema.length →
          ds.base.schema[0]? = some handleCol ∧ ds.Columns[0]? = some handleColInfo) ∧
        (¬ (ds.table.tp.IsClusterTable = true ∧ 0 < ds.base.schema.length) →
          (∀ hd, ds.HandleCols = some hd →
            handleCol = hd.GetCol0 ∧ handleColInfo = E.ToInfo hd.GetCol0) ∧
          (ds.HandleCols = none → ds.table.Meta.PKIsHandle = true →
            ∀ u, ds.UnMutableHandleCols = some u →
              handleCol = u.GetCol0 ∧ handleColInfo = E.ToInfo u.GetCol0) ∧
          (ds.HandleCols = none → ds.table.Meta.PKIsHandle = false →
            handleCol = { UniqueID := st.vars.PlanColumnID + 1,
                          RetType := ⟨mysql.TypeLonglong⟩, VirtualExpr := none } ∧
            handleColInfo = E.NewExtraHandleColInfo ∧
            st'.vars.PlanColumnID = st.vars.PlanColumnID + 1)) := by
  refine ⟨DataSource.PruneColumns_total E ds demand st, ?_⟩
  intro plan st' h
  obtain ⟨ds1, added, st1, hp, _, hcase⟩ := DataSource.PruneColumns_ok E ds demand st plan st' h
  obtain ⟨l, hl, hloop⟩ := DataSource.pruneInPlace_ok E ds demand st ds1 added st1 hp
  obtain ⟨l', hl', hv1, hv2, ha1, ha2, hpr⟩ := DataSource.pruneLoop_of_emptied E ds demand hlen hempty
  rw [hl] at hl'
  cases hl'
  rcases hloop with ⟨_, hadd, hc, hi, hpk, hds⟩ | ⟨hne, _, _, _⟩
  · have hplan : plan = LogicalPlan.DataSource ds1 ∧ st' = st1 := by
      rcases hcase with ⟨⟨hfalse, _⟩, _⟩ | ⟨_, h1, h2⟩
      · rw [hadd] at hfalse
        exact absurd hfalse (by simp)
      · exact ⟨h1, h2⟩
    obtain ⟨hplan, rfl⟩ := hplan
    rw [ha1, ha2, hpr] at hpk
    obtain ⟨p1, p2⟩ := preferKeyColumnFromTable_priority E ds _ _ _ _ hc hi hpk
    refine ⟨ds1, hc, hi, hplan, ?_, ?_, hpk, ?_, ?_⟩
    · subst hds
      rw [(DataSource.resetHandleCols_base _).1]
      rfl
    · subst hds
      rw [(DataSource.resetHandleCols_base _).2.1, hv2]
      rfl
    · intro hcl hpos
      exact ⟨(p1 hcl hpos).1, (p1 hcl hpos).2.1⟩
    · intro hn
      obtain ⟨q1, q2, q3⟩ := p2 hn
      refine ⟨fun hd e => ⟨(q1 hd e).1, (q1 hd e).2.1⟩,
        fun e1 e2 u e3 => ⟨(q2 e1 e2 u e3).1, (q2 e1 e2 u e3).2.1⟩, ?_⟩
      intro e1 e2
      obtain ⟨r1, r2, r3⟩ := q3 e1 e2
      refine ⟨r1, r2, ?_⟩
      rw [r3]
      rfl
  · exact absurd hv1 hne

theorem filterByMask_zip {α β : Type} (m : List Bool) :
    ∀ (A : List α) (B : List β),
      filterByMask (A.zip B) m = (filterByMask A m).zip (filterByMask B m) := by
  induction m with
  | nil => intro A B; cases A <;> cases B <;> simp [filterByMask]
  | cons b bs ih =>
    intro A B
    cases A with
    | nil => cases B <;> simp [filterByMask]
    | cons a as =>
      cases B with
      | nil => cases b <;> simp [filterByMask]
      | cons b' bs' =>
        cases b with
        | true =>
          show (a, b') :: filterByMask (as.zip bs') bs =
            (a :: filterByMask as bs).zip (b' :: filterByMask bs' bs)
          rw [ih as bs']
          rfl
        | false =>
          show filterByMask (as.zip bs') bs = (filterByMask as bs).zip (filterByMask bs' bs)
          exact ih as bs'

/-- C12 (schema/columns alignment). For a DataSource with `|schema| = |columns|`,
`DataSource.PruneColumns` returns whenever the DataSource is well-formed, and when it
returns, `|schema| = |columns|` holds again: if a column is retained, the pairs
`(schema[i], columns[i])` after the call are the pre-prune pairs at the retained
positions, in order (also when nothing is dropped); if none is retained, both
lists hold exactly the one appended handle entry. -/
theorem c12_schema_columns_alignment (E : ExprEnv Expr Info)
    (ds : DataSource Expr Info (LogicalPlan Expr Info)) (demand : List (Column Expr))
    (st : St Expr) (hlen : ds.base.schema.length = ds.Columns.length) :
    (ds.WellFormed → ∃ r, DataSource.PruneColumns E ds demand st = .ok r) ∧
    ∀ plan st', DataSource.PruneColumns E ds demand st = .ok (plan, st') →
      ∃ ds1, DataSource.ReturnedIn ds1 plan ∧
        ds1.base.schema.length = ds1.Columns.length ∧
        (ds.base.schema.filter (DataSource.keepCol E ds demand) ≠ [] →
          ds1.base.schema.zip ds1.Columns =
            filterByMask (ds.base.schema.zip ds.Columns) (DataSource.keepMask E ds demand)) ∧
        (ds.base.schema.filter (DataSource.keepCol E ds demand) = [] →
          ∃ handleCol handleColInfo,
            ds1.base.schema = [handleCol] ∧ ds1.Columns = [handleColInfo]) := by
  refine ⟨DataSource.PruneColumns_total E ds demand st, ?_⟩
  intro plan st' h
  obtain ⟨ds1, added, st1, hp, hret⟩ := DataSource.ReturnedIn_of_ok E ds demand st plan st' h
  obtain ⟨l, hl, hloop⟩ := DataSource.pruneInPlace_ok E ds demand st ds1 added st1 hp
  obtain ⟨_, hvis, _⟩ := DataSource.pruneLoop_of_schema E ds demand l hl
  obtain ⟨l', hl', hcols, _⟩ := DataSource.pruneLoop_of_columns E ds demand (Nat.le_of_eq hlen)
  rw [hl] at hl'
  cases hl'
  rw [hlen, List.drop_length, List.append_nil] at hcols
  have hS : ds.base.schema.filter (DataSource.keepCol E ds demand) =
      filterByMask ds.base.schema (DataSource.keepMask E ds demand) := by
    rw [DataSource.keepMask_eq, filterByMask_map]
  rcases hloop with ⟨he, _, hc, hi, _, hds⟩ | ⟨hne, _, _, hds⟩
  · have hcv : l.columns.vis = [] := by
      rw [hcols]
      have := filterByMask_length_eq (DataSource.keepMask E ds demand) ds.base.schema
        ds.Columns hlen
      rw [← hS, ← hvis, he] at this
      exact List.length_eq_zero.mp this.symm
    have e1 : ds1.base.schema = [hc] := by
      subst hds
      rw [(DataSource.resetHandleCols_base _).1]
      rfl
    have e2 : ds1.Columns = [hi] := by
      subst hds
      rw [(DataSource.resetHandleCols_base _).2.1]
      simp [DataSource.afterLoop, hcv]
    refine ⟨ds1, hret, by rw [e1, e2]; rfl, ?_, fun _ => ⟨hc, hi, e1, e2⟩⟩
    intro hne
    exact absurd (hvis ▸ he) hne
  · have e1 : ds1.base.schema = filterByMask ds.base.schema (DataSource.keepMask E ds demand) := by
      subst hds
      rw [(DataSource.resetHandleCols_base _).1, ← hS, ← hvis]
      rfl
    have e2 : ds1.Columns = filterByMask ds.Columns (DataSource.keepMask E ds demand) := by
      subst hds
      rw [(DataSource.resetHandleCols_base _).2.1, ← hcols]
      rfl
    refine ⟨ds1, hret, ?_, ?_, ?_⟩
    · rw [e1, e2]
      exact filterByMask_length_eq _ _ _ hlen
    · intro _
      rw [e1, e2, filterByMask_zip]
    · intro he
      exact absurd (hvis ▸ he) hne

/-- C16, as stated, fails: the scan of columns 1, 2, 3 pruned with an empty demand
ends with the schema `[101]`, the synthesised extra handle, which is no
sub-sequence of the pre-prune column ids `[1, 2, 3]`. -/
theorem c16_appended_handle_not_in_pre_schema :
    ((DataSource.PruneColumns sampleEnv (sampleScan 1 [1, 2, 3] [] false) []
        sampleSt).toOption.map (fun res => res.1.Schema.map (fun c => c.UniqueID))) =
      some [101] ∧
    ¬ List.Sublist [(101 : Int)]
        ((sampleScan 1 [1, 2, 3] [] false).base.schema.map (fun c => c.UniqueID)) := by
  decide

/-- When the loop drops every schema position and returns, each deletion from the
schema removed its last element, so the alias of the schema taken before the loop
still sees the original columns, whatever the length of `Columns`. -/
theorem DataSource.pruneLoop_schema_emptied (E : ExprEnv Expr Info) (uk : Bool)
    (L : List (MaskRow Expr)) :
    (∀ t ∈ L, maskKeep E uk t = false) →
    ∀ (U2 E2 : List Bool) (pr : List (Column Expr)) (sp1 : List (Column Expr))
      (cs : GoSlice Info) (r : PruneLoop Expr Info),
      DataSource.pruneLoop E uk (L.map (·.2.1) ++ U2) (L.map (·.2.2) ++ E2) L.length
        ⟨pr, ⟨L.map (·.1), sp1⟩, cs⟩ = .ok r →
      r.schema = ⟨[], L.map (·.1) ++ sp1⟩ := by
  induction L using List.reverseRecOn with
  | nil =>
    intro _ U2 E2 pr sp1 cs r h
    simp only [DataSource.pruneLoop, List.length_nil, List.map_nil, Except.ok.injEq] at h
    subst h
    simp
  | append_singleton L t ih =>
    intro hall U2 E2 pr sp1 cs r h
    obtain ⟨c, u, e⟩ := t
    have hk : maskKeep E uk (c, u, e) = false := hall _ (by simp)
    have hallL : ∀ t ∈ L, maskKeep E uk t = false := fun t ht => hall t (by simp [ht])
    have hu : (List.map (·.2.1) (L ++ [(c, u, e)]) ++ U2)[L.length]? = some u := by
      simpa using getElem?_append_cons_length (L.map (·.2.1)) U2 u L.length (by simp)
    have he : (List.map (·.2.2) (L ++ [(c, u, e)]) ++ E2)[L.length]? = some e := by
      simpa using getElem?_append_cons_length (L.map (·.2.2)) E2 e L.length (by simp)
    have hc : (List.map (·.1) (L ++ [(c, u, e)]))[L.length]? = some c := by
      simp
    have hd1 := GoSlice.deleteAt_append (L.map (·.1)) [] sp1 c L.length (by simp)
    have e1 : List.map (·.1) (L ++ [(c, u, e)]) = L.map (·.1) ++ [c] := by simp
    have e3 : List.map (·.2.1) (L ++ [(c, u, e)]) ++ U2 = L.map (·.2.1) ++ u :: U2 := by simp
    have e4 : List.map (·.2.2) (L ++ [(c, u, e)]) ++ E2 = L.map (·.2.2) ++ e :: E2 := by simp
    simp only [maskKeep, Bool.or_eq_false_iff] at hk
    obtain ⟨⟨hu0, he0⟩, hs0⟩ := hk
    subst hu0 he0
    simp only [List.length_append, List.length_singleton, DataSource.pruneLoop,
      DataSource.pruneStep, hu, he, hc] at h
    rw [e1, e3, e4] at h
    simp only [List.append_nil] at hd1
    simp only [Bool.not_false, Bool.and_self, if_true, hs0, Bool.false_eq_true, if_false,
      hd1, List.getLastD_nil] at h
    cases hcs : cs.deleteAt L.length with
    | error f => simp [hcs] at h
    | ok cs1 =>
      simp only [hcs] at h
      have := ih hallL (false :: U2) (false :: E2) (pr ++ [c]) (c :: sp1) cs1 r h
      rw [this]
      simp

/-- On a DataSource none of whose columns is retained, the alias of the schema
taken before the loop is the pre-prune schema once the loop has returned. -/
theorem DataSource.pruneLoop_alias_of_emptied (E : ExprEnv Expr Info)
    (ds : DataSource Expr Info (LogicalPlan Expr Info)) (demand : List (Column Expr))
    (hempty : ds.base.schema.filter (DataSource.keepCol E ds demand) = [])
    (l : PruneLoop Expr Info)
    (h : DataSource.pruneLoop E ds.ContainExprPrefixUk (GetUsedList demand ds.base.schema)
        (GetUsedList (E.ExtractColumnsFromExpressions ds.AllConds) ds.base.schema)
        (GetUsedList demand ds.base.schema).length
        { prunedColumns := [], schema := GoSlice.ofList ds.base.schema,
          columns := GoSlice.ofList ds.Columns } = .ok l) :
    l.schema.alias = ds.base.schema := by
  let f : Column Expr → Bool := fun c => Schema.Contains demand c
  let g : Column Expr → Bool :=
    fun c => Schema.Contains (E.ExtractColumnsFromExpressions ds.AllConds) c
  let L : List (MaskRow Expr) := ds.base.schema.map (fun c => (c, f c, g c))
  have h1 : L.map (·.1) = ds.base.schema := by simp [L, Function.comp_def]
  have h2 : L.map (·.2.1) = GetUsedList demand ds.base.schema := by
    simp [L, GetUsedList, f, Function.comp_def]
  have h3 : L.map (·.2.2) =
      GetUsedList (E.ExtractColumnsFromExpressions ds.AllConds) ds.base.schema := by
    simp [L, GetUsedList, g, Function.comp_def]
  have h4 : (GetUsedList demand ds.base.schema).length = L.length := by
    simp [L, GetUsedList]
  have hall : ∀ t ∈ L, maskKeep E ds.ContainExprPrefixUk t = false := by
    intro t ht
    simp only [L, List.mem_map] at ht
    obtain ⟨c, hc, rfl⟩ := ht
    have hk : DataSource.keepCol E ds demand c = false := by
      cases hk : DataSource.keepCol E ds demand c with
      | false => rfl
      | true =>
        have : c ∈ ds.base.schema.filter (DataSource.keepCol E ds demand) :=
          List.mem_filter.mpr ⟨hc, hk⟩
        rw [hempty] at this
        cases this
    simpa [maskKeep, DataSource.keepCol, f, g] using hk
  have key := DataSource.pruneLoop_schema_emptied E ds.ContainExprPrefixUk L hall [] [] [] []
    (GoSlice.ofList ds.Columns) l
  rw [h4, ← h2, ← h3] at h
  simp only [List.append_nil, h1] at key
  have hk := key (by simpa [GoSlice.ofList, h1] using h)
  rw [hk]
  simp [GoSlice.alias]

/-- C16 (schema shrinkage on DataSource, amended). Whenever
`DataSource.PruneColumns` returns: if at least one column is retained, the
DataSource's post-prune schema is the order-preserving filter of the pre-prune
schema, hence an ordered sub-sequence of it, also by column id. If none is
retained, the post-prune schema is exactly the one handle column chosen by
`preferKeyColumnFromTable` from the pre-prune schema: pre-prune column 0 on a
cluster table with a non-empty pre-prune schema, and then still a sub-sequence;
else `HandleCols.GetCol(0)`, else `UnMutableHandleCols.GetCol(0)` with
`PKIsHandle`, else a synthesised extra handle with a freshly allocated unique id;
and it is a sub-sequence of the pre-prune schema exactly when that column occurs
in the pre-prune schema. -/
theorem c16_schema_shrinkage (E : ExprEnv Expr Info)
    (ds : DataSource Expr Info (LogicalPlan Expr Info)) (demand : List (Column Expr))
    (st : St Expr) :
    (ds.WellFormed → ∃ r, DataSource.PruneColumns E ds demand st = .ok r) ∧
    ∀ plan st', DataSource.PruneColumns E ds demand st = .ok (plan, st') →
      ∃ ds1, DataSource.ReturnedIn ds1 plan ∧
        (ds.base.schema.filter (DataSource.keepCol E ds demand) ≠ [] →
          ds1.base.schema = ds.base.schema.filter (DataSource.keepCol E ds demand) ∧
          List.Sublist ds1.base.schema ds.base.schema ∧
          List.Sublist (ds1.base.schema.map (fun c => c.UniqueID))
            (ds.base.schema.map (fun c => c.UniqueID))) ∧
        (ds.base.schema.filter (DataSource.keepCol E ds demand) = [] →
          ∃ handleCol handleColInfo originInfos,
            ds1.base.schema = [handleCol] ∧
            preferKeyColumnFromTable E ds ds.base.schema originInfos
              (AppendColumnPruneTraceStep ds.base.id ds.base.schema.reverse st) =
                .ok (handleCol, handleColInfo, st') ∧
            (ds.table.tp.IsClusterTable = true → 0 < ds.base.schema.length →
              ds.base.schema[0]? = some handleCol ∧
              List.Sublist ds1.base.schema ds.base.schema ∧
              List.Sublist (ds1.base.schema.map (fun c => c.UniqueID))
                (ds.base.schema.map (fun c => c.UniqueID))) ∧
            (¬ (ds.table.tp.IsClusterTable = true ∧ 0 < ds.base.schema.length) →
              (∀ hd, ds.HandleCols = some hd → handleCol = hd.GetCol0) ∧
              (ds.HandleCols = none → ds.table.Meta.PKIsHandle = true →
                ∀ u, ds.UnMutableHandleCols = some u → handleCol = u.GetCol0) ∧
              (ds.HandleCols = none → ds.table.Meta.PKIsHandle = false →
                handleCol = { UniqueID := st.vars.PlanColumnID + 1,
                              RetType := ⟨mysql.TypeLonglong⟩, VirtualExpr := none })) ∧
            (List.Sublist ds1.base.schema ds.base.schema ↔ handleCol ∈ ds.base.schema) ∧
            (List.Sublist (ds1.base.schema.map (fun c => c.UniqueID))
                (ds.base.schema.map (fun c => c.UniqueID)) ↔
              handleCol.UniqueID ∈ ds.base.schema.map (fun c => c.UniqueID))) := by
  refine ⟨DataSource.PruneColumns_total E ds demand st, ?_⟩
  intro plan st' h
  obtain ⟨ds1, added, st1, hp, hret⟩ := DataSource.ReturnedIn_of_ok E ds demand st plan st' h
  obtain ⟨l, hl, hloop⟩ := DataSource.pruneInPlace_ok E ds demand st ds1 added st1 hp
  obtain ⟨hpr, hvis, _⟩ := DataSource.pruneLoop_of_schema E ds demand l hl
  refine ⟨ds1, hret, ?_, ?_⟩
  · intro hne
    rcases hloop with ⟨he, _, _, _, _, _⟩ | ⟨_, _, _, hds⟩
    · exact absurd (hvis ▸ he) hne
    · have e1 : ds1.base.schema = ds.base.schema.filter (DataSource.keepCol E ds demand) := by
        subst hds
        rw [(DataSource.resetHandleCols_base _).1, ← hvis]
        rfl
      refine ⟨e1, ?_, ?_⟩
      · rw [e1]
        exact List.filter_sublist _
      · rw [e1]
        exact (List.filter_sublist _).map _
  · intro he
    rcases hloop with ⟨hv, hadd, hc, hi, hpk, hds⟩ | ⟨hne, _, _, _⟩
    · have hst : st' = st1 := by
        obtain ⟨ds1', added', st1', hp', _, hcase⟩ :=
          DataSource.PruneColumns_ok E ds demand st plan st' h
        rw [hp] at hp'
        simp only [Except.ok.injEq, Prod.mk.injEq] at hp'
        obtain ⟨rfl, rfl, rfl⟩ := hp'
        rcases hcase with ⟨⟨hfalse, _⟩, _⟩ | ⟨_, _, h2⟩
        · rw [hadd] at hfalse
          exact absurd hfalse (by simp)
        · exact h2
      subst hst
      have halias := DataSource.pruneLoop_alias_of_emptied E ds demand he l hl
      have hall : ds.base.schema.filter (fun c => !DataSource.keepCol E ds demand c) =
          ds.base.schema := by
        rw [List.filter_eq_self]
        intro c hcm
        cases hk : DataSource.keepCol E ds demand c with
        | false => rfl
        | true =>
          have : c ∈ ds.base.schema.filter (DataSource.keepCol E ds demand) :=
            List.mem_filter.mpr ⟨hcm, hk⟩
          rw [he] at this
          cases this
      rw [halias, hpr, hall] at hpk
      obtain ⟨p1, p2⟩ := preferKeyColumnFromTable_priority E ds _ _ _ _ hc hi hpk
      have hs : ds1.base.schema = [hc] := by
        subst hds
        rw [(DataSource.resetHandleCols_base _).1]
        rfl
      have hsub : List.Sublist ds1.base.schema ds.base.schema ↔ hc ∈ ds.base.schema := by
        rw [hs]
        exact List.singleton_sublist
      have hsubid : List.Sublist (ds1.base.schema.map (fun c => c.UniqueID))
            (ds.base.schema.map (fun c => c.UniqueID)) ↔
          hc.UniqueID ∈ ds.base.schema.map (fun c => c.UniqueID) := by
        rw [hs]
        exact List.singleton_sublist
      refine ⟨hc, hi, l.columns.alias, hs, hpk, ?_, ?_, hsub, hsubid⟩
      · intro hcl hpos
        have h0 := (p1 hcl hpos).1
        have hmem : hc ∈ ds.base.schema := List.mem_iff_getElem?.mpr ⟨0, h0⟩
        exact ⟨h0, hsub.mpr hmem, hsubid.mpr (List.mem_map.mpr ⟨hc, hmem, rfl⟩)⟩
      · intro hn
        obtain ⟨q1, q2, q3⟩ := p2 hn
        exact ⟨fun hd e => (q1 hd e).1, fun e1 e2 u e3 => (q2 e1 e2 u e3).1,
          fun e1 e2 => (q3 e1 e2).1⟩
    · exact absurd (hvis ▸ he) hne

/-- When every position is retained, the deletion loop returns its state as it
was, whatever the length of `Columns`. -/
theorem DataSource.pruneLoop_all_kept (E : ExprEnv Expr Info) (uk : Bool)
    (L : List (MaskRow Expr)) :
    (∀ t ∈ L, maskKeep E uk t = true) →
    ∀ (U2 E2 : List Bool) (X : List (Column Expr)) (pr : List (Column Expr))
      (sp1 : List (Column Expr)) (cs : GoSlice Info),
      DataSource.pruneLoop E uk (L.map (·.2.1) ++ U2) (L.map (·.2.2) ++ E2) L.length
        ⟨pr, ⟨L.map (·.1) ++ X, sp1⟩, cs⟩ = .ok ⟨pr, ⟨L.map (·.1) ++ X, sp1⟩, cs⟩ := by
  induction L using List.reverseRecOn with
  | nil =>
    intro _ U2 E2 X pr sp1 cs
    simp [DataSource.pruneLoop]
  | append_singleton L t ih =>
    intro hall U2 E2 X pr sp1 cs
    obtain ⟨c, u, e⟩ := t
    have hk : maskKeep E uk (c, u, e) = true := hall _ (by simp)
    have hallL : ∀ t ∈ L, maskKeep E uk t = true := fun t ht => hall t (by simp [ht])
    have hu : (List.map (·.2.1) (L ++ [(c, u, e)]) ++ U2)[L.length]? = some u := by
      simpa using getElem?_append_cons_length (L.map (·.2.1)) U2 u L.length (by simp)
    have he : (List.map (·.2.2) (L ++ [(c, u, e)]) ++ E2)[L.length]? = some e := by
      simpa using getElem?_append_cons_length (L.map (·.2.2)) E2 e L.length (by simp)
    have hc : (List.map (·.1) (L ++ [(c, u, e)]) ++ X)[L.length]? = some c := by
      simpa using getElem?_append_cons_length (L.map (·.1)) X c L.length (by simp)
    have e1 : List.map (·.1) (L ++ [(c, u, e)]) ++ X = L.map (·.1) ++ c :: X := by simp
    have e3 : List.map (·.2.1) (L ++ [(c, u, e)]) ++ U2 = L.map (·.2.1) ++ u :: U2 := by simp
    have e4 : List.map (·.2.2) (L ++ [(c, u, e)]) ++ E2 = L.map (·.2.2) ++ e :: E2 := by simp
    simp only [List.length_append, List.length_singleton, DataSource.pruneLoop,
      DataSource.pruneStep, hu, he, hc]
    rw [e1, e3, e4]
    have hih := ih hallL (u :: U2) (e :: E2) (c :: X) pr sp1 cs
    by_cases h1 : (!u && !e) = true
    · by_cases h2 : (uk && E.GcColumnExprIsTidbShard c.VirtualExpr) = true
      · simp only [h1, h2, if_true]
        exact hih
      · exfalso
        simp only [maskKeep] at hk
        cases u <;> cases e <;> simp_all
    · simp only [h1, if_false]
      exact hih

theorem DataSource.colsRequiringFullLen_eq (E : ExprEnv Expr Info) (uk : Bool)
    (f : Column Expr → Bool) :
    ∀ S : List (Column Expr),
      DataSource.colsRequiringFullLen E uk S (S.map f) =
        S.filter (fun c => f c || (uk && E.GcColumnExprIsTidbShard c.VirtualExpr))
  | [] => by simp [DataSource.colsRequiringFullLen]
  | c :: cs => by
    have ih := DataSource.colsRequiringFullLen_eq E uk f cs
    by_cases h : (f c || (uk && E.GcColumnExprIsTidbShard c.VirtualExpr)) = true
    · simp only [List.map_cons, DataSource.colsRequiringFullLen, h, if_true, ih,
        List.filter_cons]
    · simp only [List.map_cons, DataSource.colsRequiringFullLen, h, if_false, ih,
        List.filter_cons, Bool.false_eq_true]

theorem DataSource.resetHandleCols_idem (d : DataSource Expr Info (LogicalPlan Expr Info)) :
    d.resetHandleCols.resetHandleCols = d.resetHandleCols := by
  unfold DataSource.resetHandleCols
  cases hh : d.HandleCols with
  | none => simp [hh]
  | some h =>
    by_cases hc : (h.IsInt && decide (Schema.ColumnIndex d.base.schema h.GetCol0 = -1)) = true
    · simp [hc]
    · simp [hc, hh]

theorem DataSource.resetHandleCols_frame (d : DataSource Expr Info (LogicalPlan Expr Info)) :
    d.resetHandleCols.AllConds = d.AllConds ∧
    d.resetHandleCols.ContainExprPrefixUk = d.ContainExprPrefixUk := by
  unfold DataSource.resetHandleCols
  cases d.HandleCols with
  | none => simp
  | some h =>
    by_cases hc : (h.IsInt && decide (Schema.ColumnIndex d.base.schema h.GetCol0 = -1)) = true <;>
      simp [hc]

theorem DataSource.afterLoop_self (E : ExprEnv Expr Info)
    (d : DataSource Expr Info (LogicalPlan Expr Info)) (demand : List (Column Expr))
    (hcrfl : d.ColsRequiringFullLen =
      DataSource.colsRequiringFullLen E d.ContainExprPrefixUk d.base.schema
        (GetUsedList demand d.base.schema)) :
    DataSource.afterLoop E d demand d.base.schema d.Columns = d := by
  unfold DataSource.afterLoop
  rw [← hcrfl]

/-- The receiver mutation on a DataSource all of whose columns are retained and
whose `ColsRequiringFullLen` is already that of the demand: nothing is dropped and
the node only has its handle columns reset. -/
theorem DataSource.pruneInPlace_all_kept (E : ExprEnv Expr Info)
    (d : DataSource Expr Info (LogicalPlan Expr Info)) (demand : List (Column Expr))
    (st : St Expr)
    (hall : ∀ c ∈ d.base.schema, DataSource.keepCol E d demand c = true)
    (hne : d.base.schema ≠ [])
    (hcrfl : d.ColsRequiringFullLen =
      DataSource.colsRequiringFullLen E d.ContainExprPrefixUk d.base.schema
        (GetUsedList demand d.base.schema)) :
    DataSource.pruneInPlace E d demand st =
      .ok (d.resetHandleCols, false, AppendColumnPruneTraceStep d.base.id [] st) := by
  let f : Column Expr → Bool := fun c => Schema.Contains demand c
  let g : Column Expr → Bool :=
    fun c => Schema.Contains (E.ExtractColumnsFromExpressions d.AllConds) c
  let L : List (MaskRow Expr) := d.base.schema.map (fun c => (c, f c, g c))
  have h1 : L.map (·.1) = d.base.schema := by simp [L, Function.comp_def]
  have h2 : L.map (·.2.1) = GetUsedList demand d.base.schema := by
    simp [L, GetUsedList, f, Function.comp_def]
  have h3 : L.map (·.2.2) =
      GetUsedList (E.ExtractColumnsFromExpressions d.AllConds) d.base.schema := by
    simp [L, GetUsedList, g, Function.comp_def]
  have h4 : (GetUsedList demand d.base.schema).length = L.length := by
    simp [L, GetUsedList]
  have hallL : ∀ t ∈ L, maskKeep E d.ContainExprPrefixUk t = true := by
    intro t ht
    simp only [L, List.mem_map] at ht
    obtain ⟨c, hc, rfl⟩ := ht
    have := hall c hc
    simpa [maskKeep, DataSource.keepCol, f, g] using this
  have key := DataSource.pruneLoop_all_kept E d.ContainExprPrefixUk L hallL [] [] [] [] []
    (GoSlice.ofList d.Columns)
  simp only [List.append_nil, h1, h2, h3] at key
  rw [← h4] at key
  have hne0 : ¬ d.base.schema.length = 0 := fun h0 => hne (List.length_eq_zero.mp h0)
  simp only [GoSlice.ofList] at key
  rw [DataSource.pruneInPlace_eq]
  simp only [GoSlice.ofList]
  rw [key]
  simp only [hne0, if_false]
  rw [DataSource.afterLoop_self E d demand hcrfl]

/-- C15, as stated, fails: the scan of columns 1, 2, 3 of a table without handle
columns, pruned with an empty demand, returns itself with the schema `[101]`; the
second call with the same demand drops that column and synthesises another extra
handle, so the schema becomes `[102]`. -/
theorem c15_second_call_allocates_new_handle :
    ((DataSource.PruneColumns sampleEnv (sampleScan 1 [1, 2, 3] [] false) []
        sampleSt).toOption.bind
      (fun res =>
        match res.1 with
        | LogicalPlan.DataSource ds1 =>
          (DataSource.PruneColumns sampleEnv ds1 [] res.2).toOption.map
            (fun res2 => (ds1.base.schema.map (fun c => c.UniqueID),
                          res2.1.Schema.map (fun c => c.UniqueID)))
        | _ => none)) = some ([101], [102]) := by
  decide

theorem DataSource.resetHandleCols_table (d : DataSource Expr Info (LogicalPlan Expr Info)) :
    d.resetHandleCols.table = d.table ∧
    d.resetHandleCols.UnMutableHandleCols = d.UnMutableHandleCols := by
  unfold DataSource.resetHandleCols
  cases d.HandleCols with
  | none => simp
  | some h =>
    by_cases hc : (h.IsInt && decide (Schema.ColumnIndex d.base.schema h.GetCol0 = -1)) = true <;>
      simp [hc]

/-- The receiver mutation on a DataSource whose only column is not retained and is
the handle column that `preferKeyColumnFromTable` chooses again: the column is
dropped and appended again, and the receiver is left as it was. -/
theorem DataSource.pruneInPlace_readd (E : ExprEnv Expr Info)
    (d : DataSource Expr Info (LogicalPlan Expr Info)) (demand : List (Column Expr))
    (st : St Expr) (hc : Column Expr) (hi : Info)
    (hs : d.base.schema = [hc]) (hcols : d.Columns = [hi])
    (hk : DataSource.keepCol E d demand hc = false)
    (hpk : ∀ s, preferKeyColumnFromTable E d [hc] [hi] s = .ok (hc, hi, s))
    (hreset : d.resetHandleCols = d)
    (hcr : d.ColsRequiringFullLen = []) :
    DataSource.pruneInPlace E d demand st =
      .ok (d, true, AppendColumnPruneTraceStep d.base.id [hc] st) := by
  have hlen : d.base.schema.length = d.Columns.length := by rw [hs, hcols]; rfl
  have hempty : d.base.schema.filter (DataSource.keepCol E d demand) = [] := by
    rw [hs]
    simp [hk]
  obtain ⟨l, hl, hv1, hv2, ha1, ha2, hpr⟩ := DataSource.pruneLoop_of_emptied E d demand hlen hempty
  have hcrfl : d.ColsRequiringFullLen =
      DataSource.colsRequiringFullLen E d.ContainExprPrefixUk d.base.schema
        (GetUsedList demand d.base.schema) := by
    rw [hcr, hs]
    simp only [DataSource.keepCol, Bool.or_eq_false_iff] at hk
    simp [GetUsedList, DataSource.colsRequiringFullLen, hk.1.1, hk.2]
  have hself := DataSource.afterLoop_self E d demand hcrfl
  rw [hs, hcols] at hself
  rw [DataSource.pruneInPlace_eq, hl]
  simp only [hv1, hv2, ha1, ha2, hpr, List.length_nil, if_true, List.nil_append]
  rw [hs, hcols, hpk]
  simp only [hself, hreset, List.reverse_singleton]

/-- The second call of `DataSource.PruneColumns` on a DataSource whose schema is
the one handle column appended by the first call, when that column is neither
demanded nor a protected shard column and is chosen again without allocation. -/
theorem DataSource.PruneColumns_handle_again (E : ExprEnv Expr Info)
    (d : DataSource Expr Info (LogicalPlan Expr Info)) (demand : List (Column Expr))
    (st : St Expr) (hc : Column Expr) (hi : Info)
    (hs : d.base.schema = [hc]) (hcols : d.Columns = [hi])
    (hu : Schema.Contains demand hc = false)
    (hsh : (d.ContainExprPrefixUk && E.GcColumnExprIsTidbShard hc.VirtualExpr) = false)
    (hpk : ∀ s, preferKeyColumnFromTable E d [hc] [hi] s = .ok (hc, hi, s))
    (hreset : d.resetHandleCols = d)
    (hcr : d.ColsRequiringFullLen = []) :
    ∃ plan2 st2, DataSource.PruneColumns E d demand st = .ok (plan2, st2) ∧
      DataSource.ReturnedIn d plan2 ∧
      st2.vars.PlanColumnID = st.vars.PlanColumnID ∧
      (Schema.Contains (E.ExtractColumnsFromExpressions d.AllConds) hc = false →
        plan2 = LogicalPlan.DataSource d ∧ st2.vars = st.vars) := by
  cases he : Schema.Contains (E.ExtractColumnsFromExpressions d.AllConds) hc with
  | false =>
    have hk : DataSource.keepCol E d demand hc = false := by
      simp [DataSource.keepCol, hu, he, hsh]
    have hp := DataSource.pruneInPlace_readd E d demand st hc hi hs hcols hk hpk hreset hcr
    refine ⟨LogicalPlan.DataSource d, AppendColumnPruneTraceStep d.base.id [hc] st, ?_,
      Or.inl rfl, rfl, fun _ => ⟨rfl, rfl⟩⟩
    unfold DataSource.PruneColumns
    simp only [hp, Bool.not_true, Bool.false_and, Bool.false_eq_true, if_false]
  | true =>
    have hk : DataSource.keepCol E d demand hc = true := by
      simp [DataSource.keepCol, he]
    have hall : ∀ c ∈ d.base.schema, DataSource.keepCol E d demand c = true := by
      intro c hcm
      rw [hs] at hcm
      simp only [List.mem_singleton] at hcm
      rw [hcm]
      exact hk
    have hne : d.base.schema ≠ [] := by rw [hs]; simp
    have hcrfl : d.ColsRequiringFullLen =
        DataSource.colsRequiringFullLen E d.ContainExprPrefixUk d.base.schema
          (GetUsedList demand d.base.schema) := by
      rw [hcr, hs]
      simp [GetUsedList, DataSource.colsRequiringFullLen, hu, hsh]
    have hp := DataSource.pruneInPlace_all_kept E d demand st hall hne hcrfl
    rw [hreset] at hp
    unfold DataSource.PruneColumns
    simp only [hp]
    split
    · exact ⟨_, _, rfl, Or.inr ⟨_, rfl, rfl⟩, rfl, fun h => by cases h⟩
    · exact ⟨_, _, rfl, Or.inl rfl, rfl, fun h => by cases h⟩

/-- C15 (idempotence on DataSource, amended). Let `DataSource.PruneColumns` return
the DataSource itself. If at least one column of the pre-prune schema is retained,
calling it again on the returned DataSource with the same demand, in the state
left by the first call, returns that same DataSource with the same node state
(schema, columns, handle columns and `ColsRequiringFullLen` among it) and
allocates nothing. If none is retained, so that a handle column was appended,
and `|schema| = |columns|` held before the first call, the table is a cluster
table or `HandleCols` is non-null or the table has `PKIsHandle`, and the appended
column is neither demanded nor a protected shard column (which follows when it is
pre-prune column 0 of a cluster table), then the second call hands back the
DataSource with the same node state, itself or under the MPP projection, and
allocates no column id; when the appended column is not used by a filter either,
it returns the DataSource itself and allocates nothing. -/
theorem c15_idempotence (E : ExprEnv Expr Info)
    (ds : DataSource Expr Info (LogicalPlan Expr Info)) (demand : List (Column Expr))
    (st : St Expr) (ds1 : DataSource Expr Info (LogicalPlan Expr Info)) (st1 : St Expr)
    (h : DataSource.PruneColumns E ds demand st = .ok (LogicalPlan.DataSource ds1, st1)) :
    (ds.base.schema.filter (DataSource.keepCol E ds demand) ≠ [] →
      ∃ st2, DataSource.PruneColumns E ds1 demand st1 = .ok (LogicalPlan.DataSource ds1, st2) ∧
        st2.vars = st1.vars) ∧
    (ds.base.schema.filter (DataSource.keepCol E ds demand) = [] →
      ds.base.schema.length = ds.Columns.length →
      (ds.table.tp.IsClusterTable = true ∨ ds.HandleCols ≠ none ∨
        ds.table.Meta.PKIsHandle = true) →
      (¬ (ds.table.tp.IsClusterTable = true ∧ 0 < ds.base.schema.length) →
        ∀ c ∈ ds1.base.schema, Schema.Contains demand c = false ∧
          (ds.ContainExprPrefixUk && E.GcColumnExprIsTidbShard c.VirtualExpr) = false) →
      ∃ plan2 st2, DataSource.PruneColumns E ds1 demand st1 = .ok (plan2, st2) ∧
        DataSource.ReturnedIn ds1 plan2 ∧
        st2.vars.PlanColumnID = st1.vars.PlanColumnID ∧
        ((∀ c ∈ ds1.base.schema,
            Schema.Contains (E.ExtractColumnsFromExpressions ds.AllConds) c = false) →
          plan2 = LogicalPlan.DataSource ds1 ∧ st2.vars = st1.vars)) := by
  obtain ⟨ds1', added, st1', hp, _, hcase⟩ :=
    DataSource.PruneColumns_ok E ds demand st _ _ h
  obtain ⟨hT, _, hM, _⟩ := DataSource.pruneInPlace_frame E ds demand st ds1' added st1' hp
  have hres : ¬ (added = false ∧ demand.length < ds1'.base.schema.length ∧
      st.vars.IsMPPEnforced = true ∧ ds.TableInfo.TiFlashReplica ≠ none) ∧
      ds1 = ds1' ∧ st1 = st1' := by
    rcases hcase with ⟨_, proj, hproj, _⟩ | ⟨hn, hplan, hst⟩
    · cases hproj
    · cases hplan
      exact ⟨hn, rfl, hst⟩
  obtain ⟨hncond, rfl, rfl⟩ := hres
  obtain ⟨l, hl, hloop⟩ := DataSource.pruneInPlace_ok E ds demand st ds1 added st1 hp
  obtain ⟨_, hvis, _⟩ := DataSource.pruneLoop_of_schema E ds demand l hl
  refine ⟨?_, ?_⟩
  · intro hkeep
    rcases hloop with ⟨he, _, _, _, _, _⟩ | ⟨hne, hadd, _, hds⟩
    · exact absurd (hvis ▸ he) hkeep
    · have hb := (DataSource.resetHandleCols_base
        (DataSource.afterLoop E ds demand l.schema.vis l.columns.vis))
      have hf := (DataSource.resetHandleCols_frame
        (DataSource.afterLoop E ds demand l.schema.vis l.columns.vis))
      rw [← hds] at hb hf
      have hschema : ds1.base.schema = ds.base.schema.filter (DataSource.keepCol E ds demand) := by
        rw [hb.1, ← hvis]
        rfl
      have hconds : ds1.AllConds = ds.AllConds := hf.1
      have huk : ds1.ContainExprPrefixUk = ds.ContainExprPrefixUk := hf.2
      have hkc : ∀ c, DataSource.keepCol E ds1 demand c = DataSource.keepCol E ds demand c := by
        intro c
        simp only [DataSource.keepCol, hconds, huk]
      have hall : ∀ c ∈ ds1.base.schema, DataSource.keepCol E ds1 demand c = true := by
        intro c hc
        rw [hschema] at hc
        rw [hkc]
        exact (List.mem_filter.mp hc).2
      have hne1 : ds1.base.schema ≠ [] := by
        rw [hschema]
        exact hkeep
      have hcrfl : ds1.ColsRequiringFullLen =
          DataSource.colsRequiringFullLen E ds1.ContainExprPrefixUk ds1.base.schema
            (GetUsedList demand ds1.base.schema) := by
        rw [hb.2.2.2, huk, hschema]
        simp only [DataSource.afterLoop, GetUsedList, DataSource.colsRequiringFullLen_eq,
          List.filter_filter]
        apply List.filter_congr
        intro c _
        simp only [DataSource.keepCol]
        cases Schema.Contains demand c <;>
          cases (ds.ContainExprPrefixUk && E.GcColumnExprIsTidbShard c.VirtualExpr) <;> simp
      have hreset : ds1.resetHandleCols = ds1 := by
        rw [hds]
        exact DataSource.resetHandleCols_idem _
      have hp2 := DataSource.pruneInPlace_all_kept E ds1 demand st1 hall hne1 hcrfl
      rw [hreset] at hp2
      refine ⟨AppendColumnPruneTraceStep ds1.base.id [] st1, ?_, rfl⟩
      unfold DataSource.PruneColumns
      simp only [hp2]
      have hc2 : (!false && decide (ds1.base.schema.length > demand.length) &&
          (AppendColumnPruneTraceStep ds1.base.id ([] : List (Column Expr)) st1).vars.IsMPPEnforced &&
          ds1.TableInfo.TiFlashReplica.isSome) = false := by
        cases hx : (!false && decide (ds1.base.schema.length > demand.length) &&
          (AppendColumnPruneTraceStep ds1.base.id ([] : List (Column Expr)) st1).vars.IsMPPEnforced &&
          ds1.TableInfo.TiFlashReplica.isSome) with
        | false => rfl
        | true =>
          exfalso
          apply hncond
          simp only [Bool.and_eq_true, Bool.not_false, true_and, decide_eq_true_eq,
            AppendColumnPruneTraceStep, SessionVars.IsMPPEnforced, Option.isSome_iff_ne_none,
            hT, hM] at hx
          exact ⟨hadd, hx.1.1, by simpa [SessionVars.IsMPPEnforced] using hx.1.2, hx.2⟩
      simp only [hc2, Bool.false_eq_true, if_false]
  · intro hempty hlen hnofresh hnd
    obtain ⟨l', hl', hv1, hv2, ha1, ha2, hpr⟩ :=
      DataSource.pruneLoop_of_emptied E ds demand hlen hempty
    rw [hl] at hl'
    cases hl'
    rcases hloop with ⟨_, _, hc, hi, hpk, hds⟩ | ⟨hne, _, _, _⟩
    swap
    · exact absurd hv1 hne
    rw [ha1, ha2] at hpk
    rw [hv2] at hds
    simp only [List.nil_append] at hds
    obtain ⟨p1, p2⟩ := preferKeyColumnFromTable_priority E ds _ _ _ _ hc hi hpk
    have hb := DataSource.resetHandleCols_base (DataSource.afterLoop E ds demand [hc] [hi])
    have hf := DataSource.resetHandleCols_frame (DataSource.afterLoop E ds demand [hc] [hi])
    have ht := DataSource.resetHandleCols_table (DataSource.afterLoop E ds demand [hc] [hi])
    rw [← hds] at hb hf ht
    have hs : ds1.base.schema = [hc] := by rw [hb.1]; rfl
    have hcols : ds1.Columns = [hi] := by rw [hb.2.1]; rfl
    have hconds : ds1.AllConds = ds.AllConds := hf.1
    have huk : ds1.ContainExprPrefixUk = ds.ContainExprPrefixUk := hf.2
    have htab : ds1.table = ds.table := ht.1
    have hum : ds1.UnMutableHandleCols = ds.UnMutableHandleCols := ht.2
    have hdrop : ∀ c ∈ ds.base.schema, DataSource.keepCol E ds demand c = false := by
      intro c hcm
      cases hk : DataSource.keepCol E ds demand c with
      | false => rfl
      | true =>
        have : c ∈ ds.base.schema.filter (DataSource.keepCol E ds demand) :=
          List.mem_filter.mpr ⟨hcm, hk⟩
        rw [hempty] at this
        cases this
    have hcr : ds1.ColsRequiringFullLen = [] := by
      rw [hb.2.2.2]
      simp only [DataSource.afterLoop, GetUsedList, DataSource.colsRequiringFullLen_eq]
      rw [List.filter_eq_nil_iff]
      intro c hcm
      have := hdrop c hcm
      simp only [DataSource.keepCol, Bool.or_eq_false_iff] at this
      simp [this.1.1, this.2]
    have hreset : ds1.resetHandleCols = ds1 := by
      rw [hds]
      exact DataSource.resetHandleCols_idem _
    have hund : Schema.Contains demand hc = false ∧
        (ds.ContainExprPrefixUk && E.GcColumnExprIsTidbShard hc.VirtualExpr) = false := by
      by_cases hcl : ds.table.tp.IsClusterTable = true ∧ 0 < ds.base.schema.length
      · have h0 := (p1 hcl.1 hcl.2).1
        have hmem : hc ∈ ds.base.schema := List.mem_iff_getElem?.mpr ⟨0, h0⟩
        have := hdrop hc hmem
        simp only [DataSource.keepCol, Bool.or_eq_false_iff] at this
        exact ⟨this.1.1, this.2⟩
      · exact hnd hcl hc (by rw [hs]; simp)
    have hpk2 : ∀ s, preferKeyColumnFromTable E ds1 [hc] [hi] s = .ok (hc, hi, s) := by
      intro s
      by_cases hcl : ds.table.tp.IsClusterTable = true
      · unfold preferKeyColumnFromTable
        simp [htab, hcl]
      · have hn : ¬ (ds.table.tp.IsClusterTable = true ∧ 0 < ds.base.schema.length) :=
          fun hx => hcl hx.1
        obtain ⟨q1, q2, _⟩ := p2 hn
        cases hh : ds.HandleCols with
        | some hd =>
          obtain ⟨e1, e2, _⟩ := q1 hd hh
          have hh1 : ds1.HandleCols = some hd := by
            rw [hds]
            have := (DataSource.resetHandleCols_handle
              (DataSource.afterLoop E ds demand [hc] [hi])).2
            rw [this]
            · exact hh
            · intro h' eh'
              have eh : h' = hd := by
                have : (DataSource.afterLoop E ds demand [hc] [hi]).HandleCols = ds.HandleCols :=
                  rfl
                rw [this, hh] at eh'
                exact (Option.some.inj eh').symm
              subst eh
              intro hx
              have hidx := hx.2
              rw [← e1] at hidx
              simp [DataSource.afterLoop, Schema.ColumnIndex] at hidx
          unfold preferKeyColumnFromTable
          simp [htab, hcl, hh1, e1, e2]
        | none =>
          have hpkh : ds.table.Meta.PKIsHandle = true := by
            rcases hnofresh with hx | hx | hx
            · exact absurd hx hcl
            · exact absurd hh hx
            · exact hx
          have hh1 : ds1.HandleCols = none := by
            rw [hds]
            have := (DataSource.resetHandleCols_handle
              (DataSource.afterLoop E ds demand [hc] [hi])).2
            rw [this]
            · exact hh
            · intro h' eh'
              have : (DataSource.afterLoop E ds demand [hc] [hi]).HandleCols = ds.HandleCols :=
                rfl
              rw [this, hh] at eh'
              cases eh'
          cases hu0 : ds.UnMutableHandleCols with
          | none =>
            exfalso
            unfold preferKeyColumnFromTable at hpk
            simp [hcl, hh, hpkh, hu0] at hpk
          | some u =>
            obtain ⟨e1, e2, _⟩ := q2 hh hpkh u hu0
            unfold preferKeyColumnFromTable
            simp [htab, hcl, hh1, hpkh, hum, hu0, e1, e2]
    have hsh1 : (ds1.ContainExprPrefixUk && E.GcColumnExprIsTidbShard hc.VirtualExpr) = false := by
      rw [huk]
      exact hund.2
    obtain ⟨plan2, st2, h2, hret, hid, hrest⟩ :=
      DataSource.PruneColumns_handle_again E ds1 demand st1 hc hi hs hcols hund.1 hsh1 hpk2
        hreset hcr
    refine ⟨plan2, st2, h2, hret, hid, ?_⟩
    intro hnc
    apply hrest
    rw [hconds]
    exact hnc hc (by rw [hs]; simp)

theorem set_length_append_singleton {α : Type} (init : List α) (a b : α) :
    (init ++ [a]).set ((init ++ [a]).length - 1) b = init ++ [b] := by
  induction init with
  | nil => simp
  | cons x xs ih =>
    have e : (x :: xs ++ [a]).length - 1 = ((xs ++ [a]).length - 1) + 1 := by
      simp
    rw [e]
    show x :: (xs ++ [a]).set ((xs ++ [a]).length - 1) b = x :: xs ++ [b]
    rw [ih]
    rfl

/-- C17 (sequence frame). For a `LogicalSequence` with at least one child,
`LogicalSequence.PruneColumns` prunes the last child with exactly the demand,
hands back its error unmodified (with no plan), and otherwise returns the Sequence
itself with only the last child replaced by the pruned one: the earlier children
and the Sequence's own fields are unchanged. -/
theorem c17_sequence_frame (prune : PruneFn Expr Info)
    (p : LogicalSequence Expr (LogicalPlan Expr Info)) (demand : List (Column Expr))
    (st : St Expr) (init : List (LogicalPlan Expr Info)) (last : LogicalPlan Expr Info)
    (hch : p.base.children = init ++ [last]) :
    LogicalSequence.PruneColumns prune p demand st =
      match prune last demand st with
      | .error f => .error f
      | .ok (last1, st1) =>
        .ok (LogicalPlan.Sequence
              { p with base := { p.base with children := init ++ [last1] } }, st1) := by
  unfold LogicalSequence.PruneColumns
  have hl : p.base.children.getLast? = some last := by
    rw [hch]
    simp
  simp only [hl]
  cases prune last demand st with
  | error f => rfl
  | ok res =>
    obtain ⟨last1, st1⟩ := res
    simp only [hch, set_length_append_singleton]

theorem retainedBy_sublist (drop : List (ByItems Expr) → ByItems Expr → Bool)
    (old : List (ByItems Expr)) :
    ∀ earlier, List.Sublist (retainedBy drop earlier old) old := by
  induction old with
  | nil => intro earlier; simp [retainedBy]
  | cons item rest ih =>
    intro earlier
    by_cases hd : drop earlier item = true
    · simp only [retainedBy, hd, if_true]
      exact (ih _).cons _
    · simp only [retainedBy, hd, if_false, Bool.false_eq_true]
      exact (ih _).cons₂ _

/-- The items `pruneByItems` retains: their hashes are fresh with respect to the
earlier items and pairwise distinct, and none is a column-free runtime constant or
a NULL-typed expression with columns. -/
theorem retainedBy_facts (E : ExprEnv Expr Info) (old : List (ByItems Expr)) :
    ∀ earlier,
      (∀ it ∈ retainedBy (byItemDropped E) earlier old,
        E.HashCode it.Expr ∉ earlier.map (fun x => E.HashCode x.Expr) ∧
        byItemDropped E [] it = false) ∧
      ((retainedBy (byItemDropped E) earlier old).map (fun x => E.HashCode x.Expr)).Nodup := by
  induction old with
  | nil => intro earlier; simp [retainedBy]
  | cons item rest ih =>
    intro earlier
    obtain ⟨ih1, ih2⟩ := ih (earlier ++ [item])
    by_cases hd : byItemDropped E earlier item = true
    · simp only [retainedBy, hd, if_true]
      refine ⟨?_, ih2⟩
      intro it hit
      obtain ⟨h1, h2⟩ := ih1 it hit
      refine ⟨?_, h2⟩
      intro hmem
      apply h1
      simp only [List.map_append, List.mem_append]
      exact Or.inl hmem
    · have hd' : byItemDropped E earlier item = false := by simpa using hd
      simp only [retainedBy, hd', Bool.false_eq_true, if_false]
      have hparts := hd'
      simp only [byItemDropped, Bool.or_eq_false_iff, decide_eq_false_iff_not] at hparts
      constructor
      · intro it hit
        simp only [List.mem_cons] at hit
        rcases hit with rfl | hit
        · refine ⟨hparts.1.1, ?_⟩
          simp only [byItemDropped, List.map_nil, List.not_mem_nil, decide_False,
            Bool.false_or, hparts.1.2, hparts.2]
        · obtain ⟨h1, h2⟩ := ih1 it hit
          refine ⟨?_, h2⟩
          intro hmem
          apply h1
          simp only [List.map_append, List.mem_append]
          exact Or.inl hmem
      · simp only [List.map_cons, List.nodup_cons]
        refine ⟨?_, ih2⟩
        intro hmem
        simp only [List.mem_map] at hmem
        obtain ⟨it, hit, heq⟩ := hmem
        apply (ih1 it hit).1
        simp only [List.map_append, List.mem_append, List.map_cons, List.map_nil,
          List.mem_singleton]
        exact Or.inr heq

/-- Running the drop test again over items with fresh, pairwise distinct hashes
that pass the tests on their own retains all of them. -/
theorem retainedBy_fixed (E : ExprEnv Expr Info) (R : List (ByItems Expr)) :
    ∀ earlier,
      (∀ it ∈ R, E.HashCode it.Expr ∉ earlier.map (fun x => E.HashCode x.Expr) ∧
        byItemDropped E [] it = false) →
      (R.map (fun x => E.HashCode x.Expr)).Nodup →
      retainedBy (byItemDropped E) earlier R = R ∧
      droppedBy (byItemDropped E) earlier R = [] := by
  induction R with
  | nil => intro earlier _ _; simp [retainedBy, droppedBy]
  | cons item rest ih =>
    intro earlier hall hnd
    simp only [List.map_cons, List.nodup_cons] at hnd
    obtain ⟨hfresh, hown⟩ := hall item (by simp)
    have hd : byItemDropped E earlier item = false := by
      simp only [byItemDropped, List.map_nil, List.not_mem_nil, decide_False, Bool.false_or,
        Bool.or_eq_false_iff] at hown
      simp only [byItemDropped, Bool.or_eq_false_iff, decide_eq_false_iff_not]
      exact ⟨⟨hfresh, hown.1⟩, hown.2⟩
    have hrest := ih (earlier ++ [item])
      (by
        intro it hit
        refine ⟨?_, (hall it (by simp [hit])).2⟩
        intro hmem
        simp only [List.map_append, List.mem_append, List.map_cons, List.map_nil,
          List.mem_singleton] at hmem
        rcases hmem with hmem | hmem
        · exact (hall it (by simp [hit])).1 hmem
        · exact hnd.1 (List.mem_map.mpr ⟨it, hit, hmem⟩))
      hnd.2
    simp only [retainedBy, droppedBy, hd, Bool.false_eq_true, if_false, hrest.1, hrest.2,
      and_self]

/-- C20 (`pruneByItems` is idempotent and its output is duplicate-free). The
retained list is an order-preserving sub-sequence of the input with pairwise
distinct expression hashes, the extra demand is the concatenation, in order, of
the extracted columns of the retained items, and `pruneByItems` run on the
retained list returns that list, the same extra demand, and reports no dropped
item. -/
theorem c20_prune_by_items_idempotent (E : ExprEnv Expr Info) (planID : Int)
    (old : List (ByItems Expr)) (st : St Expr) :
    List.Sublist (pruneByItems E planID old st).1 old ∧
    ((pruneByItems E planID old st).1.map (fun it => E.HashCode it.Expr)).Nodup ∧
    (pruneByItems E planID old st).2.1 =
      ((pruneByItems E planID old st).1.map (fun it => E.ExtractColumns it.Expr)).flatten ∧
    ∀ (planID2 : Int) (st2 : St Expr),
      (pruneByItems E planID2 (pruneByItems E planID old st).1 st2).1 =
        (pruneByItems E planID old st).1 ∧
      (pruneByItems E planID2 (pruneByItems E planID old st).1 st2).2.1 =
        (pruneByItems E planID old st).2.1 ∧
      (pruneByItems E planID2 (pruneByItems E planID old st).1 st2).2.2 =
        AppendByItemsPruneTraceStep planID2 [] st2 := by
  have h := pruneByItems_foldl E old []
    { seen := [], byItems := [], parentUsedCols := [], prunedByItems := [] } (by simp)
  simp only [List.nil_append] at h
  obtain ⟨hb, _, hc⟩ := h
  have e1 : (pruneByItems E planID old st).1 = retainedBy (byItemDropped E) [] old := hb
  have e2 : (pruneByItems E planID old st).2.1 =
      ((retainedBy (byItemDropped E) [] old).map (fun it => E.ExtractColumns it.Expr)).flatten :=
    hc
  obtain ⟨f1, f2⟩ := retainedBy_facts E old []
  obtain ⟨g1, g2⟩ := retainedBy_fixed E (retainedBy (byItemDropped E) [] old) [] f1 f2
  rw [e1, e2]
  refine ⟨retainedBy_sublist _ old [], f2, rfl, ?_⟩
  intro planID2 st2
  have h2 := pruneByItems_foldl E (retainedBy (byItemDropped E) [] old) []
    { seen := [], byItems := [], parentUsedCols := [], prunedByItems := [] } (by simp)
  simp only [List.nil_append, g1, g2] at h2
  obtain ⟨k1, k2, k3⟩ := h2
  refine ⟨k1, k3, ?_⟩
  show AppendByItemsPruneTraceStep planID2
    (pruneByItemsLoop E (retainedBy (byItemDropped E) [] old)).prunedByItems st2 = _
  unfold pruneByItemsLoop
  rw [k2]

/-- What `addConstOneForEmptyProjection` does: nothing to a plan that is not an
empty projection; to an empty projection, one column with a freshly allocated
unique id and the type of the constant, and one expression, the constant 1. -/
theorem addConstOneForEmptyProjection_spec (E : ExprEnv Expr Info)
    (p : LogicalPlan Expr Info) (st : St Expr) :
    (p.IsEmptyProjection = false → addConstOneForEmptyProjection E p st = (p, st)) ∧
    (∀ proj, p = LogicalPlan.Projection proj → proj.base.schema = [] →
      addConstOneForEmptyProjection E p st =
        (LogicalPlan.Projection
          { proj with
            base := { proj.base with
              schema := [{ UniqueID := st.vars.PlanColumnID + 1, RetType := E.NewOneType,
                           VirtualExpr := none }] },
            Exprs := proj.Exprs ++ [E.Constant 1 E.NewOneType] },
         { st with vars := { st.vars with PlanColumnID := st.vars.PlanColumnID + 1 } })) ∧
    (addConstOneForEmptyProjection E p st).1.IsEmptyProjection = false ∧
    (addConstOneForEmptyProjection E p st).2.opt = st.opt := by
  cases p with
  | Projection proj =>
    by_cases h0 : proj.base.schema.length = 0
    · have hnil : proj.base.schema = [] := List.length_eq_zero.mp h0
      refine ⟨?_, ?_, ?_, ?_⟩
      · intro hne
        simp [LogicalPlan.IsEmptyProjection, h0] at hne
      · intro proj' e _
        cases e
        simp [addConstOneForEmptyProjection, h0, hnil, SessionVars.AllocPlanColumnID]
      · simp [addConstOneForEmptyProjection, h0, LogicalPlan.IsEmptyProjection]
      · simp [addConstOneForEmptyProjection, h0]
    · refine ⟨?_, ?_, ?_, ?_⟩
      · intro _
        simp [addConstOneForEmptyProjection, h0]
      · intro proj' e hnil
        cases e
        exact absurd (by rw [hnil]; rfl) h0
      · simp [addConstOneForEmptyProjection, h0, LogicalPlan.IsEmptyProjection]
      · simp [addConstOneForEmptyProjection, h0]
  | DataSource _ => simp [addConstOneForEmptyProjection, LogicalPlan.IsEmptyProjection]
  | Join _ => simp [addConstOneForEmptyProjection, LogicalPlan.IsEmptyProjection]
  | Apply _ => simp [addConstOneForEmptyProjection, LogicalPlan.IsEmptyProjection]
  | Expand _ => simp [addConstOneForEmptyProjection, LogicalPlan.IsEmptyProjection]
  | CTE _ => simp [addConstOneForEmptyProjection, LogicalPlan.IsEmptyProjection]
  | CTETable _ => simp [addConstOneForEmptyProjection, LogicalPlan.IsEmptyProjection]
  | Sequence _ => simp [addConstOneForEmptyProjection, LogicalPlan.IsEmptyProjection]
  | Other _ _ => simp [addConstOneForEmptyProjection, LogicalPlan.IsEmptyProjection]

/-- The patch only appends to a schema: what the plan produced, it still produces. -/
theorem addConstOneForEmptyProjection_contains (E : ExprEnv Expr Info)
    (p : LogicalPlan Expr Info) (st : St Expr) (c : Column Expr)
    (h : Schema.Contains p.Schema c = true) :
    Schema.Contains (addConstOneForEmptyProjection E p st).1.Schema c = true := by
  cases hp : p.IsEmptyProjection with
  | false =>
    rw [(addConstOneForEmptyProjection_spec E p st).1 hp]
    exact h
  | true =>
    cases p with
    | Projection proj =>
      simp only [LogicalPlan.IsEmptyProjection, decide_eq_true_eq] at hp
      have hnil : proj.base.schema = [] := List.length_eq_zero.mp hp
      simp [LogicalPlan.Schema, LogicalPlan.base, hnil, Schema.Contains, Schema.ColumnIndex] at h
    | DataSource _ => simp [LogicalPlan.IsEmptyProjection] at hp
    | Join _ => simp [LogicalPlan.IsEmptyProjection] at hp
    | Apply _ => simp [LogicalPlan.IsEmptyProjection] at hp
    | Expand _ => simp [LogicalPlan.IsEmptyProjection] at hp
    | CTE _ => simp [LogicalPlan.IsEmptyProjection] at hp
    | CTETable _ => simp [LogicalPlan.IsEmptyProjection] at hp
    | Sequence _ => simp [LogicalPlan.IsEmptyProjection] at hp
    | Other _ _ => simp [LogicalPlan.IsEmptyProjection] at hp

/-- Unfolding of `LogicalJoin.PruneColumns` on a join with two children. -/
theorem LogicalJoin.PruneColumns_eq (E : ExprEnv Expr Info) (P : PlanEnv Expr Info)
    (prune : PruneFn Expr Info) (p : LogicalJoin Expr (LogicalPlan Expr Info))
    (demand : List (Column Expr)) (st : St Expr) (l r : LogicalPlan Expr Info)
    (hch : p.base.children = [l, r]) :
    LogicalJoin.PruneColumns E P prune p demand st =
      match prune l ((LogicalJoin.allColsSpec E p demand).filter
          (fun c => Schema.Contains l.Schema c)) st with
      | .error f => .error f
      | .ok (l1, st1) =>
        match prune r ((LogicalJoin.allColsSpec E p demand).filter
            (fun c => !Schema.Contains l.Schema c && Schema.Contains r.Schema c))
            (addConstOneForEmptyProjection E l1 st1).2 with
        | .error f => .error f
        | .ok (r1, st3) =>
          if p.JoinType = JoinType.LeftOuterSemiJoin ∨
              p.JoinType = JoinType.AntiLeftOuterSemiJoin then
            match (LogicalJoin.mergeSchema P
                { p with base := { p.base with
                    children := [(addConstOneForEmptyProjection E l1 st1).1,
                                 (addConstOneForEmptyProjection E r1 st3).1] } }).base.schema.getLast? with
            | none => .error .panic
            | some joinCol =>
              .ok (LogicalPlan.Join
                    (P.InlineProjection
                      (LogicalJoin.mergeSchema P
                        { p with base := { p.base with
                            children := [(addConstOneForEmptyProjection E l1 st1).1,
                                         (addConstOneForEmptyProjection E r1 st3).1] } })
                      (demand ++ [joinCol]) (addConstOneForEmptyProjection E r1 st3).2).1,
                   (P.InlineProjection
                      (LogicalJoin.mergeSchema P
                        { p with base := { p.base with
                            children := [(addConstOneForEmptyProjection E l1 st1).1,
                                         (addConstOneForEmptyProjection E r1 st3).1] } })
                      (demand ++ [joinCol]) (addConstOneForEmptyProjection E r1 st3).2).2)
          else
            .ok (LogicalPlan.Join
                  (P.InlineProjection
                    (LogicalJoin.mergeSchema P
                      { p with base := { p.base with
                          children := [(addConstOneForEmptyProjection E l1 st1).1,
                                       (addConstOneForEmptyProjection E r1 st3).1] } })
                    demand (addConstOneForEmptyProjection E r1 st3).2).1,
                 (P.InlineProjection
                    (LogicalJoin.mergeSchema P
                      { p with base := { p.base with
                          children := [(addConstOneForEmptyProjection E l1 st1).1,
                                       (addConstOneForEmptyProjection E r1 st3).1] } })
                    demand (addConstOneForEmptyProjection E r1 st3).2).2) := by
  unfold LogicalJoin.PruneColumns
  rw [LogicalJoin.extractUsedCols_eq E p demand l r [] hch]
  simp only [hch, List.getElem?_cons_zero, List.getElem?_cons_succ]
  rfl

/-- What `LogicalJoin.PruneColumns` did when it returns without error. -/
theorem LogicalJoin.joinPrune_ok (E : ExprEnv Expr Info) (P : PlanEnv Expr Info)
    (prune : PruneFn Expr Info) (p : LogicalJoin Expr (LogicalPlan Expr Info))
    (demand : List (Column Expr)) (st : St Expr) (l r : LogicalPlan Expr Info)
    (hch : p.base.children = [l, r]) (plan : LogicalPlan Expr Info) (st' : St Expr)
    (h : LogicalJoin.PruneColumns E P prune p demand st = .ok (plan, st')) :
    ∃ l1 st1 r1 st3 cols,
      prune l ((LogicalJoin.allColsSpec E p demand).filter
          (fun c => Schema.Contains l.Schema c)) st = .ok (l1, st1) ∧
      prune r ((LogicalJoin.allColsSpec E p demand).filter
          (fun c => !Schema.Contains l.Schema c && Schema.Contains r.Schema c))
          (addConstOneForEmptyProjection E l1 st1).2 = .ok (r1, st3) ∧
      plan = LogicalPlan.Join
        (P.InlineProjection
          (LogicalJoin.mergeSchema P
            { p with base := { p.base with
                children := [(addConstOneForEmptyProjection E l1 st1).1,
                             (addConstOneForEmptyProjection E r1 st3).1] } })
          cols (addConstOneForEmptyProjection E r1 st3).2).1 ∧
      st' = (P.InlineProjection
          (LogicalJoin.mergeSchema P
            { p with base := { p.base with
                children := [(addConstOneForEmptyProjection E l1 st1).1,
                             (addConstOneForEmptyProjection E r1 st3).1] } })
          cols (addConstOneForEmptyProjection E r1 st3).2).2 := by
  rw [LogicalJoin.PruneColumns_eq E P prune p demand st l r hch] at h
  cases hl : prune l ((LogicalJoin.allColsSpec E p demand).filter
      (fun c => Schema.Contains l.Schema c)) st with
  | error f => simp [hl] at h
  | ok resl =>
    obtain ⟨l1, st1⟩ := resl
    simp only [hl] at h
    cases hr : prune r ((LogicalJoin.allColsSpec E p demand).filter
        (fun c => !Schema.Contains l.Schema c && Schema.Contains r.Schema c))
        (addConstOneForEmptyProjection E l1 st1).2 with
    | error f => simp [hr] at h
    | ok resr =>
      obtain ⟨r1, st3⟩ := resr
      simp only [hr] at h
      split at h
      · split at h
        · simp at h
        · rename_i joinCol _
          simp only [Except.ok.injEq, Prod.mk.injEq] at h
          exact ⟨l1, st1, r1, st3, demand ++ [joinCol], rfl, hr, h.1.symm, h.2.symm⟩
      · simp only [Except.ok.injEq, Prod.mk.injEq] at h
        exact ⟨l1, st1, r1, st3, demand, rfl, hr, h.1.symm, h.2.symm⟩

/-- What `LogicalApply.PruneColumns` did when it keeps the apply and returns
without error. -/
theorem LogicalApply.eliminates_false_of_not (E : ExprEnv Expr Info)
    (la : LogicalApply Expr (LogicalPlan Expr Info)) (demand : List (Column Expr))
    (st : St Expr) (l r : LogicalPlan Expr Info)
    (hn : ¬ LogicalApply.EliminateCond E la demand st l r) :
    LogicalApply.eliminates E la demand st l r = false := by
  cases he : LogicalApply.eliminates E la demand st l r with
  | false => rfl
  | true => exact absurd ((LogicalApply.eliminates_iff E la demand st l r).mp he) hn

/-- C13 (empty-projection patch on join children). Provided inline projection
leaves the children of the join alone: a child that came back from its own pruning
as a projection with an empty schema gets exactly one column (freshly allocated
unique id, type of the constant) and exactly one expression, the integer constant
1; any other child is left exactly as its pruning returned it; and after
`LogicalJoin.PruneColumns`, or `LogicalApply.PruneColumns` on the path that keeps
the apply, returns without error, the two children of the node are the patched
results of their prunings, neither of them a projection with an empty schema. -/
theorem c13_empty_projection_patch (E : ExprEnv Expr Info) (P : PlanEnv Expr Info)
    (prune : PruneFn Expr Info) (hinline : InlineKeepsChildren P) :
    (∀ (p : LogicalPlan Expr Info) (st : St Expr),
      (p.IsEmptyProjection = false → addConstOneForEmptyProjection E p st = (p, st)) ∧
      (∀ proj, p = LogicalPlan.Projection proj → proj.base.schema = [] →
        addConstOneForEmptyProjection E p st =
          (LogicalPlan.Projection
            { proj with
              base := { proj.base with
                schema := [{ UniqueID := st.vars.PlanColumnID + 1, RetType := E.NewOneType,
                             VirtualExpr := none }] },
              Exprs := proj.Exprs ++ [E.Constant 1 E.NewOneType] },
           { st with vars := { st.vars with PlanColumnID := st.vars.PlanColumnID + 1 } }))) ∧
    (∀ (p : LogicalJoin Expr (LogicalPlan Expr Info)) demand st l r plan st',
      p.base.children = [l, r] →
      LogicalJoin.PruneColumns E P prune p demand st = .ok (plan, st') →
      ∃ l1 st1 r1 st3 p1,
        prune l ((LogicalJoin.allColsSpec E p demand).filter
            (fun c => Schema.Contains l.Schema c)) st = .ok (l1, st1) ∧
        prune r ((LogicalJoin.allColsSpec E p demand).filter
            (fun c => !Schema.Contains l.Schema c && Schema.Contains r.Schema c))
            (addConstOneForEmptyProjection E l1 st1).2 = .ok (r1, st3) ∧
        plan = LogicalPlan.Join p1 ∧
        p1.base.children = [(addConstOneForEmptyProjection E l1 st1).1,
                            (addConstOneForEmptyProjection E r1 st3).1] ∧
        ∀ c ∈ p1.base.children, c.IsEmptyProjection = false) ∧
    (∀ (la : LogicalApply Expr (LogicalPlan Expr Info)) demand st l r plan st',
      la.join.base.children = [l, r] →
      ¬ LogicalApply.EliminateCond E la demand st l r →
      LogicalApply.PruneColumns E P prune la demand st = .ok (plan, st') →
      ∃ r1 st1 l1 st3 la1,
        prune r ((LogicalJoin.allColsSpec E la.join demand).filter
            (fun c => !Schema.Contains l.Schema c && Schema.Contains r.Schema c)) st =
          .ok (r1, st1) ∧
        prune l
            ((LogicalJoin.allColsSpec E la.join demand).filter
                (fun c => Schema.Contains l.Schema c) ++
              (P.ExtractCorColumnsBySchema4LogicalPlan
                (addConstOneForEmptyProjection E r1 st1).1 l.Schema).map (fun col => col.Column))
            (addConstOneForEmptyProjection E r1 st1).2 = .ok (l1, st3) ∧
        plan = LogicalPlan.Apply la1 ∧
        la1.join.base.children = [(addConstOneForEmptyProjection E l1 st3).1,
                                  (addConstOneForEmptyProjection E r1 st1).1] ∧
        ∀ c ∈ la1.join.base.children, c.IsEmptyProjection = false) := by
  refine ⟨?_, ?_, ?_⟩
  · intro p st
    exact ⟨(addConstOneForEmptyProjection_spec E p st).1,
      (addConstOneForEmptyProjection_spec E p st).2.1⟩
  · intro p demand st l r plan st' hch h
    obtain ⟨l1, st1, r1, st3, cols, hl, hr, hplan, _⟩ :=
      LogicalJoin.joinPrune_ok E P prune p demand st l r hch plan st' h
    have hc : (P.InlineProjection
          (LogicalJoin.mergeSchema P
            { p with base := { p.base with
                children := [(addConstOneForEmptyProjection E l1 st1).1,
                             (addConstOneForEmptyProjection E r1 st3).1] } })
          cols (addConstOneForEmptyProjection E r1 st3).2).1.base.children =
        [(addConstOneForEmptyProjection E l1 st1).1,
         (addConstOneForEmptyProjection E r1 st3).1] := by
      rw [hinline]
      rfl
    refine ⟨l1, st1, r1, st3, _, hl, hr, hplan, hc, ?_⟩
    intro c hcm
    rw [hc] at hcm
    simp only [List.mem_cons, List.mem_singleton, List.not_mem_nil, or_false] at hcm
    rcases hcm with rfl | rfl
    · exact (addConstOneForEmptyProjection_spec E l1 st1).2.2.1
    · exact (addConstOneForEmptyProjection_spec E r1 st3).2.2.1
  · intro la demand st l r plan st' hch hn h
    obtain ⟨r1, st1, l1, st3, hr, hl, hplan, _⟩ :=
      LogicalApply.PruneColumns_keep_ok E P prune la demand st l r hch
        (LogicalApply.eliminates_false_of_not E la demand st l r hn) plan st' h
    refine ⟨r1, st1, l1, st3, _, hr, hl, hplan, rfl, ?_⟩
    intro c hcm
    simp only [LogicalJoin.mergeSchema, List.mem_cons, List.mem_singleton, List.not_mem_nil,
      or_false] at hcm
    rcases hcm with rfl | rfl
    · exact (addConstOneForEmptyProjection_spec E l1 st3).2.2.1
    · exact (addConstOneForEmptyProjection_spec E r1 st1).2.2.1

/-- C18 (correlated columns stay demanded). When `LogicalApply.PruneColumns` keeps
an apply with two children and returns without error, the right child was pruned
first, `CorCols` is recomputed from the pruned (and patched) right child against
the left child's pre-prune schema, and the left child is pruned with the left part
of the partition followed by the column of every entry of `CorCols`. Hence every
correlated column is in the demand passed to the left child, and if the left
child's pruning covers its demand, every correlated column of the left child's
pre-prune schema is in its post-prune schema. -/
theorem c18_correlated_columns_demanded (E : ExprEnv Expr Info) (P : PlanEnv Expr Info)
    (prune : PruneFn Expr Info) (la : LogicalApply Expr (LogicalPlan Expr Info))
    (demand : List (Column Expr)) (st : St Expr) (l r : LogicalPlan Expr Info)
    (hch : la.join.base.children = [l, r])
    (hkeep : ¬ LogicalApply.EliminateCond E la demand st l r)
    (plan : LogicalPlan Expr Info) (st' : St Expr)
    (h : LogicalApply.PruneColumns E P prune la demand st = .ok (plan, st')) :
    ∃ r1 st1 l1 st3 la1 leftDemand,
      prune r ((LogicalJoin.allColsSpec E la.join demand).filter
          (fun c => !Schema.Contains l.Schema c && Schema.Contains r.Schema c)) st =
        .ok (r1, st1) ∧
      la1.CorCols = P.ExtractCorColumnsBySchema4LogicalPlan
        (addConstOneForEmptyProjection E r1 st1).1 l.Schema ∧
      leftDemand = (LogicalJoin.allColsSpec E la.join demand).filter
          (fun c => Schema.Contains l.Schema c) ++ la1.CorCols.map (fun col => col.Column) ∧
      prune l leftDemand (addConstOneForEmptyProjection E r1 st1).2 = .ok (l1, st3) ∧
      plan = LogicalPlan.Apply la1 ∧
      la1.join.base.children = [(addConstOneForEmptyProjection E l1 st3).1,
                                (addConstOneForEmptyProjection E r1 st1).1] ∧
      (∀ cc ∈ la1.CorCols, cc.Column ∈ leftDemand) ∧
      ((∀ c ∈ leftDemand, Schema.Contains l.Schema c = true →
          Schema.Contains l1.Schema c = true) →
        ∀ cc ∈ la1.CorCols, Schema.Contains l.Schema cc.Column = true →
          Schema.Contains (addConstOneForEmptyProjection E l1 st3).1.Schema cc.Column = true) := by
  obtain ⟨r1, st1, l1, st3, hr, hl, hplan, _⟩ :=
    LogicalApply.PruneColumns_keep_ok E P prune la demand st l r hch
      (LogicalApply.eliminates_false_of_not E la demand st l r hkeep) plan st' h
  have hmem : ∀ cc ∈ P.ExtractCorColumnsBySchema4LogicalPlan
        (addConstOneForEmptyProjection E r1 st1).1 l.Schema,
      cc.Column ∈ (LogicalJoin.allColsSpec E la.join demand).filter
          (fun c => Schema.Contains l.Schema c) ++
        (P.ExtractCorColumnsBySchema4LogicalPlan
          (addConstOneForEmptyProjection E r1 st1).1 l.Schema).map (fun col => col.Column) := by
    intro cc hcc
    exact List.mem_append_right _ (List.mem_map.mpr ⟨cc, hcc, rfl⟩)
  refine ⟨r1, st1, l1, st3, _, _, hr, rfl, rfl, hl, hplan, rfl, hmem, ?_⟩
  intro hcov cc hcc hin
  exact addConstOneForEmptyProjection_contains E l1 st3 cc.Column
    (hcov cc.Column (hmem cc hcc) hin)

/-- C19, as stated, fails for `LogicalApply.PruneColumns`: pruning the inner apply
over the scans with plan ids 1 (left, child 0) and 2 (right, child 1) emits the
column-prune step of the right scan before that of the left scan, while the join
over the same children emits the left step first. -/
theorem c19_apply_prunes_right_child_first :
    ((LogicalPlan.PruneColumns sampleEnv samplePlanEnv sampleOthers 2
        (LogicalPlan.Apply (sampleApply JoinType.InnerJoin
          (LogicalPlan.DataSource (sampleScan 1 [1, 2] [] false))
          (LogicalPlan.DataSource (sampleScan 2 [3, 4] [] false))))
        [sampleCol 1, sampleCol 3] sampleSt).toOption.map (fun res => res.2.opt)) =
      some [TraceStep.ColumnPrune 2 [sampleCol 4], TraceStep.ColumnPrune 1 [sampleCol 2]] ∧
    ((LogicalPlan.PruneColumns sampleEnv samplePlanEnv sampleOthers 2
        (LogicalPlan.Join (sampleApply JoinType.InnerJoin
          (LogicalPlan.DataSource (sampleScan 1 [1, 2] [] false))
          (LogicalPlan.DataSource (sampleScan 2 [3, 4] [] false))).join)
        [sampleCol 1, sampleCol 3] sampleSt).toOption.map (fun res => res.2.opt)) =
      some [TraceStep.ColumnPrune 1 [sampleCol 2], TraceStep.ColumnPrune 2 [sampleCol 4]] := by
  decide

/-- C19 (child pruning order, amended). With the trace an append-only list
threaded through the handlers: `LogicalJoin.PruneColumns` prunes child 0 before
child 1, so the events of the left subtree precede those of the right subtree in
the trace; `LogicalApply.PruneColumns`, on the path that keeps the apply, prunes
child 1 before child 0, so the events of the right subtree precede those of the
left subtree. -/
theorem c19_child_pruning_order (E : ExprEnv Expr Info) (P : PlanEnv Expr Info)
    (prune : PruneFn Expr Info) (hmono : AppendsTrace prune) (hinl : InlineAppendsTrace P) :
    (∀ (p : LogicalJoin Expr (LogicalPlan Expr Info)) demand st l r plan st',
      p.base.children = [l, r] →
      LogicalJoin.PruneColumns E P prune p demand st = .ok (plan, st') →
      ∃ l1 st1 r1 st3 evsL evsR rest,
        prune l ((LogicalJoin.allColsSpec E p demand).filter
            (fun c => Schema.Contains l.Schema c)) st = .ok (l1, st1) ∧
        st1.opt = st.opt ++ evsL ∧
        prune r ((LogicalJoin.allColsSpec E p demand).filter
            (fun c => !Schema.Contains l.Schema c && Schema.Contains r.Schema c))
            (addConstOneForEmptyProjection E l1 st1).2 = .ok (r1, st3) ∧
        st3.opt = st1.opt ++ evsR ∧
        st'.opt = st.opt ++ evsL ++ evsR ++ rest) ∧
    (∀ (la : LogicalApply Expr (LogicalPlan Expr Info)) demand st l r plan st',
      la.join.base.children = [l, r] →
      ¬ LogicalApply.EliminateCond E la demand st l r →
      LogicalApply.PruneColumns E P prune la demand st = .ok (plan, st') →
      ∃ r1 st1 l1 st3 evsR evsL,
        prune r ((LogicalJoin.allColsSpec E la.join demand).filter
            (fun c => !Schema.Contains l.Schema c && Schema.Contains r.Schema c)) st =
          .ok (r1, st1) ∧
        st1.opt = st.opt ++ evsR ∧
        prune l
            ((LogicalJoin.allColsSpec E la.join demand).filter
                (fun c => Schema.Contains l.Schema c) ++
              (P.ExtractCorColumnsBySchema4LogicalPlan
                (addConstOneForEmptyProjection E r1 st1).1 l.Schema).map (fun col => col.Column))
            (addConstOneForEmptyProjection E r1 st1).2 = .ok (l1, st3) ∧
        st3.opt = st1.opt ++ evsL ∧
        st'.opt = st.opt ++ evsR ++ evsL) := by
  refine ⟨?_, ?_⟩
  · intro p demand st l r plan st' hch h
    obtain ⟨l1, st1, r1, st3, cols, hl, hr, _, hst⟩ :=
      LogicalJoin.joinPrune_ok E P prune p demand st l r hch plan st' h
    obtain ⟨evsL, hL⟩ := hmono _ _ _ _ _ hl
    obtain ⟨evsR, hR⟩ := hmono _ _ _ _ _ hr
    rw [(addConstOneForEmptyProjection_spec E l1 st1).2.2.2] at hR
    obtain ⟨rest, hrest⟩ := hinl
      (LogicalJoin.mergeSchema P
        { p with base := { p.base with
            children := [(addConstOneForEmptyProjection E l1 st1).1,
                         (addConstOneForEmptyProjection E r1 st3).1] } })
      cols (addConstOneForEmptyProjection E r1 st3).2
    rw [(addConstOneForEmptyProjection_spec E r1 st3).2.2.2] at hrest
    refine ⟨l1, st1, r1, st3, evsL, evsR, rest, hl, hL, hr, hR, ?_⟩
    rw [hst, hrest, hR, hL]
  · intro la demand st l r plan st' hch hn h
    obtain ⟨r1, st1, l1, st3, hr, hl, _, hst⟩ :=
      LogicalApply.PruneColumns_keep_ok E P prune la demand st l r hch
        (LogicalApply.eliminates_false_of_not E la demand st l r hn) plan st' h
    obtain ⟨evsR, hR⟩ := hmono _ _ _ _ _ hr
    obtain ⟨evsL, hL⟩ := hmono _ _ _ _ _ hl
    rw [(addConstOneForEmptyProjection_spec E r1 st1).2.2.2] at hL
    refine ⟨r1, st1, l1, st3, evsR, evsL, hr, hR, hl, hL, ?_⟩
    rw [hst, (addConstOneForEmptyProjection_spec E l1 st3).2.2.2, hL, hR]

/-- C14, as stated, fails: with MPP enforced and a TiFlash replica, the scan of
columns 1, 2 with filter `c2 > 0` pruned with an empty demand returns a projection
with an empty schema to its caller; in the join of a sequence over that scan with
the scan of columns 3, 4, pruned with demand `[3]`, that empty projection ends up
as the child of the sequence; and in the expand of column 5 over that scan, pruned
with an empty demand, it ends up as the child of the expand. Neither the sequence
nor the expand patches it. -/
theorem c14_empty_projection_under_sequence :
    ((DataSource.PruneColumns sampleEnv
        (sampleScan 1 [1, 2] [SampleExpr.gt (SampleExpr.col 2) (SampleExpr.num 0)] true) []
        sampleStMPP).toOption.map
      (fun res => (res.1.IsEmptyProjection, res.1.Schema.length))) = some (true, 0) ∧
    ((LogicalPlan.PruneColumns sampleEnv samplePlanEnv sampleOthers 3
        (LogicalPlan.Join (sampleApply JoinType.InnerJoin
          (LogicalPlan.Sequence (sampleSequence
            [LogicalPlan.DataSource
              (sampleScan 1 [1, 2] [SampleExpr.gt (SampleExpr.col 2) (SampleExpr.num 0)] true)]))
          (LogicalPlan.DataSource (sampleScan 2 [3, 4] [] false))).join)
        [sampleCol 3] sampleStMPP).toOption.map
      (fun res => res.1.Children.map
        (fun c => c.Children.map (fun g => (g.IsEmptyProjection, g.Schema.length))))) =
      some [[(true, 0)], []] ∧
    ((LogicalPlan.PruneColumns sampleEnv samplePlanEnv sampleOthers 2
        (LogicalPlan.Expand (sampleExpand [5] ["g"] []
          (LogicalPlan.DataSource
            (sampleScan 1 [1, 2] [SampleExpr.gt (SampleExpr.col 2) (SampleExpr.num 0)] true))))
        [] sampleStMPP).toOption.map
      (fun res => res.1.Children.map (fun g => (g.IsEmptyProjection, g.Schema.length)))) =
      some [(true, 0)] := by
  decide

/-- Whenever `LogicalExpand.PruneColumns` returns, it returns the Expand itself
with its schema and names pruned and its first child replaced by exactly what the
pruning of that child returned. -/
theorem LogicalExpand.expandPrune_node (prune : PruneFn Expr Info)
    (p : LogicalExpand Expr (LogicalPlan Expr Info)) (demand : List (Column Expr))
    (st : St Expr) (plan : LogicalPlan Expr Info) (st' : St Expr)
    (h : LogicalExpand.PruneColumns prune p demand st = .ok (plan, st')) :
    ∃ l child child1,
      LogicalExpand.pruneLoop (GetUsedList (demand ++ p.DistinctGroupByCol) p.base.schema)
        (GetUsedList (demand ++ p.DistinctGroupByCol) p.base.schema).length
        { prunedColumns := [], schema := GoSlice.ofList p.base.schema,
          names := GoSlice.ofList p.base.names } = .ok l ∧
      p.base.children[0]? = some child ∧
      prune child (demand ++ p.DistinctGroupByCol)
        (AppendColumnPruneTraceStep p.base.id l.prunedColumns st) = .ok (child1, st') ∧
      plan = LogicalPlan.Expand
        { p with base := { p.base with schema := l.schema.vis, names := l.names.vis,
                                       children := p.base.children.set 0 child1 } } ∧
      plan.Children[0]? = some child1 := by
  unfold LogicalExpand.PruneColumns at h
  simp only at h
  cases hl : LogicalExpand.pruneLoop (GetUsedList (demand ++ p.DistinctGroupByCol) p.base.schema)
      (GetUsedList (demand ++ p.DistinctGroupByCol) p.base.schema).length
      { prunedColumns := [], schema := GoSlice.ofList p.base.schema,
        names := GoSlice.ofList p.base.names } with
  | error f => simp [hl] at h
  | ok l =>
    simp only [hl] at h
    cases hc : p.base.children[0]? with
    | none => simp [hc] at h
    | some child =>
      simp only [hc] at h
      cases hp : prune child (demand ++ p.DistinctGroupByCol)
          (AppendColumnPruneTraceStep p.base.id l.prunedColumns st) with
      | error f => simp [hp] at h
      | ok res =>
        obtain ⟨child1, st2⟩ := res
        simp only [hp, Except.ok.injEq, Prod.mk.injEq] at h
        obtain ⟨h1, h2⟩ := h
        subst h2
        refine ⟨l, child, child1, rfl, rfl, hp, h1.symm, ?_⟩
        rw [← h1]
        have hpos : 0 < p.base.children.length := by
          cases hch : p.base.children with
          | nil => simp [hch] at hc
          | cons a as => simp
        simp [LogicalPlan.Children, LogicalPlan.base, hpos]

/-- Whenever `LogicalSequence.PruneColumns` returns, it returns the Sequence itself
with its last child replaced by exactly what the pruning of that child returned. -/
theorem LogicalSequence.sequencePrune_node (prune : PruneFn Expr Info)
    (p : LogicalSequence Expr (LogicalPlan Expr Info)) (demand : List (Column Expr))
    (st : St Expr) (plan : LogicalPlan Expr Info) (st' : St Expr)
    (h : LogicalSequence.PruneColumns prune p demand st = .ok (plan, st')) :
    ∃ last last1,
      p.base.children.getLast? = some last ∧
      prune last demand st = .ok (last1, st') ∧
      plan = LogicalPlan.Sequence
        { p with base := { p.base with
            children := p.base.children.set (p.base.children.length - 1) last1 } } ∧
      plan.Children.getLast? = some last1 := by
  unfold LogicalSequence.PruneColumns at h
  cases hl : p.base.children.getLast? with
  | none => simp [hl] at h
  | some last =>
    simp only [hl] at h
    cases hp : prune last demand st with
    | error f => simp [hp] at h
    | ok res =>
      obtain ⟨last1, st1⟩ := res
      simp only [hp, Except.ok.injEq, Prod.mk.injEq] at h
      obtain ⟨h1, h2⟩ := h
      subst h2
      refine ⟨last, last1, rfl, hp, h1.symm, ?_⟩
      rw [← h1]
      obtain ⟨init, hinit⟩ : ∃ init, p.base.children = init ++ [last] := by
        rcases List.eq_nil_or_concat p.base.children with hnil | ⟨init, b, hb⟩
        · rw [hnil] at hl
          simp at hl
        · rw [hb] at hl
          simp at hl
          subst hl
          exact ⟨init, by rw [hb]; simp⟩
      simp only [LogicalPlan.Children, LogicalPlan.base]
      rw [hinit, set_length_append_singleton]
      simp


theorem LogicalPlan.isEmptyProjection_false_iff (c : LogicalPlan Expr Info) :
    c.IsEmptyProjection = false ↔
      ∀ proj, c = LogicalPlan.Projection proj → 1 ≤ proj.base.schema.length := by
  cases c with
  | Projection proj =>
    simp only [LogicalPlan.IsEmptyProjection, decide_eq_false_iff_not, LogicalPlan.Projection.injEq]
    constructor
    · intro h proj' e
      subst e
      omega
    · intro h
      have := h proj rfl
      omega
  | DataSource _ => simp [LogicalPlan.IsEmptyProjection]
  | Join _ => simp [LogicalPlan.IsEmptyProjection]
  | Apply _ => simp [LogicalPlan.IsEmptyProjection]
  | Expand _ => simp [LogicalPlan.IsEmptyProjection]
  | CTE _ => simp [LogicalPlan.IsEmptyProjection]
  | CTETable _ => simp [LogicalPlan.IsEmptyProjection]
  | Sequence _ => simp [LogicalPlan.IsEmptyProjection]
  | Other _ _ => simp [LogicalPlan.IsEmptyProjection]

/-- C14 (no empty projection is handed to a parent, amended). Provided inline
projection leaves the children of the join alone, for plans pruned through the
dispatch of this file: a projection returned by `DataSource.PruneColumns` has the
demand as its schema, so its schema has length at least 1 exactly when the demand
is not empty. The join handler returns the join itself, with its children
replaced by the patched results of their prunings, and the kept apply returns the
apply itself in the same way: a projection that ends up as their child has schema
length at least 1. The expand handler returns the expand itself with its first
child replaced by exactly what the pruning of that child returned, and the
sequence handler returns the sequence itself with its last child replaced by
exactly what the pruning of that child returned: neither patches the child, so an
empty projection returned for the child remains the child. The CTE handler
returns the CTE as it is. -/
theorem c14_no_empty_projection_under_join (E : ExprEnv Expr Info) (P : PlanEnv Expr Info)
    (others : PruneFn Expr Info) (n : Nat) (hinline : InlineKeepsChildren P) :
    (∀ (ds : DataSource Expr Info (LogicalPlan Expr Info)) demand st plan st',
      LogicalPlan.PruneColumns E P others (n + 1) (LogicalPlan.DataSource ds) demand st =
        .ok (plan, st') →
      ∀ proj, plan = LogicalPlan.Projection proj →
        proj.base.schema = demand ∧ (1 ≤ proj.base.schema.length ↔ demand ≠ [])) ∧
    (∀ (j : LogicalJoin Expr (LogicalPlan Expr Info)) demand st l r plan st',
      j.base.children = [l, r] →
      LogicalPlan.PruneColumns E P others (n + 1) (LogicalPlan.Join j) demand st =
        .ok (plan, st') →
      ∃ l1 st1 r1 st3 cols,
        LogicalPlan.PruneColumns E P others n l
          ((LogicalJoin.allColsSpec E j demand).filter
            (fun c => Schema.Contains l.Schema c)) st = .ok (l1, st1) ∧
        LogicalPlan.PruneColumns E P others n r
          ((LogicalJoin.allColsSpec E j demand).filter
            (fun c => !Schema.Contains l.Schema c && Schema.Contains r.Schema c))
          (addConstOneForEmptyProjection E l1 st1).2 = .ok (r1, st3) ∧
        plan = LogicalPlan.Join
          (P.InlineProjection
            (LogicalJoin.mergeSchema P
              { j with base := { j.base with
                  children := [(addConstOneForEmptyProjection E l1 st1).1,
                               (addConstOneForEmptyProjection E r1 st3).1] } })
            cols (addConstOneForEmptyProjection E r1 st3).2).1 ∧
        plan.Children = [(addConstOneForEmptyProjection E l1 st1).1,
                         (addConstOneForEmptyProjection E r1 st3).1] ∧
        ∀ c ∈ plan.Children, ∀ proj, c = LogicalPlan.Projection proj →
          1 ≤ proj.base.schema.length) ∧
    (∀ (la : LogicalApply Expr (LogicalPlan Expr Info)) demand st l r plan st',
      la.join.base.children = [l, r] →
      ¬ LogicalApply.EliminateCond E la demand st l r →
      LogicalPlan.PruneColumns E P others (n + 1) (LogicalPlan.Apply la) demand st =
        .ok (plan, st') →
      ∃ r1 st1 l1 st3,
        LogicalPlan.PruneColumns E P others n r
          ((LogicalJoin.allColsSpec E la.join demand).filter
            (fun c => !Schema.Contains l.Schema c && Schema.Contains r.Schema c)) st =
          .ok (r1, st1) ∧
        LogicalPlan.PruneColumns E P others n l
          ((LogicalJoin.allColsSpec E la.join demand).filter
              (fun c => Schema.Contains l.Schema c) ++
            (P.ExtractCorColumnsBySchema4LogicalPlan
              (addConstOneForEmptyProjection E r1 st1).1 l.Schema).map (fun col => col.Column))
          (addConstOneForEmptyProjection E r1 st1).2 = .ok (l1, st3) ∧
        plan = LogicalPlan.Apply
          { join := LogicalJoin.mergeSchema P
              { la.join with base := { la.join.base with
                  children := [(addConstOneForEmptyProjection E l1 st3).1,
                               (addConstOneForEmptyProjection E r1 st1).1] } },
            CorCols := P.ExtractCorColumnsBySchema4LogicalPlan
              (addConstOneForEmptyProjection E r1 st1).1 l.Schema } ∧
        plan.Children = [(addConstOneForEmptyProjection E l1 st3).1,
                         (addConstOneForEmptyProjection E r1 st1).1] ∧
        ∀ c ∈ plan.Children, ∀ proj, c = LogicalPlan.Projection proj →
          1 ≤ proj.base.schema.length) ∧
    (∀ (e : LogicalExpand Expr (LogicalPlan Expr Info)) demand st plan st',
      LogicalPlan.PruneColumns E P others (n + 1) (LogicalPlan.Expand e) demand st =
        .ok (plan, st') →
      ∃ l child child1,
        LogicalExpand.pruneLoop (GetUsedList (demand ++ e.DistinctGroupByCol) e.base.schema)
          (GetUsedList (demand ++ e.DistinctGroupByCol) e.base.schema).length
          { prunedColumns := [], schema := GoSlice.ofList e.base.schema,
            names := GoSlice.ofList e.base.names } = .ok l ∧
        e.base.children[0]? = some child ∧
        LogicalPlan.PruneColumns E P others n child (demand ++ e.DistinctGroupByCol)
          (AppendColumnPruneTraceStep e.base.id l.prunedColumns st) = .ok (child1, st') ∧
        plan = LogicalPlan.Expand
          { e with base := { e.base with schema := l.schema.vis, names := l.names.vis,
                                         children := e.base.children.set 0 child1 } } ∧
        plan.Children[0]? = some child1 ∧
        (child1.IsEmptyProjection = true → ∃ c ∈ plan.Children, c.IsEmptyProjection = true)) ∧
    (∀ (q : LogicalSequence Expr (LogicalPlan Expr Info)) demand st plan st',
      LogicalPlan.PruneColumns E P others (n + 1) (LogicalPlan.Sequence q) demand st =
        .ok (plan, st') →
      ∃ last last1,
        q.base.children.getLast? = some last ∧
        LogicalPlan.PruneColumns E P others n last demand st = .ok (last1, st') ∧
        plan = LogicalPlan.Sequence
          { q with base := { q.base with
              children := q.base.children.set (q.base.children.length - 1) last1 } } ∧
        plan.Children.getLast? = some last1 ∧
        (last1.IsEmptyProjection = true → ∃ c ∈ plan.Children, c.IsEmptyProjection = true)) ∧
    (∀ (c : LogicalCTE Expr (LogicalPlan Expr Info)) demand st plan st',
      LogicalPlan.PruneColumns E P others (n + 1) (LogicalPlan.CTE c) demand st =
        .ok (plan, st') → plan = LogicalPlan.CTE c ∧ st' = st) := by
  refine ⟨?_, ?_, ?_, ?_, ?_, ?_⟩
  · intro ds demand st plan st' h proj hproj
    have h' : DataSource.PruneColumns E ds demand st = .ok (plan, st') := h
    obtain ⟨ds1, added, st1, _, _, hcase⟩ := DataSource.PruneColumns_ok E ds demand st plan st' h'
    rcases hcase with ⟨_, proj', hproj', hs, _⟩ | ⟨_, hplan, _⟩
    · rw [hproj] at hproj'
      cases hproj'
      refine ⟨hs, ?_⟩
      rw [hs]
      cases demand with
      | nil => simp
      | cons a as => simp
    · rw [hplan] at hproj
      cases hproj
  · intro j demand st l r plan st' hch h
    have h' : LogicalJoin.PruneColumns E P (LogicalPlan.PruneColumns E P others n) j demand st =
        .ok (plan, st') := h
    obtain ⟨l1, st1, r1, st3, cols, hl, hr, hplan, _⟩ :=
      LogicalJoin.joinPrune_ok E P (LogicalPlan.PruneColumns E P others n) j demand st l r hch
        plan st' h'
    have hc : plan.Children = [(addConstOneForEmptyProjection E l1 st1).1,
        (addConstOneForEmptyProjection E r1 st3).1] := by
      rw [hplan]
      show (P.InlineProjection _ _ _).1.base.children = _
      rw [hinline]
      rfl
    refine ⟨l1, st1, r1, st3, cols, hl, hr, hplan, hc, ?_⟩
    intro c hcm
    rw [hc] at hcm
    simp only [List.mem_cons, List.mem_singleton, List.not_mem_nil, or_false] at hcm
    apply (LogicalPlan.isEmptyProjection_false_iff c).mp
    rcases hcm with rfl | rfl
    · exact (addConstOneForEmptyProjection_spec E l1 st1).2.2.1
    · exact (addConstOneForEmptyProjection_spec E r1 st3).2.2.1
  · intro la demand st l r plan st' hch hn h
    have h' : LogicalApply.PruneColumns E P (LogicalPlan.PruneColumns E P others n) la demand st =
        .ok (plan, st') := h
    obtain ⟨r1, st1, l1, st3, hr, hl, hplan, _⟩ :=
      LogicalApply.PruneColumns_keep_ok E P (LogicalPlan.PruneColumns E P others n) la demand st
        l r hch (LogicalApply.eliminates_false_of_not E la demand st l r hn) plan st' h'
    have hc : plan.Children = [(addConstOneForEmptyProjection E l1 st3).1,
        (addConstOneForEmptyProjection E r1 st1).1] := by
      rw [hplan]
      rfl
    refine ⟨r1, st1, l1, st3, hr, hl, hplan, hc, ?_⟩
    intro c hcm
    rw [hc] at hcm
    simp only [List.mem_cons, List.mem_singleton, List.not_mem_nil, or_false] at hcm
    apply (LogicalPlan.isEmptyProjection_false_iff c).mp
    rcases hcm with rfl | rfl
    · exact (addConstOneForEmptyProjection_spec E l1 st3).2.2.1
    · exact (addConstOneForEmptyProjection_spec E r1 st1).2.2.1
  · intro e demand st plan st' h
    obtain ⟨l, child, child1, hl, hc, hp, hplan, hch⟩ :=
      LogicalExpand.expandPrune_node (LogicalPlan.PruneColumns E P others n) e demand st plan st' h
    exact ⟨l, child, child1, hl, hc, hp, hplan, hch,
      fun he => ⟨child1, List.mem_iff_getElem?.mpr ⟨0, hch⟩, he⟩⟩
  · intro q demand st plan st' h
    obtain ⟨last, last1, hl, hp, hplan, hch⟩ :=
      LogicalSequence.sequencePrune_node (LogicalPlan.PruneColumns E P others n) q demand st
        plan st' h
    exact ⟨last, last1, hl, hp, hplan, hch,
      fun he => ⟨last1, List.mem_of_mem_getLast? hch, he⟩⟩
  · intro c demand st plan st' h
    have h' : LogicalCTE.PruneColumns c demand st = .ok (plan, st') := h
    simp only [LogicalCTE.PruneColumns, Except.ok.injEq, Prod.mk.injEq] at h'
    exact ⟨h'.1.symm, h'.2.symm⟩

theorem DataSource.PruneColumns_appends (E : ExprEnv Expr Info)
    (ds : DataSource Expr Info (LogicalPlan Expr Info)) (demand : List (Column Expr))
    (st : St Expr) (plan : LogicalPlan Expr Info) (st' : St Expr)
    (h : DataSource.PruneColumns E ds demand st = .ok (plan, st')) :
    st'.opt = st.opt ++ [TraceStep.ColumnPrune ds.base.id
      (ds.base.schema.filter (fun c => !DataSource.keepCol E ds demand c)).reverse] := by
  obtain ⟨ds1, added, st1, hp, hopt, _⟩ := DataSource.PruneColumns_ok E ds demand st plan st' h
  rw [hopt]
  exact (DataSource.pruneInPlace_frame E ds demand st ds1 added st1 hp).2.2.2

theorem samplePrune_appendsTrace : AppendsTrace samplePrune := by
  intro p demand st p1 st1 h
  cases p with
  | DataSource ds =>
    exact ⟨_, DataSource.PruneColumns_appends sampleEnv ds demand st p1 st1 h⟩
  | Projection _ =>
    simp only [samplePrune, Except.ok.injEq, Prod.mk.injEq] at h
    exact ⟨[], by rw [← h.2, List.append_nil]⟩
  | Join _ =>
    simp only [samplePrune, Except.ok.injEq, Prod.mk.injEq] at h
    exact ⟨[], by rw [← h.2, List.append_nil]⟩
  | Apply _ =>
    simp only [samplePrune, Except.ok.injEq, Prod.mk.injEq] at h
    exact ⟨[], by rw [← h.2, List.append_nil]⟩
  | Expand _ =>
    simp only [samplePrune, Except.ok.injEq, Prod.mk.injEq] at h
    exact ⟨[], by rw [← h.2, List.append_nil]⟩
  | CTE _ =>
    simp only [samplePrune, Except.ok.injEq, Prod.mk.injEq] at h
    exact ⟨[], by rw [← h.2, List.append_nil]⟩
  | CTETable _ =>
    simp only [samplePrune, Except.ok.injEq, Prod.mk.injEq] at h
    exact ⟨[], by rw [← h.2, List.append_nil]⟩
  | Sequence _ =>
    simp only [samplePrune, Except.ok.injEq, Prod.mk.injEq] at h
    exact ⟨[], by rw [← h.2, List.append_nil]⟩
  | Other _ _ =>
    simp only [samplePrune, Except.ok.injEq, Prod.mk.injEq] at h
    exact ⟨[], by rw [← h.2, List.append_nil]⟩

end Lemmas

/-! ## Witnesses at concrete inputs -/

/-- Witness of C1: pruning the scan of columns 1, 2, 3 with an empty demand and no
filter leaves one column, the extra handle with the fresh unique id 101; so does
pruning a scan whose schema is empty before the call. -/
theorem c1_handle_rule_witness :
    (∃ plan st' ds1, DataSource.PruneColumns sampleEnv (sampleScan 1 [1, 2, 3] [] false) []
        sampleSt = .ok (plan, st') ∧
      DataSource.ReturnedIn ds1 plan ∧ 1 ≤ ds1.base.schema.length ∧
      plan.Schema.map (fun c => c.UniqueID) = [101]) ∧
    (sampleScan 1 [] [] false).WellFormed ∧
    (∃ plan st' ds1, DataSource.PruneColumns sampleEnv (sampleScan 1 [] [] false)
        [sampleCol 4] sampleSt = .ok (plan, st') ∧
      DataSource.ReturnedIn ds1 plan ∧ 1 ≤ ds1.base.schema.length ∧
      plan.Schema.map (fun c => c.UniqueID) = [101]) := by
  obtain ⟨ds1, l, h1, h2, _⟩ :=
    (c1_handle_rule sampleEnv (sampleScan 1 [1, 2, 3] [] false) [] sampleSt).2 _ _ rfl
  obtain ⟨ds2, l2, k1, k2, _⟩ :=
    (c1_handle_rule sampleEnv (sampleScan 1 [] [] false) [sampleCol 4] sampleSt).2 _ _ rfl
  exact ⟨⟨_, _, ds1, rfl, h1, h2, by decide⟩, by decide, ⟨_, _, ds2, rfl, k1, k2, by decide⟩⟩

/-- Witness of C2: the scan of columns 1, 2, 3 pruned with demand `[2, 9]` still
produces column 2. -/
theorem c2_demand_coverage_witness :
    Schema.Contains (sampleScan 1 [1, 2, 3] [] false).base.schema (sampleCol 2) = true ∧
    ∃ plan st', DataSource.PruneColumns sampleEnv (sampleScan 1 [1, 2, 3] [] false)
        [sampleCol 2, sampleCol 9] sampleSt = .ok (plan, st') ∧
      Schema.Contains plan.Schema (sampleCol 2) = true :=
  ⟨by decide, _, _, rfl,
    (c2_demand_coverage sampleEnv (sampleScan 1 [1, 2, 3] [] false)
      [sampleCol 2, sampleCol 9] sampleSt).2 _ _ rfl (sampleCol 2) (by decide) (by decide)⟩

/-- Witness of C3: the scan of columns 1, 2, 3 with filter `c2 > 0`, pruned with
demand `[3]`, keeps columns 2 and 3 and their infos and reports column 1. -/
theorem c3_retention_rule_witness :
    (sampleScan 1 [1, 2, 3] [SampleExpr.gt (SampleExpr.col 2) (SampleExpr.num 0)] false).base.schema.length =
      (sampleScan 1 [1, 2, 3] [SampleExpr.gt (SampleExpr.col 2) (SampleExpr.num 0)] false).Columns.length ∧
    DataSource.keepMask sampleEnv
      (sampleScan 1 [1, 2, 3] [SampleExpr.gt (SampleExpr.col 2) (SampleExpr.num 0)] false)
      [sampleCol 3] = [false, true, true] ∧
    ∃ plan st', ∃ ds1 : DataSource SampleExpr Int (LogicalPlan SampleExpr Int),
      DataSource.PruneColumns sampleEnv
        (sampleScan 1 [1, 2, 3] [SampleExpr.gt (SampleExpr.col 2) (SampleExpr.num 0)] false)
        [sampleCol 3] sampleSt = .ok (plan, st') ∧
      ds1.base.schema = [sampleCol 2, sampleCol 3] ∧ ds1.Columns = [2, 3] ∧
      st'.opt = [TraceStep.ColumnPrune 1 [sampleCol 1]] := by
  refine ⟨by decide, by decide, ?_⟩
  obtain ⟨plan, st', ds1, h, _, h1, _, h2, h3⟩ :=
    c3_retention_rule sampleEnv
      (sampleScan 1 [1, 2, 3] [SampleExpr.gt (SampleExpr.col 2) (SampleExpr.num 0)] false)
      [sampleCol 3] sampleSt (by decide) (by decide)
  exact ⟨plan, st', ds1, h, h1, h2, h3⟩

/-- Witness of C7: with MPP enforced and a TiFlash replica, the scan of columns
1, 2 with filter `c2 > 0` pruned with an empty demand keeps column 2 and is wrapped
in a projection with the (empty) demand as schema. -/
theorem c7_mpp_projection_wrap_witness :
    ∃ plan st' proj, DataSource.PruneColumns sampleEnv
        (sampleScan 1 [1, 2] [SampleExpr.gt (SampleExpr.col 2) (SampleExpr.num 0)] true) []
        sampleStMPP = .ok (plan, st') ∧
      plan = LogicalPlan.Projection proj ∧ proj.base.schema = [] ∧ proj.Exprs = [] ∧
      proj.base.children.map (fun c => c.Schema) = [[sampleCol 2]] := by
  obtain ⟨ds1, added, st1, hp, hiff, hproj, _⟩ :=
    (c7_mpp_projection_wrap sampleEnv
      (sampleScan 1 [1, 2] [SampleExpr.gt (SampleExpr.col 2) (SampleExpr.num 0)] true) []
      sampleStMPP).2 _ _ rfl
  obtain ⟨h1, h2, h3⟩ := hproj _ rfl
  exact ⟨_, _, _, rfl, rfl, h1, h2, by decide⟩

/-- Witness of C10: a scan of columns 1, 2 whose integer handle is column 1, pruned
with demand `[2]`, loses column 1 and has its handle columns reset to null. -/
theorem c10_handle_reset_witness :
    ∃ plan st' ds1, DataSource.PruneColumns sampleEnv
        { sampleScan 1 [1, 2] [] false with HandleCols := some ⟨true, sampleCol 1⟩ }
        [sampleCol 2] sampleSt = .ok (plan, st') ∧
      DataSource.ReturnedIn ds1 plan ∧ ds1.HandleCols = none := by
  obtain ⟨ds1, hret, hreset, _⟩ :=
    (c10_handle_reset sampleEnv
      { sampleScan 1 [1, 2] [] false with HandleCols := some ⟨true, sampleCol 1⟩ }
      [sampleCol 2] sampleSt).2 _ _ rfl
  refine ⟨_, _, ds1, rfl, hret, hreset ⟨true, sampleCol 1⟩ rfl rfl ?_⟩
  rcases hret with h | ⟨proj, h, _⟩
  · cases h
    decide
  · cases h

/-- Witness of C9: `Expand(dgb = [g])` over a scan of `g, v, w` (unique ids 1, 2,
3) with demand `{v}` keeps `g` and `v` with their names, and prunes the scan with
the demand `[v, g]`. -/
theorem c9_expand_pruning_witness :
    (sampleExpand [1, 2, 3] ["g", "v", "w"] [1]
        (LogicalPlan.DataSource (sampleScan 2 [1, 2, 3] [] false))).base.schema.length =
      (sampleExpand [1, 2, 3] ["g", "v", "w"] [1]
        (LogicalPlan.DataSource (sampleScan 2 [1, 2, 3] [] false))).base.names.length ∧
    ((LogicalExpand.PruneColumns samplePrune
        (sampleExpand [1, 2, 3] ["g", "v", "w"] [1]
          (LogicalPlan.DataSource (sampleScan 2 [1, 2, 3] [] false)))
        [sampleCol 2] sampleSt).toOption.map
      (fun res => (res.1.Schema, res.1.base.names,
        res.1.Children.map (fun c => c.Schema), res.2.opt))) =
      some ([sampleCol 1, sampleCol 2], ["g", "v"], [[sampleCol 1, sampleCol 2]],
        [TraceStep.ColumnPrune 5 [sampleCol 3], TraceStep.ColumnPrune 2 [sampleCol 3]]) := by
  refine ⟨by decide, ?_⟩
  rw [(c9_expand_pruning samplePrune
    (sampleExpand [1, 2, 3] ["g", "v", "w"] [1]
      (LogicalPlan.DataSource (sampleScan 2 [1, 2, 3] [] false)))
    [sampleCol 2] sampleSt (LogicalPlan.DataSource (sampleScan 2 [1, 2, 3] [] false))
    (by decide) rfl).1]
  rfl

/-- Witness of C6: a join of the scans of columns 1, 2 and of columns 3, 4 with the
equal condition `c1 > c3` and demand `[1, 4, 9]` sends `[1, 1]` to the left and
`[4, 3]` to the right; column 9 is in neither list. -/
theorem c6_join_demand_partition_witness :
    ∃ leftCols rightCols,
      LogicalJoin.extractUsedCols sampleEnv
        { (sampleApply JoinType.InnerJoin
            (LogicalPlan.DataSource (sampleScan 1 [1, 2] [] false))
            (LogicalPlan.DataSource (sampleScan 2 [3, 4] [] false))).join with
          EqualConditions := [SampleExpr.gt (SampleExpr.col 1) (SampleExpr.col 3)] }
        [sampleCol 1, sampleCol 4, sampleCol 9] = .ok (leftCols, rightCols) ∧
      leftCols = [sampleCol 1, sampleCol 1] ∧ rightCols = [sampleCol 4, sampleCol 3] := by
  obtain ⟨lc, rc, h, h1, h2, _⟩ := c6_join_demand_partition sampleEnv
    { (sampleApply JoinType.InnerJoin
        (LogicalPlan.DataSource (sampleScan 1 [1, 2] [] false))
        (LogicalPlan.DataSource (sampleScan 2 [3, 4] [] false))).join with
      EqualConditions := [SampleExpr.gt (SampleExpr.col 1) (SampleExpr.col 3)] }
    [sampleCol 1, sampleCol 4, sampleCol 9]
    (LogicalPlan.DataSource (sampleScan 1 [1, 2] [] false))
    (LogicalPlan.DataSource (sampleScan 2 [3, 4] [] false)) rfl
  refine ⟨lc, rc, h, ?_, ?_⟩
  · rw [h1]
    decide
  · rw [h2]
    decide

/-- Witness of C4: the left outer apply over the scans of columns 1, 2 and of
columns 3, 4, with demand `[1]` and no fix-control entry, meets the elimination
condition and is replaced by the pruning of its left child. -/
theorem c4_apply_elimination_witness :
    LogicalApply.EliminateCond sampleEnv
      (sampleApply JoinType.LeftOuterJoin
        (LogicalPlan.DataSource (sampleScan 1 [1, 2] [] false))
        (LogicalPlan.DataSource (sampleScan 2 [3, 4] [] false)))
      [sampleCol 1] sampleSt
      (LogicalPlan.DataSource (sampleScan 1 [1, 2] [] false))
      (LogicalPlan.DataSource (sampleScan 2 [3, 4] [] false)) ∧
    LogicalApply.PruneColumns sampleEnv samplePlanEnv samplePrune
      (sampleApply JoinType.LeftOuterJoin
        (LogicalPlan.DataSource (sampleScan 1 [1, 2] [] false))
        (LogicalPlan.DataSource (sampleScan 2 [3, 4] [] false)))
      [sampleCol 1] sampleSt =
    samplePrune (LogicalPlan.DataSource (sampleScan 1 [1, 2] [] false)) [sampleCol 1]
      (ApplyEliminateTraceStep 2 sampleSt) := by
  have hc : LogicalApply.EliminateCond sampleEnv
      (sampleApply JoinType.LeftOuterJoin
        (LogicalPlan.DataSource (sampleScan 1 [1, 2] [] false))
        (LogicalPlan.DataSource (sampleScan 2 [3, 4] [] false)))
      [sampleCol 1] sampleSt
      (LogicalPlan.DataSource (sampleScan 1 [1, 2] [] false))
      (LogicalPlan.DataSource (sampleScan 2 [3, 4] [] false)) := by
    unfold LogicalApply.EliminateCond
    decide
  exact ⟨hc, ((c4_apply_elimination sampleEnv samplePlanEnv
    (sampleApply JoinType.LeftOuterJoin
      (LogicalPlan.DataSource (sampleScan 1 [1, 2] [] false))
      (LogicalPlan.DataSource (sampleScan 2 [3, 4] [] false)))
    [sampleCol 1] sampleSt _ _ rfl).1.mpr hc) samplePrune⟩

/-- Witness of C5: the left outer apply over the scans of columns 1, 2 and of
columns 3, 4, whose schemas are disjoint, is replaced by its pruned left child
under the demand `[1]`, and the right child does not contain the demanded column. -/
theorem c5_apply_elimination_soundness_witness :
    Schema.Contains (LogicalPlan.DataSource (sampleScan 2 [3, 4] [] false)).Schema
      (sampleCol 1) = false :=
  c5_apply_elimination_soundness sampleEnv samplePlanEnv
    (sampleApply JoinType.LeftOuterJoin
      (LogicalPlan.DataSource (sampleScan 1 [1, 2] [] false))
      (LogicalPlan.DataSource (sampleScan 2 [3, 4] [] false)))
    [sampleCol 1] sampleSt _ _ rfl
    (by
      intro c
      rw [Schema.Contains_iff, Schema.Contains_iff]
      rintro ⟨⟨a, ha, ea⟩, ⟨b, hb, eb⟩⟩
      simp only [LogicalPlan.Schema, LogicalPlan.base, sampleScan, List.map_cons, List.map_nil,
        List.mem_cons, List.mem_singleton, List.not_mem_nil, or_false] at ha hb
      rcases ha with rfl | rfl <;> rcases hb with rfl | rfl <;>
        simp [sampleCol] at ea eb <;> omega)
    (fun _ => rfl) (sampleCol 1) (by decide)

/-- Witness of C11: the scan of columns 1, 2, 3 of a normal table without handle
columns, pruned with an empty demand, ends with the synthesised extra handle with
the fresh unique id 101 and the extra-handle column info. -/
theorem c11_handle_preference_witness :
    ∃ plan st' ds1,
      DataSource.PruneColumns sampleEnv (sampleScan 1 [1, 2, 3] [] false) [] sampleSt =
        .ok (plan, st') ∧
      plan = LogicalPlan.DataSource ds1 ∧
      ds1.base.schema = [{ UniqueID := 101, RetType := ⟨mysql.TypeLonglong⟩,
                           VirtualExpr := none }] ∧
      ds1.Columns = [-1] ∧ st'.vars.PlanColumnID = 101 := by
  obtain ⟨ds1, hc, hi, hplan, hs, hcols, _, _, hrest⟩ :=
    (c11_handle_preference sampleEnv (sampleScan 1 [1, 2, 3] [] false) [] sampleSt
      (by decide) (by decide)).2 _ _ rfl
  obtain ⟨e1, e2, e3⟩ := (hrest (by decide)).2.2 rfl rfl
  refine ⟨_, _, ds1, rfl, hplan, ?_, ?_, e3⟩
  · rw [hs, e1]
    rfl
  · rw [hcols, e2]
    rfl

/-- Witness of C12: the scan of columns 1, 2, 3 with filter `c2 > 0`, pruned with
demand `[3]`, keeps the pairs of positions 1 and 2. -/
theorem c12_schema_columns_alignment_witness :
    ∃ plan st' ds1,
      DataSource.PruneColumns sampleEnv
        (sampleScan 1 [1, 2, 3] [SampleExpr.gt (SampleExpr.col 2) (SampleExpr.num 0)] false)
        [sampleCol 3] sampleSt = .ok (plan, st') ∧
      DataSource.ReturnedIn ds1 plan ∧
      ds1.base.schema.length = ds1.Columns.length ∧
      ds1.base.schema.zip ds1.Columns = [(sampleCol 2, 2), (sampleCol 3, 3)] := by
  obtain ⟨ds1, hret, hlen, hkeep, _⟩ :=
    (c12_schema_columns_alignment sampleEnv
      (sampleScan 1 [1, 2, 3] [SampleExpr.gt (SampleExpr.col 2) (SampleExpr.num 0)] false)
      [sampleCol 3] sampleSt (by decide)).2 _ _ rfl
  refine ⟨_, _, ds1, rfl, hret, hlen, ?_⟩
  rw [hkeep (by decide)]
  decide

/-- Witness of C13: with MPP enforced, the join of the scan of columns 1, 2 with
filter `c2 > 0` on a table with a TiFlash replica and of the scan of columns 3, 4,
pruned with demand `[3]`, gets as left child the empty projection patched with the
column of unique id 101. -/
theorem c13_empty_projection_patch_witness :
    ∃ plan st' p1,
      LogicalJoin.PruneColumns sampleEnv samplePlanEnv samplePrune
        (sampleApply JoinType.InnerJoin
          (LogicalPlan.DataSource
            (sampleScan 1 [1, 2] [SampleExpr.gt (SampleExpr.col 2) (SampleExpr.num 0)] true))
          (LogicalPlan.DataSource (sampleScan 2 [3, 4] [] false))).join
        [sampleCol 3] sampleStMPP = .ok (plan, st') ∧
      plan = LogicalPlan.Join p1 ∧
      (∀ c ∈ p1.base.children, c.IsEmptyProjection = false) ∧
      plan.Children.map (fun c => c.Schema.map (fun col => col.UniqueID)) = [[101], [3]] := by
  obtain ⟨l1, st1, r1, st3, p1, _, _, hplan, _, hall⟩ :=
    (c13_empty_projection_patch sampleEnv samplePlanEnv samplePrune (fun _ _ _ => rfl)).2.1
      (sampleApply JoinType.InnerJoin
        (LogicalPlan.DataSource
          (sampleScan 1 [1, 2] [SampleExpr.gt (SampleExpr.col 2) (SampleExpr.num 0)] true))
        (LogicalPlan.DataSource (sampleScan 2 [3, 4] [] false))).join
      [sampleCol 3] sampleStMPP _ _ _ _ rfl rfl
  exact ⟨_, _, p1, rfl, hplan, hall, by decide⟩

/-- Witness of C14: with MPP enforced, the kept apply over the scan of columns 1, 2
with filter `c2 > 0` on a table with a TiFlash replica and the scan of columns 3,
4, pruned through the dispatch with demand `[3]`, is returned with its children
patched: no projection with an empty schema is among them. -/
theorem c14_no_empty_projection_under_join_witness :
    ∃ plan st',
      LogicalPlan.PruneColumns sampleEnv samplePlanEnv sampleOthers 2
        (LogicalPlan.Apply (sampleApply JoinType.InnerJoin
          (LogicalPlan.DataSource
            (sampleScan 1 [1, 2] [SampleExpr.gt (SampleExpr.col 2) (SampleExpr.num 0)] true))
          (LogicalPlan.DataSource (sampleScan 2 [3, 4] [] false))))
        [sampleCol 3] sampleStMPP = .ok (plan, st') ∧
      plan.ID = 9 ∧
      (∀ c ∈ plan.Children, ∀ proj, c = LogicalPlan.Projection proj →
        1 ≤ proj.base.schema.length) ∧
      plan.Children.map (fun c => c.Schema.length) = [1, 1] := by
  obtain ⟨r1, st1, l1, st3, _, _, _, _, hall⟩ :=
    (c14_no_empty_projection_under_join sampleEnv samplePlanEnv sampleOthers 1
      (fun _ _ _ => rfl)).2.2.1
      (sampleApply JoinType.InnerJoin
        (LogicalPlan.DataSource
          (sampleScan 1 [1, 2] [SampleExpr.gt (SampleExpr.col 2) (SampleExpr.num 0)] true))
        (LogicalPlan.DataSource (sampleScan 2 [3, 4] [] false)))
      [sampleCol 3] sampleStMPP _ _ _ _ rfl
      (by unfold LogicalApply.EliminateCond; decide) rfl
  exact ⟨_, _, rfl, by decide, hall, by decide⟩

/-- Witness of C15: the scan of columns 1, 2, 3 of a cluster table, pruned with an
empty demand, returns itself with the schema `[1]`, pre-prune column 0, and the
second call with the same demand returns that same DataSource and allocates
nothing; so does the scan of columns 1, 2, 3 of a normal table whose integer
handle is column 1. -/
theorem c15_idempotence_witness :
    (∃ (ds1 : DataSource SampleExpr Int (LogicalPlan SampleExpr Int)) (st1 st2 : St SampleExpr),
      DataSource.PruneColumns sampleEnv (sampleClusterScan 1 [1, 2, 3]) [] sampleSt =
        .ok (LogicalPlan.DataSource ds1, st1) ∧
      ds1.base.schema = [sampleCol 1] ∧
      DataSource.PruneColumns sampleEnv ds1 [] st1 = .ok (LogicalPlan.DataSource ds1, st2) ∧
      st2.vars = st1.vars) ∧
    (∃ (ds1 : DataSource SampleExpr Int (LogicalPlan SampleExpr Int)) (st1 st2 : St SampleExpr),
      DataSource.PruneColumns sampleEnv
        { sampleScan 1 [1, 2, 3] [] false with HandleCols := some ⟨true, sampleCol 1⟩ } []
        sampleSt = .ok (LogicalPlan.DataSource ds1, st1) ∧
      ds1.base.schema = [sampleCol 1] ∧ ds1.HandleCols = some ⟨true, sampleCol 1⟩ ∧
      DataSource.PruneColumns sampleEnv ds1 [] st1 = .ok (LogicalPlan.DataSource ds1, st2) ∧
      st2.vars = st1.vars) := by
  obtain ⟨plan2, st2, h2, _, _, hrest⟩ :=
    (c15_idempotence sampleEnv (sampleClusterScan 1 [1, 2, 3]) [] sampleSt _ _ rfl).2
      (by decide) (by decide) (Or.inl rfl) (fun hn => absurd ⟨rfl, by decide⟩ hn)
  obtain ⟨e1, e2⟩ := hrest (by decide)
  subst e1
  obtain ⟨plan3, st3, h3, _, _, hrest3⟩ :=
    (c15_idempotence sampleEnv
      { sampleScan 1 [1, 2, 3] [] false with HandleCols := some ⟨true, sampleCol 1⟩ } []
      sampleSt _ _ rfl).2
      (by decide) (by decide) (Or.inr (Or.inl (by decide))) (fun _ => by decide)
  obtain ⟨e3, e4⟩ := hrest3 (by decide)
  subst e3
  exact ⟨⟨_, _, st2, rfl, by decide, h2, e2⟩, ⟨_, _, st3, rfl, by decide, by decide, h3, e4⟩⟩

/-- Witness of C16: the scan of columns 1, 2, 3 pruned with demand `[1, 3]` ends
with the schema `[1, 3]`, and the scan of columns 1, 2, 3 of a cluster table
pruned with an empty demand ends with the schema `[1]`; both are sub-sequences of
the pre-prune schema. -/
theorem c16_schema_shrinkage_witness :
    (∃ plan st' ds1,
      DataSource.PruneColumns sampleEnv (sampleScan 1 [1, 2, 3] [] false)
        [sampleCol 1, sampleCol 3] sampleSt = .ok (plan, st') ∧
      DataSource.ReturnedIn ds1 plan ∧
      ds1.base.schema = [sampleCol 1, sampleCol 3] ∧
      List.Sublist (ds1.base.schema.map (fun c => c.UniqueID)) [1, 2, 3]) ∧
    (∃ plan st' ds1,
      DataSource.PruneColumns sampleEnv (sampleClusterScan 1 [1, 2, 3]) [] sampleSt =
        .ok (plan, st') ∧
      DataSource.ReturnedIn ds1 plan ∧
      ds1.base.schema = [sampleCol 1] ∧
      List.Sublist (ds1.base.schema.map (fun c => c.UniqueID)) [1, 2, 3]) := by
  obtain ⟨ds1, hret, hkeep, _⟩ :=
    (c16_schema_shrinkage sampleEnv (sampleScan 1 [1, 2, 3] [] false)
      [sampleCol 1, sampleCol 3] sampleSt).2 _ _ rfl
  obtain ⟨h1, _, h3⟩ := hkeep (by decide)
  obtain ⟨ds2, hret2, _, hemp⟩ :=
    (c16_schema_shrinkage sampleEnv (sampleClusterScan 1 [1, 2, 3]) [] sampleSt).2 _ _ rfl
  obtain ⟨hc, hi, infos, hs, _, hcl, _⟩ := hemp (by decide)
  obtain ⟨h0, _, hsub⟩ := hcl rfl (by decide)
  have e0 : hc = sampleCol 1 := by
    have : some (sampleCol 1) = some hc := h0
    exact (Option.some.inj this).symm
  exact ⟨⟨_, _, ds1, rfl, hret, by rw [h1]; decide, h3⟩,
    ⟨_, _, ds2, rfl, hret2, by rw [hs, e0], hsub⟩⟩

/-- Witness of C17: the sequence over the scans of columns 1, 2 and of columns 3,
4, pruned with demand `[3]`, keeps its first child with its full schema and gets
the pruned second scan as last child. -/
theorem c17_sequence_frame_witness :
    ((LogicalSequence.PruneColumns samplePrune
        (sampleSequence [LogicalPlan.DataSource (sampleScan 1 [1, 2] [] false),
                         LogicalPlan.DataSource (sampleScan 2 [3, 4] [] false)])
        [sampleCol 3] sampleSt).toOption.map
      (fun res => (res.1.ID, res.1.Children.map (fun c => c.Schema.map (fun col => col.UniqueID)),
        res.2.opt))) =
      some (7, [[1, 2], [3]], [TraceStep.ColumnPrune 2 [sampleCol 4]]) := by
  rw [c17_sequence_frame samplePrune
    (sampleSequence [LogicalPlan.DataSource (sampleScan 1 [1, 2] [] false),
                     LogicalPlan.DataSource (sampleScan 2 [3, 4] [] false)])
    [sampleCol 3] sampleSt [LogicalPlan.DataSource (sampleScan 1 [1, 2] [] false)]
    (LogicalPlan.DataSource (sampleScan 2 [3, 4] [] false)) rfl]
  decide

/-- Witness of C18: the inner apply over the scan of columns 1, 2 and the scan of
columns 3, 4 with filter `c3 > c1`, pruned with demand `[4]`, recomputes the
correlated column 1 from the pruned right child and prunes the left child with the
demand `[1]`, so the left child still produces column 1. -/
theorem c18_correlated_columns_demanded_witness :
    ∃ plan st' la1,
      LogicalApply.PruneColumns sampleEnv sampleCorPlanEnv samplePrune
        (sampleApply JoinType.InnerJoin
          (LogicalPlan.DataSource (sampleScan 1 [1, 2] [] false))
          (LogicalPlan.DataSource
            (sampleScan 2 [3, 4] [SampleExpr.gt (SampleExpr.col 3) (SampleExpr.col 1)] false)))
        [sampleCol 4] sampleSt = .ok (plan, st') ∧
      plan = LogicalPlan.Apply la1 ∧
      la1.CorCols = [⟨sampleCol 1⟩] ∧
      (∀ cc ∈ la1.CorCols, ∀ c ∈ la1.join.base.children.head?,
        Schema.Contains c.Schema cc.Column = true) := by
  obtain ⟨r1, st1, l1, st3, la1, leftDemand, hr, hcor, hdem, hl, hplan, hch, hmem, hcov⟩ :=
    c18_correlated_columns_demanded sampleEnv sampleCorPlanEnv samplePrune
      (sampleApply JoinType.InnerJoin
        (LogicalPlan.DataSource (sampleScan 1 [1, 2] [] false))
        (LogicalPlan.DataSource
          (sampleScan 2 [3, 4] [SampleExpr.gt (SampleExpr.col 3) (SampleExpr.col 1)] false)))
      [sampleCol 4] sampleSt _ _ rfl (by unfold LogicalApply.EliminateCond; decide) _ _ rfl
  cases hr
  have hcor' : la1.CorCols = [⟨sampleCol 1⟩] := by
    rw [hcor]
    decide
  refine ⟨_, _, la1, rfl, hplan, hcor', ?_⟩
  intro cc hcc c hc
  rw [hch] at hc
  simp only [List.head?_cons, Option.mem_def, Option.some.injEq] at hc
  subst hc
  rw [hcor'] at hcc
  simp only [List.mem_singleton] at hcc
  subst hcc
  subst hdem
  rw [hcor'] at hl
  cases hl
  decide

/-- Witness of C19: over the scans with plan ids 1 (columns 1, 2) and 2 (columns 3,
4) and demand `[1, 3]`, the join emits the step of scan 1 before the step of scan
2, and the inner apply emits the step of scan 2 before the step of scan 1. -/
theorem c19_child_pruning_order_witness :
    (∃ plan st',
      LogicalJoin.PruneColumns sampleEnv samplePlanEnv samplePrune
        (sampleApply JoinType.InnerJoin
          (LogicalPlan.DataSource (sampleScan 1 [1, 2] [] false))
          (LogicalPlan.DataSource (sampleScan 2 [3, 4] [] false))).join
        [sampleCol 1, sampleCol 3] sampleSt = .ok (plan, st') ∧
      ∃ evsL evsR rest, st'.opt = sampleSt.opt ++ evsL ++ evsR ++ rest ∧
        evsL = [TraceStep.ColumnPrune 1 [sampleCol 2]] ∧
        evsR = [TraceStep.ColumnPrune 2 [sampleCol 4]]) ∧
    (∃ plan st',
      LogicalApply.PruneColumns sampleEnv samplePlanEnv samplePrune
        (sampleApply JoinType.InnerJoin
          (LogicalPlan.DataSource (sampleScan 1 [1, 2] [] false))
          (LogicalPlan.DataSource (sampleScan 2 [3, 4] [] false)))
        [sampleCol 1, sampleCol 3] sampleSt = .ok (plan, st') ∧
      ∃ evsR evsL, st'.opt = sampleSt.opt ++ evsR ++ evsL ∧
        evsR = [TraceStep.ColumnPrune 2 [sampleCol 4]] ∧
        evsL = [TraceStep.ColumnPrune 1 [sampleCol 2]]) := by
  have key := c19_child_pruning_order sampleEnv samplePlanEnv samplePrune
    samplePrune_appendsTrace (fun _ _ st => ⟨[], (List.append_nil st.opt).symm⟩)
  refine ⟨?_, ?_⟩
  · obtain ⟨l1, st1, r1, st3, evsL, evsR, rest, hl, hL, hr, hR, hst⟩ :=
      key.1 (sampleApply JoinType.InnerJoin
          (LogicalPlan.DataSource (sampleScan 1 [1, 2] [] false))
          (LogicalPlan.DataSource (sampleScan 2 [3, 4] [] false))).join
        [sampleCol 1, sampleCol 3] sampleSt _ _ _ _ rfl rfl
    cases hl
    cases hr
    refine ⟨_, _, rfl, evsL, evsR, rest, hst, ?_, ?_⟩
    · exact (@List.append_cancel_left _ [] _ _ hL).symm
    · exact (List.append_cancel_left hR).symm
  · obtain ⟨r1, st1, l1, st3, evsR, evsL, hr, hR, hl, hL, hst⟩ :=
      key.2 (sampleApply JoinType.InnerJoin
          (LogicalPlan.DataSource (sampleScan 1 [1, 2] [] false))
          (LogicalPlan.DataSource (sampleScan 2 [3, 4] [] false)))
        [sampleCol 1, sampleCol 3] sampleSt _ _ _ _ rfl
        (by unfold LogicalApply.EliminateCond; decide) rfl
    cases hr
    cases hl
    refine ⟨_, _, rfl, evsR, evsL, hst, ?_, ?_⟩
    · exact (@List.append_cancel_left _ [] _ _ hR).symm
    · exact (List.append_cancel_left hL).symm

/-- Witness of C20: the by-items `[c1, c1, 5, c2]` are reduced to `[c1, c2]` with
the extra demand `[1, 2]`, and a second run leaves that list as it is. -/
theorem c20_prune_by_items_idempotent_witness :
    (pruneByItems sampleEnv 3
      [⟨SampleExpr.col 1, false⟩, ⟨SampleExpr.col 1, true⟩, ⟨SampleExpr.num 5, false⟩,
       ⟨SampleExpr.col 2, false⟩] sampleSt).1 =
      [⟨SampleExpr.col 1, false⟩, ⟨SampleExpr.col 2, false⟩] ∧
    (pruneByItems sampleEnv 4
      (pruneByItems sampleEnv 3
        [⟨SampleExpr.col 1, false⟩, ⟨SampleExpr.col 1, true⟩, ⟨SampleExpr.num 5, false⟩,
         ⟨SampleExpr.col 2, false⟩] sampleSt).1 sampleSt).1 =
      (pruneByItems sampleEnv 3
        [⟨SampleExpr.col 1, false⟩, ⟨SampleExpr.col 1, true⟩, ⟨SampleExpr.num 5, false⟩,
         ⟨SampleExpr.col 2, false⟩] sampleSt).1 :=
  ⟨by decide,
   ((c20_prune_by_items_idempotent sampleEnv 3
      [⟨SampleExpr.col 1, false⟩, ⟨SampleExpr.col 1, true⟩, ⟨SampleExpr.num 5, false⟩,
       ⟨SampleExpr.col 2, false⟩] sampleSt).2.2.2 4 sampleSt).1⟩

end ColumnPruning
